import Mathlib

/-!
Verification of the bubble-diagram-to-constraint-graph compiler and the
mask-refinement schedule of the floorplan generator
(`floorplan/floorplan_generator.py`).

The Python functions are embedded shallowly:

* `generate_bubble_diagram` models the deterministic part of
  `FloorplanGenerator.generate_bubble_diagram` (lines 261-324): everything
  after the JSON response has been parsed.  Python dictionaries built with
  `dict(zip(...))` / comprehensions are modelled by last-binding-wins
  association lookups; a failing `d[k]` lookup (Python `KeyError`),
  `list.remove` on a missing element (`ValueError`) and `list[0]` on an
  empty list (`IndexError`) are modelled in the `Except String` monad.
* The balanced-brace response extraction (line 255-256,
  `regex.search(r..., raw).group()`) is modelled by `regexSearch` on
  `List Char`.
* The fixed-node schedule of `generate_layout_masks` (lines 341-364) is
  modelled by `layout_real_nodes`, `sortedTypes`, `fixedNodes` and
  `generate_layout_masks`; the HouseGAN++ model is an opaque generator
  argument.

The output record `BD` collects the values of the source's local
variables that the claims talk about (`room_list` after the door nodes
are appended, `real_nodes_len`, `room_list_indices`, the index-level
`connection` triples and the sorted edge `triples`).
-/

namespace AnyHome

/-- Input of the compiler: the four fields of the parsed JSON response. -/
structure FPInput where
  complete_room_list : List String
  modified_room_list : List String
  connection : List (String × String)
  front_door : List String
deriving DecidableEq, Repr

/-- Edge triple `(i, polarity, j)` as built by the source. -/
abbrev Triple := Nat × Int × Nat

/-- Last-binding-wins association lookup: models lookup in a Python dict
built by inserting the pairs in list order (later keys overwrite). -/
def lastAssoc : List (String × String) → String → Option String
  | [], _ => none
  | p :: l, k =>
    match lastAssoc l k with
    | some v => some v
    | none => if p.1 = k then some p.2 else none

/-- Index of the last occurrence of `k` in `l`: models
`{room: i for i, room in enumerate(room_list)}` followed by `room_dict[k]`. -/
def lastIndexOf : List String → String → Option Nat
  | [], _ => none
  | a :: l, k =>
    match lastIndexOf l k with
    | some j => some (j + 1)
    | none => if a = k then some 0 else none

/-- Error message of a Python `KeyError` for key `k`. -/
def keyErr (k : String) : String := "KeyError: " ++ k

/-- Dict lookup raising `KeyError` when the key is absent. -/
def getKey (d : List (String × String)) (k : String) : Except String String :=
  match lastAssoc d k with
  | some v => Except.ok v
  | none => Except.error (keyErr k)

/-- `room_dict[k]` lookup raising `KeyError` when the key is absent. -/
def getIdx (l : List String) (k : String) : Except String Nat :=
  match lastIndexOf l k with
  | some i => Except.ok i
  | none => Except.error (keyErr k)

/-- Python `list.remove(t)`: removes the first occurrence, `ValueError`
when absent. -/
def pyRemove (T : List Triple) (t : Triple) : Except String (List Triple) :=
  if t ∈ T then Except.ok (T.erase t) else Except.error "ValueError: x not in list"

/-- Python `l[0]`: `IndexError` on an empty list. -/
def pyHead (l : List Nat) : Except String Nat :=
  match l with
  | [] => Except.error "IndexError: list index out of range"
  | a :: _ => Except.ok a

/-- Python `s[:-1]` on a string: all characters but the last. -/
def pyDropLast (s : String) : String := s.data.dropLast.asString

/-- The fixed room-type registry of the source (line 282-283). -/
def type_list : List (String × Nat) :=
  [("living_room", 1), ("kitchen", 2), ("bedroom", 3), ("bathroom", 4),
   ("balcony", 5), ("entrance", 6), ("dining_room", 7), ("study_room", 8),
   ("storage", 10), ("front_door", 15), ("unknown", 16), ("interior_door", 17)]

/-- `type_list[room[:-1]] if room[:-1] in type_list else type_list["unknown"]`. -/
def typeIdx (room : String) : Nat :=
  match type_list.find? (fun p => p.1 = pyDropLast room) with
  | some p => p.2
  | none => 16

/-- Name of the `i`-th interior-door node (1-based suffix). -/
def interiorName (i : Nat) : String := "interior_door" ++ Nat.repr i

/-- Name of the `i`-th front-door node (1-based suffix). -/
def frontName (i : Nat) : String := "front_door" ++ Nat.repr i

/-- `["interior_door" + str(i) for i in range(1, m + 1)]`. -/
def interior_door_list (m : Nat) : List String :=
  (List.range m).map (fun i => interiorName (i + 1))

/-- `["front_door" + str(i) for i in range(1, m + 1)]`. -/
def front_door_list (m : Nat) : List String :=
  (List.range m).map (fun i => frontName (i + 1))

/-- `[(pair[0], "interior_door" + str(i), pair[1]) for i, pair in
enumerate(connection, 1)]`. -/
def connWithDoors (conn : List (String × String)) : List (String × String × String) :=
  conn.enum.map (fun p => (p.2.1, interiorName (p.1 + 1), p.2.2))

/-- The pairs `(i, j)`, `i < j`, in the order of the source's nested loops
`for i in range(n): for j in range(n): if j > i`. -/
def pairsLt (n : Nat) : List (Nat × Nat) :=
  (List.range n).flatMap (fun i =>
    ((List.range n).filter (fun j => decide (i < j))).map (fun j => (i, j)))

/-- The initial all-`-1` edge list (lines 292-296). -/
def initTriples (n : Nat) : List Triple :=
  (pairsLt n).map (fun p => (p.1, (-1 : Int), p.2))

/-- Python `x in e_map` for an index triple. -/
def memT (x : Nat) (e : Nat × Nat × Nat) : Bool :=
  decide (x = e.1) || decide (x = e.2.1) || decide (x = e.2.2)

/-- Body of the adjacency loop (lines 298-311) for one pair `(i, j)`. -/
def adjacencyStep (conn : List (Nat × Nat × Nat)) (T : List Triple) (p : Nat × Nat) :
    Except String (List Triple) :=
  if conn.any (fun e => memT p.1 e && memT p.2 e) then do
    let d ← pyHead ((conn.filter (fun e =>
      (decide (e.1 = p.1) && decide (e.2.2 = p.2)) ||
      (decide (e.1 = p.2) && decide (e.2.2 = p.1)))).map (fun e => e.2.1))
    let T1 ← pyRemove T (p.1, (-1 : Int), d)
    let T2 ← pyRemove T1 (p.2, (-1 : Int), d)
    let T3 ← pyRemove T2 (p.1, (-1 : Int), p.2)
    pure (T3 ++ [(p.1, (1 : Int), d), (p.2, (1 : Int), d), (p.1, (1 : Int), p.2)])
  else
    pure T

/-- Body of the front-door loop (lines 314-316) for one enumerated entry. -/
def frontStep (rl : List String) (T : List Triple) (q : Nat × String) :
    Except String (List Triple) := do
  let r ← getIdx rl q.2
  let f ← getIdx rl (frontName (q.1 + 1))
  let T1 ← pyRemove T (r, (-1 : Int), f)
  pure (T1 ++ [(r, (1 : Int), f)])

/-- The front-door loop (lines 314-316). -/
def frontFold (rl : List String) (fd : List String) (T : List Triple) :
    Except String (List Triple) :=
  fd.enum.foldlM (frontStep rl) T

/-- Translation of one connection pair through `room_name_dict` (line 269). -/
def transPair (d : List (String × String)) (p : String × String) :
    Except String (String × String) := do
  let a ← getKey d p.1
  let b ← getKey d p.2
  pure (a, b)

/-- Index resolution of one `(room, door, room)` triple through
`room_dict` (line 289). -/
def idxTriple (rl : List String) (t : String × String × String) :
    Except String (Nat × Nat × Nat) := do
  let a ← getIdx rl t.1
  let d ← getIdx rl t.2.1
  let b ← getIdx rl t.2.2
  pure (a, d, b)

/-- The extended room list: real rooms, then interior doors, then front
doors (lines 274-278). -/
def rlExt (inp : FPInput) (m1 m2 : Nat) : List String :=
  inp.modified_room_list ++ interior_door_list m1 ++ front_door_list m2

/-- Sort key order of `sorted(triples, key=lambda x: (x[0], x[2]))`. -/
def tripleLe (a b : Triple) : Prop :=
  a.1 < b.1 ∨ (a.1 = b.1 ∧ a.2.2 ≤ b.2.2)

instance : DecidableRel tripleLe :=
  fun a b => inferInstanceAs (Decidable (a.1 < b.1 ∨ (a.1 = b.1 ∧ a.2.2 ≤ b.2.2)))

/-- Stable sort by `(x[0], x[2])`; a stable sort agrees with Python's
`sorted` for this key. -/
def organize (T : List Triple) : List Triple := List.insertionSort tripleLe T

/-- Modelled from the spec: the missing helper `utils.one_hot_embedding`
turns each type code into a one-hot vector over the registry; the source
then drops column `0` (`[:, 1:]`, code `0` reserved/unused). -/
def one_hot_embedding (labels : List Nat) : List (List Nat) :=
  labels.map (fun t => (List.range 18).map (fun c => if c = t then 1 else 0))

/-- `utils.one_hot_embedding(room_list_indices)[:, 1:]`. -/
def graphNodesOf (labels : List Nat) : List (List Nat) :=
  (one_hot_embedding labels).map (fun row => row.drop 1)

/-! Injectivity of `Nat.repr`, needed to know that the synthesized door
names `interior_door1, interior_door2, ...` are pairwise distinct. -/

/-- Value of a decimal digit character. -/
def digitVal (c : Char) : Nat := c.toNat - 48

/-- Value of a digit string, most significant first. -/
def digitsVal (l : List Char) : Nat := l.foldl (fun a c => 10 * a + digitVal c) 0

theorem digitsVal_from (l : List Char) :
    ∀ a : Nat, l.foldl (fun a c => 10 * a + digitVal c) a =
      a * 10 ^ l.length + digitsVal l := by
  induction l with
  | nil => intro a; simp [digitsVal]
  | cons c l ih =>
    intro a
    simp only [List.foldl_cons, List.length_cons, digitsVal] at *
    rw [ih (10 * a + digitVal c), ih (10 * 0 + digitVal c)]
    ring

theorem digitsVal_append (l1 l2 : List Char) :
    digitsVal (l1 ++ l2) = digitsVal l1 * 10 ^ l2.length + digitsVal l2 := by
  simp only [digitsVal, List.foldl_append]
  rw [digitsVal_from]
  rfl

theorem digitVal_digitChar (m : Nat) (hm : m < 10) :
    digitVal (Nat.digitChar m) = m := by
  interval_cases m <;> rfl

theorem toDigitsCore_acc (fuel n : Nat) (acc : List Char) (h : n < fuel) :
    Nat.toDigitsCore 10 fuel n acc = Nat.toDigitsCore 10 fuel n [] ++ acc := by
  induction fuel generalizing n acc with
  | zero => omega
  | succ f ih =>
    simp only [Nat.toDigitsCore]
    by_cases hd : n / 10 = 0
    · simp [hd]
    · simp only [hd, if_false]
      have hlt : n / 10 < f := by
        have h1 : n / 10 < n := Nat.div_lt_self (by omega) (by omega)
        omega
      rw [ih (n / 10) ((n % 10).digitChar :: acc) hlt,
          ih (n / 10) [(n % 10).digitChar] hlt]
      simp

theorem toDigitsCore_fuel (f1 f2 n : Nat) (h1 : n < f1) (h2 : n < f2) :
    Nat.toDigitsCore 10 f1 n [] = Nat.toDigitsCore 10 f2 n [] := by
  induction f1 generalizing f2 n with
  | zero => omega
  | succ f ih =>
    cases f2 with
    | zero => omega
    | succ g =>
      simp only [Nat.toDigitsCore]
      by_cases hd : n / 10 = 0
      · simp [hd]
      · simp only [hd, if_false]
        have hn : n / 10 < n := Nat.div_lt_self (by omega) (by omega)
        rw [toDigitsCore_acc f (n / 10) [(n % 10).digitChar] (by omega),
            toDigitsCore_acc g (n / 10) [(n % 10).digitChar] (by omega),
            ih g (n / 10) (by omega) (by omega)]

theorem toDigits_succ_step (n : Nat) (hd : n / 10 ≠ 0) :
    Nat.toDigits 10 n = Nat.toDigits 10 (n / 10) ++ [Nat.digitChar (n % 10)] := by
  have hn : n / 10 < n := Nat.div_lt_self (by omega) (by omega)
  have h1 : Nat.toDigits 10 n = Nat.toDigitsCore 10 n (n / 10) [(n % 10).digitChar] := by
    simp only [Nat.toDigits, Nat.toDigitsCore, hd, if_false]
  rw [h1, toDigitsCore_acc n (n / 10) [(n % 10).digitChar] (by omega),
      toDigitsCore_fuel n (n / 10 + 1) (n / 10) (by omega) (by omega)]
  rfl

theorem digitsVal_toDigits (n : Nat) : digitsVal (Nat.toDigits 10 n) = n := by
  induction n using Nat.strong_induction_on with
  | _ n ih =>
    by_cases hd : n / 10 = 0
    · have hn : n < 10 := by omega
      simp only [Nat.toDigits, Nat.toDigitsCore, hd, if_true]
      simp only [digitsVal, List.foldl_cons, List.foldl_nil]
      rw [digitVal_digitChar (n % 10) (Nat.mod_lt n (by omega))]
      omega
    · rw [toDigits_succ_step n hd, digitsVal_append]
      have hn : n / 10 < n := Nat.div_lt_self (by omega) (by omega)
      rw [ih (n / 10) hn]
      simp only [List.length_cons, List.length_nil, digitsVal, List.foldl_cons,
        List.foldl_nil]
      rw [digitVal_digitChar (n % 10) (Nat.mod_lt n (by omega))]
      norm_num
      omega

theorem natRepr_injective : Function.Injective Nat.repr := by
  intro m n h
  have hd : Nat.toDigits 10 m = Nat.toDigits 10 n := by
    have := congrArg String.data h
    simpa [Nat.repr, List.asString] using this
  have := congrArg digitsVal hd
  rwa [digitsVal_toDigits, digitsVal_toDigits] at this

theorem interiorName_inj {i j : Nat} (h : interiorName i = interiorName j) : i = j := by
  have hdata := congrArg String.data h
  simp only [interiorName, String.data_append] at hdata
  have := List.append_cancel_left hdata
  exact natRepr_injective (by
    apply congrArg List.asString at this
    simpa [List.asString] using this)

theorem frontName_inj {i j : Nat} (h : frontName i = frontName j) : i = j := by
  have hdata := congrArg String.data h
  simp only [frontName, String.data_append] at hdata
  have := List.append_cancel_left hdata
  exact natRepr_injective (by
    apply congrArg List.asString at this
    simpa [List.asString] using this)

theorem frontName_ne_interiorName (i j : Nat) : frontName i ≠ interiorName j := by
  intro h
  have hdata := congrArg String.data h
  simp only [frontName, interiorName, String.data_append] at hdata
  have h0 := congrArg (fun l => l.head?) hdata
  simp at h0

/-! Counting machinery: the triple list is characterized, throughout the
edge-building loops, by a sign function on the ordered pairs `(i, j)`,
`i < j < n`: at any point the list holds exactly one triple per pair. -/

theorem mem_pairsLt (n : Nat) (p : Nat × Nat) : p ∈ pairsLt n ↔ p.1 < p.2 ∧ p.2 < n := by
  obtain ⟨i, j⟩ := p
  simp only [pairsLt, List.mem_flatMap, List.mem_map, List.mem_filter, List.mem_range,
    decide_eq_true_eq, Prod.mk.injEq]
  constructor
  · rintro ⟨a, ha, j', ⟨hj', hlt⟩, h1, h2⟩
    subst h1; subst h2; exact ⟨hlt, hj'⟩
  · rintro ⟨hij, hjn⟩
    exact ⟨i, by omega, j, ⟨hjn, hij⟩, rfl, rfl⟩

theorem nodup_pairsLt (n : Nat) : (pairsLt n).Nodup := by
  rw [pairsLt, List.nodup_flatMap]
  refine ⟨fun i _ => ?_, ?_⟩
  · exact List.Nodup.map (fun a b h => by simpa using h)
      (List.Nodup.filter _ (List.nodup_range n))
  · refine List.Pairwise.imp ?_ (List.pairwise_lt_range n)
    intro a b hab x hxa hxb
    simp only [List.mem_map, List.mem_filter] at hxa hxb
    obtain ⟨j1, _, h1⟩ := hxa
    obtain ⟨j2, _, h2⟩ := hxb
    rw [← h1] at h2
    simp only [Prod.mk.injEq] at h2
    omega

theorem length_filter_gt (n i : Nat) (hi : i < n) :
    (((List.range n).filter (fun j => decide (i < j))).length) = n - i - 1 := by
  induction n with
  | zero => omega
  | succ m ih =>
    rw [List.range_succ, List.filter_append]
    by_cases him : i < m
    · rw [List.length_append, ih him]
      have hone : List.filter (fun j => decide (i < j)) [m] = [m] := by
        simp [him]
      rw [hone]
      simp only [List.length_cons, List.length_nil]
      omega
    · have hie : i = m := by omega
      subst hie
      have hz : ((List.range i).filter (fun j => decide (i < j))) = [] := by
        apply List.filter_eq_nil_iff.mpr
        intro j hj
        simp only [List.mem_range] at hj
        simp only [decide_eq_true_eq]
        omega
      have h1 : List.filter (fun j => decide (i < j)) [i] = [] := by
        simp
      rw [hz, h1]
      simp

theorem sum_map_add_one (l : List Nat) (f : Nat → Nat) :
    (l.map (fun i => f i + 1)).sum = (l.map f).sum + l.length := by
  induction l with
  | nil => simp
  | cons a l ih =>
    simp only [List.map_cons, List.sum_cons, List.length_cons, ih]
    omega

theorem two_mul_sum_desc (n : Nat) :
    2 * ((List.range n).map (fun i => n - i - 1)).sum = n * (n - 1) := by
  induction n with
  | zero => simp
  | succ m ih =>
    rw [List.range_succ, List.map_append, List.sum_append]
    have hcong : ((List.range m).map fun i => m + 1 - i - 1) =
        ((List.range m).map fun i => (m - i - 1) + 1) := by
      apply List.map_congr_left
      intro i hi
      simp only [List.mem_range] at hi
      omega
    rw [hcong, sum_map_add_one, List.length_range]
    simp only [List.map_cons, List.map_nil, List.sum_cons, List.sum_nil]
    have hz : m + 1 - m - 1 = 0 := by omega
    rw [hz]
    have hmul : (m + 1) * (m + 1 - 1) = m * (m - 1) + 2 * m := by
      cases m with
      | zero => rfl
      | succ k =>
        simp only [Nat.succ_sub_one]
        ring
    rw [hmul]
    omega

theorem length_pairsLt (n : Nat) : (pairsLt n).length = n * (n - 1) / 2 := by
  have hsum : (pairsLt n).length = ((List.range n).map (fun i => n - i - 1)).sum := by
    rw [pairsLt, List.length_flatMap]
    congr 1
    apply List.map_congr_left
    intro i hi
    simp only [Function.comp_apply, List.length_map]
    exact length_filter_gt n i (List.mem_range.mp hi)
  have h2 := two_mul_sum_desc n
  omega

theorem count_map_pairs (l : List (Nat × Nat)) (hl : l.Nodup) (f : Nat × Nat → Int)
    (i j : Nat) (s : Int) :
    ((l.map (fun p => (p.1, f p, p.2))).count (i, s, j)) =
      if (i, j) ∈ l ∧ s = f (i, j) then 1 else 0 := by
  induction l with
  | nil => simp
  | cons q l ih =>
    obtain ⟨a, b⟩ := q
    have hql : (a, b) ∉ l := (List.nodup_cons.mp hl).1
    have hnd : l.Nodup := (List.nodup_cons.mp hl).2
    simp only [List.map_cons, List.count_cons, ih hnd, List.mem_cons]
    by_cases hq : (i, j) = (a, b)
    · rw [Prod.ext_iff] at hq
      obtain ⟨ha, hb2⟩ := hq
      simp only at ha hb2
      subst ha
      subst hb2
      by_cases hs : s = f (i, j)
      · subst hs
        simp [hql]
      · have hb : (((i, f (i, j), j) : Triple) == ((i, s, j) : Triple)) = false := by
          simp only [beq_eq_false_iff_ne, ne_eq, Prod.mk.injEq, not_and]
          intro _ hc _
          exact hs hc.symm
        rw [hb]
        simp [hs]
    · have hb : (((a, f (a, b), b) : Triple) == ((i, s, j) : Triple)) = false := by
        simp only [beq_eq_false_iff_ne, ne_eq, Prod.mk.injEq, not_and]
        intro h1 _ h3
        exact hq (by rw [← h1, ← h3])
      rw [hb]
      have hiff : ((i = a ∧ j = b) ∨ (i, j) ∈ l) ↔ (i, j) ∈ l := by
        constructor
        · rintro (h | h)
          · exact absurd (by rw [← h.1, ← h.2] : (i, j) = (a, b)) hq
          · exact h
        · exact Or.inr
      by_cases hm : (i, j) ∈ l
      · simp [hm, hiff.mpr hm]
      · have hm2 : ¬((i = a ∧ j = b) ∨ (i, j) ∈ l) := fun hc => hm (hiff.mp hc)
        have c1 : ¬((i, j) ∈ l ∧ s = f (i, j)) := fun hc => hm hc.1
        have c2 : ¬(((i, j) = (a, b) ∨ (i, j) ∈ l) ∧ s = f (i, j)) := by
          rintro ⟨h | h, _⟩
          · exact hq h
          · exact hm h
        rw [if_neg c1, if_neg c2]
        simp

/-- The loop invariant: `T` holds exactly one triple per ordered pair
`(i, j)`, `i < j < n`, whose polarity is `sgn i j`. -/
def countChar (n : Nat) (sgn : Nat → Nat → Int) (T : List Triple) : Prop :=
  ∀ i j : Nat, ∀ s : Int,
    T.count (i, s, j) = if i < j ∧ j < n ∧ s = sgn i j then 1 else 0

/-- Flip one ordered pair of the sign function to `+1`. -/
def setPlus (sgn : Nat → Nat → Int) (a b : Nat) : Nat → Nat → Int :=
  fun i j => if i = a ∧ j = b then 1 else sgn i j

theorem countChar_congr {n : Nat} {sgn sgn' : Nat → Nat → Int} {T : List Triple}
    (h : countChar n sgn T) (he : ∀ i j, i < j → j < n → sgn i j = sgn' i j) :
    countChar n sgn' T := by
  intro i j s
  rw [h i j s]
  by_cases hij : i < j ∧ j < n
  · rw [he i j hij.1 hij.2]
  · rw [if_neg (fun hc => hij ⟨hc.1, hc.2.1⟩), if_neg (fun hc => hij ⟨hc.1, hc.2.1⟩)]

theorem perm_count {T T' : List Triple} (hp : T.Perm T') (t : Triple) :
    T.count t = T'.count t := by
  induction hp with
  | nil => rfl
  | cons x _ ih => simp [List.count_cons, ih]
  | swap x y l =>
    simp only [List.count_cons]
    omega
  | trans _ _ ih1 ih2 => rw [ih1, ih2]

theorem countChar_perm {n : Nat} {sgn : Nat → Nat → Int} {T T' : List Triple}
    (h : countChar n sgn T) (hp : T.Perm T') : countChar n sgn T' := by
  intro i j s
  rw [← perm_count hp (i, s, j)]
  exact h i j s

theorem countChar_initTriples (n : Nat) :
    countChar n (fun _ _ => (-1 : Int)) (initTriples n) := by
  intro i j s
  rw [initTriples, count_map_pairs _ (nodup_pairsLt n)]
  simp [mem_pairsLt, and_assoc]

/-- Values read off the invariant: flipping one pair whose current sign is
`-1`, as `triples.remove((a, -1, b)); triples.append((a, 1, b))` does. -/
theorem countChar_flip1 {n : Nat} {sgn : Nat → Nat → Int} {T : List Triple}
    (h : countChar n sgn T) {a b : Nat} (hab : a < b) (hbn : b < n)
    (hs : sgn a b = -1) :
    ((a, (-1 : Int), b) ∈ T) ∧
      countChar n (setPlus sgn a b) (T.erase (a, (-1 : Int), b) ++ [(a, (1 : Int), b)]) := by
  have hmem : (a, (-1 : Int), b) ∈ T := by
    have := h a b (-1)
    rw [if_pos ⟨hab, hbn, hs.symm⟩] at this
    exact List.count_pos_iff.mp (by omega)
  refine ⟨hmem, ?_⟩
  intro i j s
  rw [List.count_append]
  by_cases hij : i = a ∧ j = b
  · obtain ⟨rfl, rfl⟩ := hij
    by_cases hs1 : s = -1
    · subst hs1
      have h1 := h i j (-1)
      rw [if_pos ⟨hab, hbn, hs.symm⟩] at h1
      rw [List.count_erase_self, h1, List.count_singleton]
      have hb : (((i, (1 : Int), j) : Triple) == ((i, (-1 : Int), j) : Triple)) = false := by
        simp
      rw [hb]
      have hcond : ¬(i < j ∧ j < n ∧ (-1 : Int) = setPlus sgn i j i j) := by
        simp [setPlus]
      rw [if_neg hcond]
      simp
    · have hne : ((i, s, j) : Triple) ≠ (i, (-1 : Int), j) := by
        simp only [ne_eq, Prod.mk.injEq, not_and]
        intro _ hc _
        exact hs1 hc
      rw [List.count_erase_of_ne hne, h i j s, List.count_singleton]
      by_cases hs2 : s = 1
      · subst hs2
        have hcond1 : ¬(i < j ∧ j < n ∧ (1 : Int) = sgn i j) := by
          intro hc
          rw [hs] at hc
          exact absurd hc.2.2 (by decide)
        rw [if_neg hcond1]
        simp [setPlus, hab, hbn]
      · have hcond1 : ¬(i < j ∧ j < n ∧ s = sgn i j) := by
          intro hc
          rw [hs] at hc
          exact hs1 hc.2.2
        rw [if_neg hcond1]
        have hb : (((i, (1 : Int), j) : Triple) == ((i, s, j) : Triple)) = false := by
          simp only [beq_eq_false_iff_ne, ne_eq, Prod.mk.injEq, not_and]
          intro _ hc _
          exact hs2 hc.symm
        rw [hb]
        have hcond2 : ¬(i < j ∧ j < n ∧ s = setPlus sgn i j i j) := by
          intro hc
          apply hs2
          simpa [setPlus] using hc.2.2
        rw [if_neg hcond2]
        simp
  · have hne : ((i, s, j) : Triple) ≠ (a, (-1 : Int), b) := by
      simp only [ne_eq, Prod.mk.injEq, not_and]
      intro h1 _ h3
      exact hij ⟨h1, h3⟩
    rw [List.count_erase_of_ne hne, h i j s, List.count_singleton]
    have hb : (((a, (1 : Int), b) : Triple) == ((i, s, j) : Triple)) = false := by
      simp only [beq_eq_false_iff_ne, ne_eq, Prod.mk.injEq, not_and]
      intro h1 _ h3
      exact hij ⟨h1.symm, h3.symm⟩
    rw [hb]
    have hsp : setPlus sgn a b i j = sgn i j := by
      simp [setPlus, hij]
    rw [hsp]
    simp

/-! Dissecting one successful pass of the loop bodies. -/

theorem exceptBind_ok {α β : Type} (a : α) (g : α → Except String β) :
    (Except.ok a >>= g : Except String β) = g a := rfl

theorem pyRemove_ok {T T' : List Triple} {t : Triple} (h : pyRemove T t = Except.ok T') :
    t ∈ T ∧ T' = T.erase t := by
  by_cases hm : t ∈ T
  · rw [pyRemove, if_pos hm] at h
    exact ⟨hm, (Except.ok.inj h).symm⟩
  · rw [pyRemove, if_neg hm] at h
    cases h

theorem pyRemove_ok_of_mem {T : List Triple} {t : Triple} (hm : t ∈ T) :
    pyRemove T t = Except.ok (T.erase t) := by
  rw [pyRemove, if_pos hm]

theorem pyHead_ok {l : List Nat} {d : Nat} : pyHead l = Except.ok d ↔ l.head? = some d := by
  cases l <;> simp [pyHead]

theorem adjacencyStep_ok {conn : List (Nat × Nat × Nat)} {T T₀ : List Triple}
    {p : Nat × Nat} (h : adjacencyStep conn T p = Except.ok T₀) :
    T₀ = T ∨
    ∃ d, ((p.1, (-1 : Int), d) ∈ T) ∧
      ((p.2, (-1 : Int), d) ∈ T.erase (p.1, (-1 : Int), d)) ∧
      ((p.1, (-1 : Int), p.2) ∈ (T.erase (p.1, (-1 : Int), d)).erase (p.2, (-1 : Int), d)) ∧
      T₀ = (((T.erase (p.1, (-1 : Int), d)).erase (p.2, (-1 : Int), d)).erase
          (p.1, (-1 : Int), p.2))
        ++ [(p.1, (1 : Int), d), (p.2, (1 : Int), d), (p.1, (1 : Int), p.2)] := by
  rw [adjacencyStep] at h
  by_cases hc : conn.any (fun e => memT p.1 e && memT p.2 e)
  · rw [if_pos hc] at h
    right
    obtain ⟨d, hd⟩ : ∃ d, pyHead ((conn.filter (fun e =>
        (decide (e.1 = p.1) && decide (e.2.2 = p.2)) ||
        (decide (e.1 = p.2) && decide (e.2.2 = p.1)))).map (fun e => e.2.1)) =
        Except.ok d := by
      cases hh : pyHead ((conn.filter (fun e =>
          (decide (e.1 = p.1) && decide (e.2.2 = p.2)) ||
          (decide (e.1 = p.2) && decide (e.2.2 = p.1)))).map (fun e => e.2.1)) with
      | error e => rw [hh] at h; cases h
      | ok d => exact ⟨d, rfl⟩
    rw [hd] at h
    simp only [exceptBind_ok] at h
    refine ⟨d, ?_⟩
    cases h1 : pyRemove T (p.1, (-1 : Int), d) with
    | error e => rw [h1] at h; cases h
    | ok T1 =>
      rw [h1] at h
      simp only [exceptBind_ok] at h
      obtain ⟨hm1, hT1⟩ := pyRemove_ok h1
      cases h2 : pyRemove T1 (p.2, (-1 : Int), d) with
      | error e => rw [h2] at h; cases h
      | ok T2 =>
        rw [h2] at h
        simp only [exceptBind_ok] at h
        obtain ⟨hm2, hT2⟩ := pyRemove_ok h2
        cases h3 : pyRemove T2 (p.1, (-1 : Int), p.2) with
        | error e => rw [h3] at h; cases h
        | ok T3 =>
          rw [h3] at h
          simp only [exceptBind_ok, pure, Except.pure] at h
          obtain ⟨hm3, hT3⟩ := pyRemove_ok h3
          subst hT1
          subst hT2
          subst hT3
          exact ⟨hm1, hm2, hm3, (Except.ok.inj h).symm⟩
  · rw [if_neg hc] at h
    simp only [pure, Except.pure] at h
    exact Or.inl (Except.ok.inj h).symm

theorem frontStep_ok {rl : List String} {T T₀ : List Triple} {q : Nat × String}
    (h : frontStep rl T q = Except.ok T₀) :
    ∃ r f, getIdx rl q.2 = Except.ok r ∧ getIdx rl (frontName (q.1 + 1)) = Except.ok f ∧
      ((r, (-1 : Int), f) ∈ T) ∧
      T₀ = T.erase (r, (-1 : Int), f) ++ [(r, (1 : Int), f)] := by
  rw [frontStep] at h
  cases hr : getIdx rl q.2 with
  | error e => rw [hr] at h; cases h
  | ok r =>
    rw [hr] at h
    simp only [exceptBind_ok] at h
    cases hf : getIdx rl (frontName (q.1 + 1)) with
    | error e => rw [hf] at h; cases h
    | ok f =>
      rw [hf] at h
      simp only [exceptBind_ok] at h
      cases h1 : pyRemove T (r, (-1 : Int), f) with
      | error e => rw [h1] at h; cases h
      | ok T1 =>
        rw [h1] at h
        simp only [exceptBind_ok, pure, Except.pure] at h
        obtain ⟨hm1, hT1⟩ := pyRemove_ok h1
        subst hT1
        exact ⟨r, f, rfl, rfl, hm1, (Except.ok.inj h).symm⟩

/-! The weak invariant: any successful run of the loops keeps exactly one
triple per pair, with polarity `-1` or `+1`.  This holds for every input
on which the function returns at all. -/

theorem countChar_mem_cond {n : Nat} {sgn : Nat → Nat → Int} {T : List Triple}
    (h : countChar n sgn T) {a b : Nat} {s : Int} (hm : (a, s, b) ∈ T) :
    a < b ∧ b < n ∧ s = sgn a b := by
  have hc := h a b s
  by_cases hcond : a < b ∧ b < n ∧ s = sgn a b
  · exact hcond
  · rw [if_neg hcond] at hc
    exact absurd (List.count_pos_iff.mpr hm) (by omega)

theorem fold_adj_ex {n : Nat} (conn : List (Nat × Nat × Nat)) :
    ∀ (P : List (Nat × Nat)) (T T' : List Triple) (sgn : Nat → Nat → Int),
      countChar n sgn T → (∀ i j, sgn i j = -1 ∨ sgn i j = 1) →
      List.foldlM (adjacencyStep conn) T P = Except.ok T' →
      ∃ sgn', (∀ i j, sgn' i j = -1 ∨ sgn' i j = 1) ∧ countChar n sgn' T' := by
  intro P
  induction P with
  | nil =>
    intro T T' sgn hchar hsgn hfold
    simp only [List.foldlM_nil, pure, Except.pure] at hfold
    exact ⟨sgn, hsgn, (Except.ok.inj hfold) ▸ hchar⟩
  | cons p P ih =>
    intro T T' sgn hchar hsgn hfold
    rw [List.foldlM_cons] at hfold
    cases hstep : adjacencyStep conn T p with
    | error e => rw [hstep] at hfold; cases hfold
    | ok T₁ =>
      rw [hstep] at hfold
      simp only [exceptBind_ok] at hfold
      rcases adjacencyStep_ok hstep with hT₁ | ⟨d, hm1, hm2, hm3, hT₁⟩
      · exact ih T₁ T' sgn (hT₁ ▸ hchar) hsgn hfold
      · obtain ⟨hlt1, hln1, hs1⟩ := countChar_mem_cond hchar hm1
        have hflip1 := (countChar_flip1 hchar hlt1 hln1 hs1.symm).2
        have hne12 : ((p.2, (-1 : Int), d) : Triple) ≠ (p.1, (-1 : Int), d) := by
          intro hc
          rw [hc] at hm2
          have := List.count_erase_self ((p.1, (-1 : Int), d) : Triple) T
          have h1 := hchar p.1 d (-1)
          rw [if_pos ⟨hlt1, hln1, hs1⟩] at h1
          have := List.count_pos_iff.mpr hm2
          omega
        have hm2T : ((p.2, (-1 : Int), d) : Triple) ∈ T := (List.mem_of_mem_erase hm2)
        obtain ⟨hlt2, hln2, hs2⟩ := countChar_mem_cond hchar hm2T
        have hp12 : p.1 ≠ p.2 := by
          intro hc
          exact hne12 (by rw [hc])
        have hs2' : setPlus sgn p.1 d p.2 d = -1 := by
          rw [setPlus]
          rw [if_neg (fun hc => hp12 (hc.1.symm))]
          exact hs2.symm
        have hflip2 := (countChar_flip1 hflip1 hlt2 hln2 hs2').2
        have hm3' : ((p.1, (-1 : Int), p.2) : Triple) ∈
            (T.erase (p.1, (-1 : Int), d)).erase (p.2, (-1 : Int), d) := hm3
        have hm3T : ((p.1, (-1 : Int), p.2) : Triple) ∈ T :=
          List.mem_of_mem_erase (List.mem_of_mem_erase hm3')
        obtain ⟨hlt3, hln3, hs3⟩ := countChar_mem_cond hchar hm3T
        have hne31 : ((p.1, (-1 : Int), p.2) : Triple) ≠ (p.1, (-1 : Int), d) := by
          intro hc
          rw [hc] at hm3'
          have h1 := hchar p.1 d (-1)
          rw [if_pos ⟨hlt1, hln1, hs1⟩] at h1
          have hcount : ((T.erase (p.1, (-1 : Int), d)).erase
              (p.2, (-1 : Int), d)).count (p.1, (-1 : Int), d) = 0 := by
            rw [List.count_erase_of_ne (fun hc2 => hne12 hc2.symm),
              List.count_erase_self]
            omega
          exact absurd (List.count_pos_iff.mpr hm3') (by omega)
        have hdp2 : d ≠ p.2 := by
          intro hc
          exact hne31 (by rw [hc])
        have hs3' : setPlus (setPlus sgn p.1 d) p.2 d p.1 p.2 = -1 := by
          rw [setPlus, if_neg (fun hc => hp12 hc.1), setPlus,
            if_neg (fun hc => hdp2 hc.2.symm)]
          exact hs3.symm
        have hflip3 := (countChar_flip1 hflip2 hlt3 hln3 hs3').2
        have hL2 : ((T.erase (p.1, (-1 : Int), d)) ++ [(p.1, (1 : Int), d)]).erase
            (p.2, (-1 : Int), d) =
            (T.erase (p.1, (-1 : Int), d)).erase (p.2, (-1 : Int), d)
              ++ [(p.1, (1 : Int), d)] :=
          List.erase_append_left _ hm2
        rw [hL2] at hflip2 hflip3
        have hL3 : (((T.erase (p.1, (-1 : Int), d)).erase (p.2, (-1 : Int), d)
              ++ [(p.1, (1 : Int), d)]) ++ [(p.2, (1 : Int), d)]).erase
            (p.1, (-1 : Int), p.2) =
            ((((T.erase (p.1, (-1 : Int), d)).erase (p.2, (-1 : Int), d)).erase
              (p.1, (-1 : Int), p.2)) ++ [(p.1, (1 : Int), d)]) ++ [(p.2, (1 : Int), d)] := by
          rw [List.erase_append_left _ (List.mem_append_left _ hm3'),
            List.erase_append_left _ hm3']
        rw [hL3] at hflip3
        have hperm : (((((T.erase (p.1, (-1 : Int), d)).erase (p.2, (-1 : Int), d)).erase
              (p.1, (-1 : Int), p.2)) ++ [(p.1, (1 : Int), d)]) ++ [(p.2, (1 : Int), d)])
              ++ [(p.1, (1 : Int), p.2)] =
            (((T.erase (p.1, (-1 : Int), d)).erase (p.2, (-1 : Int), d)).erase
              (p.1, (-1 : Int), p.2))
              ++ [(p.1, (1 : Int), d), (p.2, (1 : Int), d), (p.1, (1 : Int), p.2)] := by
          simp
        rw [hperm] at hflip3
        rw [← hT₁] at hflip3
        refine ih T₁ T' _ hflip3 ?_ hfold
        intro i j
        by_cases h1 : i = p.1 ∧ j = p.2
        · right; simp [setPlus, h1]
        · by_cases h2 : i = p.2 ∧ j = d
          · right; simp [setPlus, h2]
          · by_cases h3 : i = p.1 ∧ j = d
            · right; simp [setPlus, h1, h2, h3]
            · simp only [setPlus, if_neg h1, if_neg h2, if_neg h3]
              exact hsgn i j

theorem fold_front_ex {n : Nat} (rl : List String) :
    ∀ (Q : List (Nat × String)) (T T' : List Triple) (sgn : Nat → Nat → Int),
      countChar n sgn T → (∀ i j, sgn i j = -1 ∨ sgn i j = 1) →
      List.foldlM (frontStep rl) T Q = Except.ok T' →
      ∃ sgn', (∀ i j, sgn' i j = -1 ∨ sgn' i j = 1) ∧ countChar n sgn' T' := by
  intro Q
  induction Q with
  | nil =>
    intro T T' sgn hchar hsgn hfold
    simp only [List.foldlM_nil, pure, Except.pure] at hfold
    exact ⟨sgn, hsgn, (Except.ok.inj hfold) ▸ hchar⟩
  | cons q Q ih =>
    intro T T' sgn hchar hsgn hfold
    rw [List.foldlM_cons] at hfold
    cases hstep : frontStep rl T q with
    | error e => rw [hstep] at hfold; cases hfold
    | ok T₁ =>
      rw [hstep] at hfold
      simp only [exceptBind_ok] at hfold
      obtain ⟨r, f, _, _, hm1, hT₁⟩ := frontStep_ok hstep
      obtain ⟨hlt1, hln1, hs1⟩ := countChar_mem_cond hchar hm1
      have hflip1 := (countChar_flip1 hchar hlt1 hln1 hs1.symm).2
      rw [← hT₁] at hflip1
      refine ih T₁ T' _ hflip1 ?_ hfold
      intro i j
      by_cases h1 : i = r ∧ j = f
      · right; simp [setPlus, h1]
      · simp only [setPlus, if_neg h1]
        exact hsgn i j

/-- Result record: the values of the source's local variables that are
returned or consumed downstream. -/
structure BD where
  room_list : List String
  real_nodes_len : Nat
  room_list_indices : List Nat
  connection : List (Nat × Nat × Nat)
  triples : List Triple
  graph_nodes : List (List Nat)
deriving DecidableEq, Repr

/-- Shallow embedding of `generate_bubble_diagram` after the JSON response
has been parsed (source lines 261-324). -/
def generate_bubble_diagram (inp : FPInput) : Except String BD := do
  let room_name_dict := inp.complete_room_list.zip inp.modified_room_list
  let real_nodes_len := inp.modified_room_list.length
  let connection1 ← inp.connection.mapM (transPair room_name_dict)
  let front_door1 ← inp.front_door.mapM (getKey room_name_dict)
  let room_list := rlExt inp connection1.length front_door1.length
  let room_list_indices := room_list.map typeIdx
  let connection3 ← (connWithDoors connection1).mapM (idxTriple room_list)
  let T0 := initTriples room_list.length
  let T1 ← (pairsLt real_nodes_len).foldlM (adjacencyStep connection3) T0
  let T2 ← frontFold room_list front_door1 T1
  pure { room_list := room_list
         real_nodes_len := real_nodes_len
         room_list_indices := room_list_indices
         connection := connection3
         triples := organize T2
         graph_nodes := graphNodesOf room_list_indices }

theorem mapM_ok_length {α β : Type} {f : α → Except String β} :
    ∀ {l : List α} {l' : List β}, l.mapM f = Except.ok l' → l'.length = l.length := by
  intro l
  induction l with
  | nil =>
    intro l' h
    rw [List.mapM_nil] at h
    simp only [pure, Except.pure] at h
    rw [← Except.ok.inj h]
    rfl
  | cons a l ih =>
    intro l' h
    rw [List.mapM_cons] at h
    cases hfa : f a with
    | error e => rw [hfa] at h; cases h
    | ok b =>
      rw [hfa] at h
      simp only [exceptBind_ok] at h
      cases hml : l.mapM f with
      | error e => rw [hml] at h; cases h
      | ok lt =>
        rw [hml] at h
        simp only [exceptBind_ok, pure, Except.pure] at h
        rw [← Except.ok.inj h]
        simp [ih hml]

theorem perm_cons_erase_own {a : Triple} {l : List Triple} (h : a ∈ l) :
    l.Perm (a :: l.erase a) := by
  induction l with
  | nil => cases h
  | cons b l ih =>
    by_cases hba : b = a
    · subst hba
      rw [List.erase_cons_head]
    · have hne : ((b : Triple) == a) = false := by simpa using hba
      rw [List.erase_cons, hne]
      have hal : a ∈ l := by
        rcases List.mem_cons.mp h with hc | hc
        · exact absurd hc.symm hba
        · exact hc
      exact ((ih hal).cons b).trans (List.Perm.swap a b _)

theorem perm_of_count_eq : ∀ {T T' : List Triple},
    (∀ t, T.count t = T'.count t) → T.Perm T' := by
  intro T
  induction T with
  | nil =>
    intro T' h
    cases T' with
    | nil => exact List.Perm.refl []
    | cons a T' =>
      have := h a
      simp [List.count_cons] at this
  | cons a T ih =>
    intro T' h
    have ha : a ∈ T' := by
      apply List.count_pos_iff.mp
      have := h a
      simp only [List.count_cons, beq_self_eq_true, if_true] at this
      omega
    have hperm : T'.Perm (a :: T'.erase a) := perm_cons_erase_own ha
    have hcount : ∀ t, T.count t = (T'.erase a).count t := by
      intro t
      by_cases hta : t = a
      · subst hta
        have h1 := h t
        rw [List.count_erase_self]
        simp only [List.count_cons, beq_self_eq_true, if_true] at h1
        omega
      · have h1 := h t
        have hne : ((a : Triple) == t) = false := by
          simpa using fun hc => hta hc.symm
        simp only [List.count_cons, hne, Bool.false_eq_true, if_false,
          Nat.add_zero] at h1
        rw [List.count_erase_of_ne hta, ← h1]
    exact ((ih hcount).cons a).trans hperm.symm

theorem countChar_perm_map {n : Nat} {sgn : Nat → Nat → Int} {T : List Triple}
    (h : countChar n sgn T) :
    T.Perm ((pairsLt n).map (fun p => (p.1, sgn p.1 p.2, p.2))) := by
  apply perm_of_count_eq
  intro t
  obtain ⟨i, s, j⟩ := t
  rw [h i j s, count_map_pairs _ (nodup_pairsLt n)]
  by_cases hij : i < j ∧ j < n
  · have hmem : (i, j) ∈ pairsLt n := (mem_pairsLt n (i, j)).mpr hij
    by_cases hs : s = sgn i j
    · rw [if_pos ⟨hij.1, hij.2, hs⟩, if_pos ⟨hmem, hs⟩]
    · rw [if_neg (fun hc => hs hc.2.2), if_neg (fun hc => hs hc.2)]
  · rw [if_neg (fun hc => hij ⟨hc.1, hc.2.1⟩),
      if_neg (fun hc => hij ((mem_pairsLt n (i, j)).mp hc.1))]

theorem countChar_length {n : Nat} {sgn : Nat → Nat → Int} {T : List Triple}
    (h : countChar n sgn T) : T.length = n * (n - 1) / 2 := by
  rw [(countChar_perm_map h).length_eq, List.length_map, length_pairsLt]

/-- Dissection of a successful run of `generate_bubble_diagram` into its
five effectful stages. -/
theorem generate_ok_parts {inp : FPInput} {out : BD}
    (h : generate_bubble_diagram inp = Except.ok out) :
    ∃ (c1 : List (String × String)) (f1 : List String)
      (c3 : List (Nat × Nat × Nat)) (T1 T2 : List Triple),
      inp.connection.mapM
          (transPair (inp.complete_room_list.zip inp.modified_room_list)) =
        Except.ok c1 ∧
      inp.front_door.mapM (getKey (inp.complete_room_list.zip inp.modified_room_list)) =
        Except.ok f1 ∧
      (connWithDoors c1).mapM (idxTriple (rlExt inp c1.length f1.length)) =
        Except.ok c3 ∧
      (pairsLt inp.modified_room_list.length).foldlM (adjacencyStep c3)
          (initTriples (rlExt inp c1.length f1.length).length) = Except.ok T1 ∧
      frontFold (rlExt inp c1.length f1.length) f1 T1 = Except.ok T2 ∧
      out = { room_list := rlExt inp c1.length f1.length
              real_nodes_len := inp.modified_room_list.length
              room_list_indices := (rlExt inp c1.length f1.length).map typeIdx
              connection := c3
              triples := organize T2
              graph_nodes := graphNodesOf ((rlExt inp c1.length f1.length).map typeIdx) } := by
  rw [generate_bubble_diagram] at h
  cases hc1 : inp.connection.mapM
      (transPair (inp.complete_room_list.zip inp.modified_room_list)) with
  | error e => rw [hc1] at h; cases h
  | ok c1 =>
    rw [hc1] at h
    simp only [exceptBind_ok] at h
    cases hf1 : inp.front_door.mapM
        (getKey (inp.complete_room_list.zip inp.modified_room_list)) with
    | error e => rw [hf1] at h; cases h
    | ok f1 =>
      rw [hf1] at h
      simp only [exceptBind_ok] at h
      cases hc3 : (connWithDoors c1).mapM (idxTriple (rlExt inp c1.length f1.length)) with
      | error e => rw [hc3] at h; cases h
      | ok c3 =>
        rw [hc3] at h
        simp only [exceptBind_ok] at h
        cases hT1 : (pairsLt inp.modified_room_list.length).foldlM (adjacencyStep c3)
            (initTriples (rlExt inp c1.length f1.length).length) with
        | error e => rw [hT1] at h; cases h
        | ok T1 =>
          rw [hT1] at h
          simp only [exceptBind_ok] at h
          cases hT2 : frontFold (rlExt inp c1.length f1.length) f1 T1 with
          | error e => rw [hT2] at h; cases h
          | ok T2 =>
            rw [hT2] at h
            simp only [exceptBind_ok, pure, Except.pure] at h
            exact ⟨c1, f1, c3, T1, T2, rfl, rfl, hc3, hT1, hT2, (Except.ok.inj h).symm⟩

theorem length_interior_door_list (m : Nat) : (interior_door_list m).length = m := by
  simp [interior_door_list]

theorem length_front_door_list (m : Nat) : (front_door_list m).length = m := by
  simp [front_door_list]

theorem length_rlExt (inp : FPInput) (m1 m2 : Nat) :
    (rlExt inp m1 m2).length = inp.modified_room_list.length + m1 + m2 := by
  simp [rlExt, length_interior_door_list, length_front_door_list]
  omega

/-- C2: for every input on which `generate_bubble_diagram` succeeds, the
returned edge-triple list forms a complete signed graph: exactly one
triple `(i, s, j)` with `i < j` and `s ∈ {-1, +1}` per unordered pair of
node indices below `n = len(modified_room_list) + len(connection) +
len(front_door)`, hence exactly `n * (n - 1) / 2` triples. -/
theorem C2_complete_signed_graph (inp : FPInput) (out : BD)
    (hok : generate_bubble_diagram inp = Except.ok out) :
    (out.triples.length =
      (inp.modified_room_list.length + inp.connection.length + inp.front_door.length) *
      ((inp.modified_room_list.length + inp.connection.length + inp.front_door.length) - 1)
        / 2) ∧
    (∀ x s y, (x, s, y) ∈ out.triples →
      x < y ∧
      y < inp.modified_room_list.length + inp.connection.length + inp.front_door.length ∧
      (s = -1 ∨ s = 1)) ∧
    (∀ i j, i < j →
      j < inp.modified_room_list.length + inp.connection.length + inp.front_door.length →
      ∃ s : Int, (s = -1 ∨ s = 1) ∧ out.triples.count (i, s, j) = 1 ∧
        ∀ s' : Int, (i, s', j) ∈ out.triples → s' = s) := by
  obtain ⟨c1, f1, c3, T1, T2, hc1, hf1, hc3, hT1, hT2, hout⟩ := generate_ok_parts hok
  have hm1 : c1.length = inp.connection.length := mapM_ok_length hc1
  have hm2 : f1.length = inp.front_door.length := mapM_ok_length hf1
  set n := (rlExt inp c1.length f1.length).length with hn
  have hnval : n =
      inp.modified_room_list.length + inp.connection.length + inp.front_door.length := by
    rw [hn, length_rlExt, hm1, hm2]
  have hchar0 : countChar n (fun _ _ => (-1 : Int)) (initTriples n) :=
    countChar_initTriples n
  have hr0 : ∀ i j : Nat, ((fun _ _ => (-1 : Int)) i j = -1) ∨
      ((fun _ _ => (-1 : Int)) i j = 1) := fun _ _ => Or.inl rfl
  obtain ⟨sgn1, hr1, hchar1⟩ :=
    fold_adj_ex c3 (pairsLt inp.modified_room_list.length) (initTriples n) T1 _
      hchar0 hr0 hT1
  rw [frontFold] at hT2
  obtain ⟨sgn2, hr2, hchar2⟩ := fold_front_ex (rlExt inp c1.length f1.length)
    f1.enum T1 T2 sgn1 hchar1 hr1 hT2
  have hcharF : countChar n sgn2 out.triples := by
    rw [hout]
    exact countChar_perm hchar2 (List.perm_insertionSort tripleLe T2).symm
  refine ⟨?_, ?_, ?_⟩
  · rw [← hnval]
    exact countChar_length hcharF
  · intro x s y hm
    obtain ⟨h1, h2, h3⟩ := countChar_mem_cond hcharF hm
    exact ⟨h1, hnval ▸ h2, h3 ▸ hr2 x y⟩
  · intro i j hij hjn
    refine ⟨sgn2 i j, hr2 i j, ?_, ?_⟩
    · rw [hcharF i j (sgn2 i j), if_pos ⟨hij, hnval ▸ hjn, rfl⟩]
    · intro s' hm
      exact (countChar_mem_cond hcharF hm).2.2

/-! Declarative resolvers: total functions that, under well-formedness,
agree with the effectful lookups of the compiler. -/

/-- Standardized name of a raw room name (`room_name_dict[s]`). -/
def stdOf (inp : FPInput) (s : String) : String :=
  (lastAssoc (inp.complete_room_list.zip inp.modified_room_list) s).getD ""

/-- Node index of a standardized room name (`room_dict[s]` restricted to
the real-room prefix). -/
def roomIdx (inp : FPInput) (s : String) : Nat :=
  (lastIndexOf inp.modified_room_list s).getD 0

/-- Number of real-room nodes. -/
def Rof (inp : FPInput) : Nat := inp.modified_room_list.length

/-- The index-level connection triples `(a, door, b)` the compiler builds. -/
def connIdxList (inp : FPInput) : List (Nat × Nat × Nat) :=
  inp.connection.enum.map (fun p =>
    (roomIdx inp (stdOf inp p.2.1), Rof inp + p.1, roomIdx inp (stdOf inp p.2.2)))

/-- The `(room index, front-door node index)` pairs the front-door loop
flips to `+1`. -/
def frontPairs (inp : FPInput) : List (Nat × Nat) :=
  inp.front_door.enum.map (fun q =>
    (roomIdx inp (stdOf inp q.2), Rof inp + inp.connection.length + q.1))

/-- Well-formedness: lists in positional correspondence, every referenced
room present in `complete_room_list`, and no standardized room name
colliding with the synthesized door-name families (the spec's closed room
type enumeration guarantees the latter). -/
def WFbase (inp : FPInput) : Prop :=
  inp.complete_room_list.length = inp.modified_room_list.length ∧
  (∀ p ∈ inp.connection, p.1 ∈ inp.complete_room_list ∧ p.2 ∈ inp.complete_room_list) ∧
  (∀ r ∈ inp.front_door, r ∈ inp.complete_room_list) ∧
  (∀ s ∈ inp.modified_room_list,
    ("interior_door".data.isPrefixOf s.data) = false ∧
    ("front_door".data.isPrefixOf s.data) = false)

/-- Additional hypotheses of the explicit claims: standardized names
pairwise distinct, no self-loops, no duplicate connections. -/
def WF1 (inp : FPInput) : Prop :=
  WFbase inp ∧ inp.modified_room_list.Nodup ∧
  (∀ p ∈ inp.connection, roomIdx inp (stdOf inp p.1) ≠ roomIdx inp (stdOf inp p.2)) ∧
  (inp.connection.map (fun p =>
    (min (roomIdx inp (stdOf inp p.1)) (roomIdx inp (stdOf inp p.2)),
     max (roomIdx inp (stdOf inp p.1)) (roomIdx inp (stdOf inp p.2))))).Nodup

/-! Lookup lemmas for `lastIndexOf` and `lastAssoc`. -/

theorem lastIndexOf_cons (a : String) (l : List String) (k : String) :
    lastIndexOf (a :: l) k =
      match lastIndexOf l k with
      | some j => some (j + 1)
      | none => if a = k then some 0 else none := rfl

theorem lastIndexOf_append_some {l2 : List String} {k : String} {j : Nat}
    (l1 : List String) (h : lastIndexOf l2 k = some j) :
    lastIndexOf (l1 ++ l2) k = some (l1.length + j) := by
  induction l1 with
  | nil => simpa using h
  | cons a l1 ih =>
    rw [List.cons_append, lastIndexOf_cons, ih]
    show some (l1.length + j + 1) = some ((a :: l1).length + j)
    rw [List.length_cons]
    congr 1
    omega

theorem lastIndexOf_append_none {l2 : List String} {k : String}
    (l1 : List String) (h : lastIndexOf l2 k = none) :
    lastIndexOf (l1 ++ l2) k = lastIndexOf l1 k := by
  induction l1 with
  | nil => simpa using h
  | cons a l1 ih => rw [List.cons_append, lastIndexOf_cons, ih, lastIndexOf_cons]

theorem lastIndexOf_eq_none {l : List String} {k : String} (h : k ∉ l) :
    lastIndexOf l k = none := by
  induction l with
  | nil => rfl
  | cons a l ih =>
    have hne : a ≠ k := fun hc => h (hc ▸ List.mem_cons_self a l)
    have hnl : k ∉ l := fun hc => h (List.mem_cons_of_mem a hc)
    simp only [lastIndexOf, ih hnl, if_neg hne]

theorem lastIndexOf_mem {l : List String} {k : String} (h : k ∈ l) :
    ∃ j, lastIndexOf l k = some j ∧ j < l.length := by
  induction l with
  | nil => cases h
  | cons a l ih =>
    by_cases hkl : k ∈ l
    · obtain ⟨j, hj, hjl⟩ := ih hkl
      exact ⟨j + 1, by simp only [lastIndexOf, hj], by simp; omega⟩
    · have hak : a = k := by
        rcases List.mem_cons.mp h with hc | hc
        · exact hc.symm
        · exact absurd hc hkl
      exact ⟨0, by simp only [lastIndexOf, lastIndexOf_eq_none hkl, if_pos hak], by simp⟩

theorem lastIndexOf_lt_length {l : List String} {k : String} {j : Nat}
    (h : lastIndexOf l k = some j) : j < l.length := by
  induction l generalizing j with
  | nil => cases h
  | cons a l ih =>
    rw [lastIndexOf] at h
    cases hl : lastIndexOf l k with
    | some j' =>
      rw [hl] at h
      have := ih hl
      simp only [Option.some.injEq] at h
      simp only [List.length_cons]
      omega
    | none =>
      rw [hl] at h
      by_cases hak : a = k
      · rw [if_pos hak] at h
        simp only [Option.some.injEq] at h
        simp [← h]
      · rw [if_neg hak] at h
        cases h

theorem notMem_interior_door_list {s : String}
    (h : ("interior_door".data.isPrefixOf s.data) = false) {m : Nat} :
    s ∉ interior_door_list m := by
  intro hm
  simp only [interior_door_list, List.mem_map, List.mem_range] at hm
  obtain ⟨i, _, hi⟩ := hm
  rw [← hi] at h
  rw [interiorName, String.data_append] at h
  have : ("interior_door".data.isPrefixOf
      ("interior_door".data ++ (Nat.repr (i + 1)).data)) = true :=
    List.isPrefixOf_iff_prefix.mpr (List.prefix_append _ _)
  rw [this] at h
  cases h

theorem notMem_front_door_list {s : String}
    (h : ("front_door".data.isPrefixOf s.data) = false) {m : Nat} :
    s ∉ front_door_list m := by
  intro hm
  simp only [front_door_list, List.mem_map, List.mem_range] at hm
  obtain ⟨i, _, hi⟩ := hm
  rw [← hi] at h
  rw [frontName, String.data_append] at h
  have : ("front_door".data.isPrefixOf
      ("front_door".data ++ (Nat.repr (i + 1)).data)) = true :=
    List.isPrefixOf_iff_prefix.mpr (List.prefix_append _ _)
  rw [this] at h
  cases h

theorem interiorName_notMem_front_door_list {k m : Nat} :
    interiorName k ∉ front_door_list m := by
  intro hm
  simp only [front_door_list, List.mem_map, List.mem_range] at hm
  obtain ⟨i, _, hi⟩ := hm
  exact frontName_ne_interiorName (i + 1) k hi

theorem frontName_notMem_interior_door_list {k m : Nat} :
    frontName k ∉ interior_door_list m := by
  intro hm
  simp only [interior_door_list, List.mem_map, List.mem_range] at hm
  obtain ⟨i, _, hi⟩ := hm
  exact frontName_ne_interiorName k (i + 1) hi.symm

theorem lastIndexOf_interior_door_list {m k : Nat} (hk : k < m) :
    lastIndexOf (interior_door_list m) (interiorName (k + 1)) = some k := by
  induction m with
  | zero => omega
  | succ mm ih =>
    have hsplit : interior_door_list (mm + 1) =
        interior_door_list mm ++ [interiorName (mm + 1)] := by
      rw [interior_door_list, List.range_succ, List.map_append]
      rfl
    rw [hsplit]
    by_cases hkm : k = mm
    · subst hkm
      have hone : lastIndexOf [interiorName (k + 1)] (interiorName (k + 1)) = some 0 := by
        simp [lastIndexOf]
      rw [lastIndexOf_append_some _ hone, length_interior_door_list, Nat.add_zero]
    · have hne : interiorName (k + 1) ∉ [interiorName (mm + 1)] := by
        intro hc
        simp only [List.mem_singleton] at hc
        have := interiorName_inj hc
        omega
      rw [lastIndexOf_append_none _ (lastIndexOf_eq_none hne), ih (by omega)]

theorem lastIndexOf_front_door_list {m k : Nat} (hk : k < m) :
    lastIndexOf (front_door_list m) (frontName (k + 1)) = some k := by
  induction m with
  | zero => omega
  | succ mm ih =>
    have hsplit : front_door_list (mm + 1) =
        front_door_list mm ++ [frontName (mm + 1)] := by
      rw [front_door_list, List.range_succ, List.map_append]
      rfl
    rw [hsplit]
    by_cases hkm : k = mm
    · subst hkm
      have hone : lastIndexOf [frontName (k + 1)] (frontName (k + 1)) = some 0 := by
        simp [lastIndexOf]
      rw [lastIndexOf_append_some _ hone, length_front_door_list, Nat.add_zero]
    · have hne : frontName (k + 1) ∉ [frontName (mm + 1)] := by
        intro hc
        simp only [List.mem_singleton] at hc
        have := frontName_inj hc
        omega
      rw [lastIndexOf_append_none _ (lastIndexOf_eq_none hne), ih (by omega)]

/-- Lookup of the `k`-th interior-door name in the extended room list. -/
theorem lastIndexOf_rlExt_interior (inp : FPInput) (m2 : Nat) {m1 k : Nat} (hk : k < m1) :
    lastIndexOf (rlExt inp m1 m2) (interiorName (k + 1)) =
      some (inp.modified_room_list.length + k) := by
  rw [rlExt, List.append_assoc]
  have hfd : lastIndexOf (interior_door_list m1 ++ front_door_list m2)
      (interiorName (k + 1)) = some k := by
    rw [lastIndexOf_append_none]
    · exact lastIndexOf_interior_door_list hk
    · exact lastIndexOf_eq_none interiorName_notMem_front_door_list
  rw [lastIndexOf_append_some _ hfd]

/-- Lookup of the `k`-th front-door name in the extended room list. -/
theorem lastIndexOf_rlExt_front (inp : FPInput) {m1 m2 k : Nat} (hk : k < m2) :
    lastIndexOf (rlExt inp m1 m2) (frontName (k + 1)) =
      some (inp.modified_room_list.length + m1 + k) := by
  rw [rlExt, List.append_assoc]
  have hfd : lastIndexOf (interior_door_list m1 ++ front_door_list m2)
      (frontName (k + 1)) = some (m1 + k) := by
    have := lastIndexOf_append_some
      (interior_door_list m1) (lastIndexOf_front_door_list hk)
    rwa [length_interior_door_list] at this
  rw [lastIndexOf_append_some _ hfd]
  have : inp.modified_room_list.length + (m1 + k) =
      inp.modified_room_list.length + m1 + k := by omega
  rw [this]

/-- Lookup of a collision-free standardized room name in the extended room
list resolves inside the real-room prefix. -/
theorem lastIndexOf_rlExt_std (inp : FPInput) (m1 m2 : Nat) {s : String}
    (hcol1 : ("interior_door".data.isPrefixOf s.data) = false)
    (hcol2 : ("front_door".data.isPrefixOf s.data) = false) :
    lastIndexOf (rlExt inp m1 m2) s = lastIndexOf inp.modified_room_list s := by
  rw [rlExt, List.append_assoc]
  apply lastIndexOf_append_none
  apply lastIndexOf_eq_none
  intro hc
  rcases List.mem_append.mp hc with hc1 | hc2
  · exact notMem_interior_door_list hcol1 hc1
  · exact notMem_front_door_list hcol2 hc2

/-! Translation lemmas: under `WFbase`, each effectful stage succeeds and
returns the declarative value. -/

theorem lastAssoc_cons (p : String × String) (l : List (String × String)) (k : String) :
    lastAssoc (p :: l) k =
      match lastAssoc l k with
      | some v => some v
      | none => if p.1 = k then some p.2 else none := rfl

theorem lastAssoc_zip_none {ks vs : List String} {k : String} (hk : k ∉ ks) :
    lastAssoc (ks.zip vs) k = none := by
  induction ks generalizing vs with
  | nil => rfl
  | cons a ks ih =>
    cases vs with
    | nil => rfl
    | cons b vs =>
      have hne : a ≠ k := fun hc => hk (hc ▸ List.mem_cons_self a ks)
      have hnk : k ∉ ks := fun hc => hk (List.mem_cons_of_mem a hc)
      rw [List.zip_cons_cons, lastAssoc_cons, ih hnk]
      show (if a = k then some b else none) = none
      rw [if_neg hne]

theorem lastAssoc_zip_some {ks vs : List String} (hlen : ks.length = vs.length)
    {k : String} (hk : k ∈ ks) :
    ∃ v, lastAssoc (ks.zip vs) k = some v ∧ v ∈ vs := by
  induction ks generalizing vs with
  | nil => cases hk
  | cons a ks ih =>
    cases vs with
    | nil => simp at hlen
    | cons b vs =>
      have hlen' : ks.length = vs.length := by simpa using hlen
      by_cases hkk : k ∈ ks
      · obtain ⟨v, hv, hvm⟩ := ih hlen' hkk
        refine ⟨v, ?_, List.mem_cons_of_mem b hvm⟩
        rw [List.zip_cons_cons, lastAssoc_cons, hv]
      · have hak : a = k := by
          rcases List.mem_cons.mp hk with hc | hc
          · exact hc.symm
          · exact absurd hc hkk
        refine ⟨b, ?_, List.mem_cons_self b vs⟩
        rw [List.zip_cons_cons, lastAssoc_cons, lastAssoc_zip_none hkk]
        show (if a = k then some b else none) = some b
        rw [if_pos hak]

theorem getKey_of_lastAssoc {d : List (String × String)} {k v : String}
    (h : lastAssoc d k = some v) : getKey d k = Except.ok v := by
  rw [getKey, h]

theorem getIdx_of_lastIndexOf {l : List String} {k : String} {j : Nat}
    (h : lastIndexOf l k = some j) : getIdx l k = Except.ok j := by
  rw [getIdx, h]

theorem mapM_eq_ok_of_forall {α β : Type} {f : α → Except String β} {g : α → β} :
    ∀ {l : List α}, (∀ a ∈ l, f a = Except.ok (g a)) →
      l.mapM f = Except.ok (l.map g) := by
  intro l
  induction l with
  | nil => intro _; rw [List.mapM_nil]; rfl
  | cons a l ih =>
    intro h
    rw [List.mapM_cons, h a (List.mem_cons_self a l), exceptBind_ok,
      ih (fun b hb => h b (List.mem_cons_of_mem a hb)), exceptBind_ok]
    rfl

theorem mapM_map {α β γ : Type} (f : α → β) (g : β → Except String γ) :
    ∀ (l : List α), (l.map f).mapM g = l.mapM (fun a => g (f a)) := by
  intro l
  induction l with
  | nil => rfl
  | cons a l ih => rw [List.map_cons, List.mapM_cons, List.mapM_cons, ih]

theorem stdOf_spec (inp : FPInput)
    (hlen : inp.complete_room_list.length = inp.modified_room_list.length)
    {s : String} (hs : s ∈ inp.complete_room_list) :
    lastAssoc (inp.complete_room_list.zip inp.modified_room_list) s =
      some (stdOf inp s) ∧ stdOf inp s ∈ inp.modified_room_list := by
  obtain ⟨v, hv, hvm⟩ := lastAssoc_zip_some hlen hs
  rw [stdOf, hv]
  exact ⟨rfl, hvm⟩

theorem transPair_ok (inp : FPInput)
    (hlen : inp.complete_room_list.length = inp.modified_room_list.length)
    {p : String × String} (h1 : p.1 ∈ inp.complete_room_list)
    (h2 : p.2 ∈ inp.complete_room_list) :
    transPair (inp.complete_room_list.zip inp.modified_room_list) p =
      Except.ok (stdOf inp p.1, stdOf inp p.2) := by
  rw [transPair, getKey_of_lastAssoc (stdOf_spec inp hlen h1).1, exceptBind_ok,
    getKey_of_lastAssoc (stdOf_spec inp hlen h2).1, exceptBind_ok]
  rfl

/-- Under `WFbase`, the connection translation stage returns the
standardized pairs. -/
theorem conn_translation (inp : FPInput) (h : WFbase inp) :
    inp.connection.mapM
        (transPair (inp.complete_room_list.zip inp.modified_room_list)) =
      Except.ok (inp.connection.map (fun p => (stdOf inp p.1, stdOf inp p.2))) :=
  mapM_eq_ok_of_forall (fun p hp =>
    transPair_ok inp h.1 (h.2.1 p hp).1 (h.2.1 p hp).2)

/-- Under `WFbase`, the front-door translation stage returns the
standardized names. -/
theorem front_translation (inp : FPInput) (h : WFbase inp) :
    inp.front_door.mapM
        (getKey (inp.complete_room_list.zip inp.modified_room_list)) =
      Except.ok (inp.front_door.map (stdOf inp)) :=
  mapM_eq_ok_of_forall (fun r hr =>
    getKey_of_lastAssoc (stdOf_spec inp h.1 (h.2.2.1 r hr)).1)

/-- Index and range of a standardized room name under `WFbase`. -/
theorem roomIdx_spec (inp : FPInput) (h : WFbase inp) {s : String}
    (hs : s ∈ inp.complete_room_list) (m1 m2 : Nat) :
    lastIndexOf (rlExt inp m1 m2) (stdOf inp s) = some (roomIdx inp (stdOf inp s)) ∧
      roomIdx inp (stdOf inp s) < inp.modified_room_list.length := by
  have hmem := (stdOf_spec inp h.1 hs).2
  obtain ⟨hc1, hc2⟩ := h.2.2.2 _ hmem
  obtain ⟨j, hj, hjl⟩ := lastIndexOf_mem hmem
  rw [lastIndexOf_rlExt_std inp m1 m2 hc1 hc2, hj, roomIdx, hj]
  exact ⟨rfl, hjl⟩

theorem connWithDoors_map (conn : List (String × String))
    (g : String × String → String × String) :
    connWithDoors (conn.map g) = conn.enum.map
      (fun p => ((g p.2).1, interiorName (p.1 + 1), (g p.2).2)) := by
  rw [connWithDoors, List.enum_map, List.map_map]
  rfl

/-- Under `WFbase`, the index-resolution stage returns the declarative
connection triples. -/
theorem conn_index_resolution (inp : FPInput) (h : WFbase inp) :
    (connWithDoors (inp.connection.map (fun p => (stdOf inp p.1, stdOf inp p.2)))).mapM
        (idxTriple (rlExt inp inp.connection.length inp.front_door.length)) =
      Except.ok (connIdxList inp) := by
  rw [connWithDoors_map, connIdxList, mapM_map]
  apply mapM_eq_ok_of_forall
  intro p hp
  obtain ⟨hplen, _⟩ := List.mem_enum hp
  have hc := List.mem_enum hp
  have hpmem : p.2 ∈ inp.connection := by
    rw [hc.2]
    exact List.getElem_mem hc.1
  rw [idxTriple]
  rw [getIdx_of_lastIndexOf
    (roomIdx_spec inp h (h.2.1 p.2 hpmem).1 inp.connection.length
      inp.front_door.length).1, exceptBind_ok]
  rw [getIdx_of_lastIndexOf (lastIndexOf_rlExt_interior inp inp.front_door.length hplen),
    exceptBind_ok]
  rw [getIdx_of_lastIndexOf
    (roomIdx_spec inp h (h.2.1 p.2 hpmem).2 inp.connection.length
      inp.front_door.length).1, exceptBind_ok]
  rfl

/-! The explicit sign function: which pairs the loops flip to `+1`. -/

/-- The door chosen by the adjacency loop for an adjacent pair `(i, j)`:
`edge[0]` of line 304-305. -/
def firstDoor (conn : List (Nat × Nat × Nat)) (i j : Nat) : Option Nat :=
  ((conn.filter (fun e =>
    (decide (e.1 = i) && decide (e.2.2 = j)) ||
    (decide (e.1 = j) && decide (e.2.2 = i)))).map (fun e => e.2.1)).head?

/-- Whether the ordered pair `(x, y)` has been flipped to `+1` after the
adjacency loop has processed the pairs of `P`. -/
def procPlus (conn : List (Nat × Nat × Nat)) (P : List (Nat × Nat)) (x y : Nat) : Bool :=
  P.any (fun p =>
    match firstDoor conn p.1 p.2 with
    | some d =>
      decide ((x, y) = p) || decide ((x, y) = (p.1, d)) || decide ((x, y) = (p.2, d))
    | none => false)

/-- Sign function after the adjacency loop has processed `P`. -/
def sgnProc (conn : List (Nat × Nat × Nat)) (P : List (Nat × Nat)) : Nat → Nat → Int :=
  fun x y => if procPlus conn P x y then 1 else -1

theorem procPlus_append (conn : List (Nat × Nat × Nat)) (P P' : List (Nat × Nat))
    (x y : Nat) :
    procPlus conn (P ++ P') x y = (procPlus conn P x y || procPlus conn P' x y) := by
  rw [procPlus, List.any_append]
  rfl

theorem procPlus_nil (conn : List (Nat × Nat × Nat)) (x y : Nat) :
    procPlus conn [] x y = false := rfl

theorem firstDoor_mem {conn : List (Nat × Nat × Nat)} {i j d : Nat}
    (h : firstDoor conn i j = some d) :
    ∃ e ∈ conn, e.2.1 = d ∧ ((e.1 = i ∧ e.2.2 = j) ∨ (e.1 = j ∧ e.2.2 = i)) := by
  rw [firstDoor, List.head?_map] at h
  cases hh : (conn.filter (fun e =>
      (decide (e.1 = i) && decide (e.2.2 = j)) ||
      (decide (e.1 = j) && decide (e.2.2 = i)))).head? with
  | none => rw [hh] at h; cases h
  | some e =>
    rw [hh] at h
    have h2 : some (e.2.1) = some d := h
    have hmem := List.mem_of_mem_head? hh
    rw [List.mem_filter] at hmem
    refine ⟨e, hmem.1, Option.some.inj h2, ?_⟩
    have := hmem.2
    simp only [Bool.or_eq_true, Bool.and_eq_true, decide_eq_true_eq] at this
    exact this

/-- For real-room pairs, the loop's adjacency test succeeds exactly when a
first door exists. -/
theorem adjAny_iff_firstDoor {conn : List (Nat × Nat × Nat)} {R : Nat}
    (hF : ∀ e ∈ conn, e.1 < R ∧ e.2.2 < R ∧ R ≤ e.2.1) {i j : Nat}
    (hij : i < j) (hjR : j < R) :
    (conn.any (fun e => memT i e && memT j e) = true) ↔
      ∃ d, firstDoor conn i j = some d := by
  constructor
  · intro h
    rw [List.any_eq_true] at h
    obtain ⟨e, he, hpred⟩ := h
    obtain ⟨he1, he2, he3⟩ := hF e he
    simp only [memT, Bool.and_eq_true, Bool.or_eq_true, decide_eq_true_eq] at hpred
    have hi : i = e.1 ∨ i = e.2.2 := by omega
    have hj : j = e.1 ∨ j = e.2.2 := by omega
    have hpred2 : ((decide (e.1 = i) && decide (e.2.2 = j)) ||
        (decide (e.1 = j) && decide (e.2.2 = i))) = true := by
      simp only [Bool.or_eq_true, Bool.and_eq_true, decide_eq_true_eq]
      omega
    have hfmem : e ∈ conn.filter (fun e =>
        (decide (e.1 = i) && decide (e.2.2 = j)) ||
        (decide (e.1 = j) && decide (e.2.2 = i))) :=
      List.mem_filter.mpr ⟨he, hpred2⟩
    cases hh : (conn.filter (fun e =>
        (decide (e.1 = i) && decide (e.2.2 = j)) ||
        (decide (e.1 = j) && decide (e.2.2 = i)))).head? with
    | none =>
      rw [List.head?_eq_none_iff] at hh
      rw [hh] at hfmem
      cases hfmem
    | some e' =>
      exact ⟨e'.2.1, by rw [firstDoor, List.head?_map, hh]; rfl⟩
  · rintro ⟨d, hd⟩
    obtain ⟨e, he, _, hpred⟩ := firstDoor_mem hd
    rw [List.any_eq_true]
    refine ⟨e, he, ?_⟩
    simp only [memT, Bool.and_eq_true, Bool.or_eq_true, decide_eq_true_eq]
    omega

/-- Two ordered real-room pairs sharing their chosen door are equal. -/
theorem firstDoor_unique_pair {conn : List (Nat × Nat × Nat)}
    (hFd : ∀ e ∈ conn, ∀ e' ∈ conn, e.2.1 = e'.2.1 → e = e')
    {i j i' j' d : Nat} (hij : i < j) (hij' : i' < j')
    (h : firstDoor conn i j = some d) (h' : firstDoor conn i' j' = some d) :
    i = i' ∧ j = j' := by
  obtain ⟨e, he, hed, hepred⟩ := firstDoor_mem h
  obtain ⟨e', he', hed', hepred'⟩ := firstDoor_mem h'
  have hee : e = e' := hFd e he e' he' (by rw [hed, hed'])
  subst hee
  rcases hepred with ⟨h1, h2⟩ | ⟨h1, h2⟩ <;> rcases hepred' with ⟨h3, h4⟩ | ⟨h3, h4⟩ <;>
    omega

theorem bool_eq_true_of_ne_false {b : Bool} (h : b ≠ false) : b = true := by
  cases b
  · exact absurd rfl h
  · rfl

theorem procPlus_cases {conn : List (Nat × Nat × Nat)} {P : List (Nat × Nat)}
    {x y : Nat} (h : procPlus conn P x y = true) :
    ∃ p ∈ P, ∃ dp, firstDoor conn p.1 p.2 = some dp ∧
      ((x = p.1 ∧ y = p.2) ∨ (x = p.1 ∧ y = dp) ∨ (x = p.2 ∧ y = dp)) := by
  rw [procPlus, List.any_eq_true] at h
  obtain ⟨p, hpP, hbody⟩ := h
  cases hfd : firstDoor conn p.1 p.2 with
  | none => rw [hfd] at hbody; cases hbody
  | some dp =>
    rw [hfd] at hbody
    simp only [Bool.or_eq_true, decide_eq_true_eq, Prod.ext_iff] at hbody
    exact ⟨p, hpP, dp, hfd, by tauto⟩

/-- The adjacency loop, processed over the full pair list, succeeds and
realizes exactly the sign function `sgnProc conn (pairsLt R)`. -/
theorem fold_adj_strong {n R D : Nat} {conn : List (Nat × Nat × Nat)}
    (hF : ∀ e ∈ conn, e.1 < R ∧ e.2.2 < R ∧ R ≤ e.2.1 ∧ e.2.1 < D)
    (hFd : ∀ e ∈ conn, ∀ e' ∈ conn, e.2.1 = e'.2.1 → e = e') (hDn : D ≤ n) :
    ∀ (Q P : List (Nat × Nat)), pairsLt R = P ++ Q →
      ∀ T, countChar n (sgnProc conn P) T →
      ∃ T', List.foldlM (adjacencyStep conn) T Q = Except.ok T' ∧
        countChar n (sgnProc conn (pairsLt R)) T' := by
  have hF3 : ∀ e ∈ conn, e.1 < R ∧ e.2.2 < R ∧ R ≤ e.2.1 :=
    fun e he => ⟨(hF e he).1, (hF e he).2.1, (hF e he).2.2.1⟩
  intro Q
  induction Q with
  | nil =>
    intro P hsplit T hchar
    rw [List.append_nil] at hsplit
    refine ⟨T, by rw [List.foldlM_nil]; rfl, ?_⟩
    rw [hsplit]
    exact hchar
  | cons q Q ih =>
    intro P hsplit T hchar
    have hqmem : q ∈ pairsLt R := by
      rw [hsplit]
      exact List.mem_append_right _ (List.mem_cons_self q Q)
    have hq12 := (mem_pairsLt R q).mp hqmem
    have hqP : q ∉ P := by
      intro hqp
      have hnd := nodup_pairsLt R
      rw [hsplit] at hnd
      exact (List.nodup_append.mp hnd).2.2 hqp (List.mem_cons_self q Q)
    rw [List.foldlM_cons]
    by_cases hadj : conn.any (fun e => memT q.1 e && memT q.2 e) = true
    · obtain ⟨d, hd⟩ := (adjAny_iff_firstDoor hF3 hq12.1 hq12.2).mp hadj
      obtain ⟨e, he, hed, _⟩ := firstDoor_mem hd
      have hdD : R ≤ d ∧ d < D := by
        have := hF e he
        omega
      have hdn : d < n := by omega
      -- the three flipped pairs have not been flipped before
      have hnotflip : ∀ x y : Nat, ((x, y) = (q.1, d) ∨ (x, y) = (q.2, d) ∨
          (x, y) = (q.1, q.2)) → procPlus conn P x y = false := by
        intro x y hxy
        by_contra hx
        obtain ⟨p, hpP, dp, hfd, hshape⟩ := procPlus_cases (bool_eq_true_of_ne_false hx)
        have hpmem : p ∈ pairsLt R := by
          rw [hsplit]
          exact List.mem_append_left _ hpP
        have hp12 := (mem_pairsLt R p).mp hpmem
        have hdpR : R ≤ dp := by
          obtain ⟨ep, hep, hepd, _⟩ := firstDoor_mem hfd
          have := hF ep hep
          omega
        have hxy2 : (x = q.1 ∧ y = d) ∨ (x = q.2 ∧ y = d) ∨ (x = q.1 ∧ y = q.2) := by
          rcases hxy with hc | hc | hc
          · rw [Prod.ext_iff] at hc
            exact Or.inl ⟨hc.1, hc.2⟩
          · rw [Prod.ext_iff] at hc
            exact Or.inr (Or.inl ⟨hc.1, hc.2⟩)
          · rw [Prod.ext_iff] at hc
            exact Or.inr (Or.inr ⟨hc.1, hc.2⟩)
        have hpair_eq : p.1 = q.1 ∧ p.2 = q.2 → False := by
          rintro ⟨h1, h2⟩
          apply hqP
          rw [show q = p from Prod.ext h1.symm h2.symm]
          exact hpP
        have huniq_contra : dp = d → False := by
          intro hdp
          rw [hdp] at hfd
          have huniq := firstDoor_unique_pair hFd hq12.1 hp12.1 hd hfd
          exact hpair_eq ⟨huniq.1.symm, huniq.2.symm⟩
        rcases hxy2 with ⟨hx1, hy1⟩ | ⟨hx1, hy1⟩ | ⟨hx1, hy1⟩ <;>
          rcases hshape with ⟨hs1, hs2⟩ | ⟨hs1, hs2⟩ | ⟨hs1, hs2⟩
        · omega
        · exact huniq_contra (by omega)
        · exact huniq_contra (by omega)
        · omega
        · exact huniq_contra (by omega)
        · exact huniq_contra (by omega)
        · exact hpair_eq ⟨by omega, by omega⟩
        · omega
        · omega
      have hσ1 : sgnProc conn P q.1 d = -1 := by
        rw [sgnProc, hnotflip q.1 d (Or.inl rfl)]
        rfl
      have hσ2 : sgnProc conn P q.2 d = -1 := by
        rw [sgnProc, hnotflip q.2 d (Or.inr (Or.inl rfl))]
        rfl
      have hσ3 : sgnProc conn P q.1 q.2 = -1 := by
        rw [sgnProc, hnotflip q.1 q.2 (Or.inr (Or.inr rfl))]
        rfl
      have hq1d : q.1 < d := by omega
      have hq2d : q.2 < d := by omega
      have hq2n : q.2 < n := by omega
      obtain ⟨hm1, hchar1⟩ := countChar_flip1 hchar hq1d hdn hσ1
      have hσ2' : setPlus (sgnProc conn P) q.1 d q.2 d = -1 := by
        rw [setPlus, if_neg (fun hc => by omega), hσ2]
      obtain ⟨hm2L, hchar2⟩ := countChar_flip1 hchar1 hq2d hdn hσ2'
      have hne21 : ((q.2, (-1 : Int), d) : Triple) ≠ (q.1, (1 : Int), d) := by
        simp only [ne_eq, Prod.mk.injEq, not_and]
        intro _ hc _
        cases hc
      have hm2 : ((q.2, (-1 : Int), d) : Triple) ∈ T.erase (q.1, (-1 : Int), d) := by
        rcases List.mem_append.mp hm2L with hc | hc
        · exact hc
        · rw [List.mem_singleton] at hc
          exact absurd hc hne21
      have hL1 : ((T.erase (q.1, (-1 : Int), d)) ++ [(q.1, (1 : Int), d)]).erase
          (q.2, (-1 : Int), d) =
          (T.erase (q.1, (-1 : Int), d)).erase (q.2, (-1 : Int), d)
            ++ [(q.1, (1 : Int), d)] := List.erase_append_left _ hm2
      rw [hL1] at hchar2
      have hσ3' : setPlus (setPlus (sgnProc conn P) q.1 d) q.2 d q.1 q.2 = -1 := by
        rw [setPlus, if_neg (fun hc => by omega), setPlus,
          if_neg (fun hc => by omega), hσ3]
      obtain ⟨hm3L, hchar3⟩ := countChar_flip1 hchar2 hq12.1 hq2n hσ3'
      have hm3 : ((q.1, (-1 : Int), q.2) : Triple) ∈
          (T.erase (q.1, (-1 : Int), d)).erase (q.2, (-1 : Int), d) := by
        rcases List.mem_append.mp hm3L with hc | hc
        · rcases List.mem_append.mp hc with hc2 | hc2
          · exact hc2
          · rw [List.mem_singleton] at hc2
            exact absurd hc2 (by simp)
        · rw [List.mem_singleton] at hc
          exact absurd hc (by simp)
      have hL2 : (((T.erase (q.1, (-1 : Int), d)).erase (q.2, (-1 : Int), d)
            ++ [(q.1, (1 : Int), d)]) ++ [(q.2, (1 : Int), d)]).erase
          (q.1, (-1 : Int), q.2) =
          ((((T.erase (q.1, (-1 : Int), d)).erase (q.2, (-1 : Int), d)).erase
            (q.1, (-1 : Int), q.2)) ++ [(q.1, (1 : Int), d)]) ++ [(q.2, (1 : Int), d)] := by
        rw [List.erase_append_left _ (List.mem_append_left _ hm3),
          List.erase_append_left _ hm3]
      rw [hL2] at hchar3
      have hlist : (((((T.erase (q.1, (-1 : Int), d)).erase (q.2, (-1 : Int), d)).erase
            (q.1, (-1 : Int), q.2)) ++ [(q.1, (1 : Int), d)]) ++ [(q.2, (1 : Int), d)])
            ++ [(q.1, (1 : Int), q.2)] =
          (((T.erase (q.1, (-1 : Int), d)).erase (q.2, (-1 : Int), d)).erase
            (q.1, (-1 : Int), q.2))
            ++ [(q.1, (1 : Int), d), (q.2, (1 : Int), d), (q.1, (1 : Int), q.2)] := by
        simp
      rw [hlist] at hchar3
      -- the step evaluates to exactly this list
      have hstep : adjacencyStep conn T q = Except.ok
          ((((T.erase (q.1, (-1 : Int), d)).erase (q.2, (-1 : Int), d)).erase
            (q.1, (-1 : Int), q.2))
            ++ [(q.1, (1 : Int), d), (q.2, (1 : Int), d), (q.1, (1 : Int), q.2)]) := by
        rw [adjacencyStep, if_pos hadj]
        have hph : pyHead ((conn.filter (fun e =>
            (decide (e.1 = q.1) && decide (e.2.2 = q.2)) ||
            (decide (e.1 = q.2) && decide (e.2.2 = q.1)))).map (fun e => e.2.1)) =
            Except.ok d := by
          rw [pyHead_ok]
          exact hd
        rw [hph, exceptBind_ok, pyRemove_ok_of_mem hm1, exceptBind_ok,
          pyRemove_ok_of_mem hm2, exceptBind_ok, pyRemove_ok_of_mem hm3, exceptBind_ok]
        rfl
      -- the new sign function is the processed-prefix sign for P ++ [q]
      have hσnew : countChar n (sgnProc conn (P ++ [q]))
          ((((T.erase (q.1, (-1 : Int), d)).erase (q.2, (-1 : Int), d)).erase
            (q.1, (-1 : Int), q.2))
            ++ [(q.1, (1 : Int), d), (q.2, (1 : Int), d), (q.1, (1 : Int), q.2)]) := by
        apply countChar_congr hchar3
        intro x y _ _
        rw [sgnProc, procPlus_append]
        have hone : procPlus conn [q] x y =
            (decide ((x, y) = q) || decide ((x, y) = (q.1, d)) ||
              decide ((x, y) = (q.2, d))) := by
          rw [procPlus, List.any_cons, List.any_nil, Bool.or_false, hd]
        rw [hone]
        by_cases h1 : (x, y) = (q.1, q.2)
        · have hq : (x, y) = q := h1
          rw [setPlus, if_pos (by rw [Prod.ext_iff] at h1; exact ⟨h1.1, h1.2⟩)]
          rw [hq]
          simp
        · rw [setPlus, if_neg (fun hc => h1 (Prod.ext hc.1 hc.2))]
          by_cases h2 : (x, y) = (q.2, d)
          · rw [setPlus, if_pos (by rw [Prod.ext_iff] at h2; exact ⟨h2.1, h2.2⟩)]
            rw [h2]
            simp
          · rw [setPlus, if_neg (fun hc => h2 (Prod.ext hc.1 hc.2))]
            by_cases h3 : (x, y) = (q.1, d)
            · rw [setPlus, if_pos (by rw [Prod.ext_iff] at h3; exact ⟨h3.1, h3.2⟩)]
              rw [h3]
              simp
            · rw [setPlus, if_neg (fun hc => h3 (Prod.ext hc.1 hc.2))]
              have hbq : (decide ((x, y) = q) || decide ((x, y) = (q.1, d)) ||
                  decide ((x, y) = (q.2, d))) = false := by
                simp only [Bool.or_eq_false_iff, decide_eq_false_iff_not]
                exact ⟨⟨fun hc => h1 hc, h3⟩, h2⟩
              rw [hbq, Bool.or_false, sgnProc]
      obtain ⟨T', hfold, hcharF⟩ := ih (P ++ [q])
        (by rw [hsplit, List.append_assoc]; rfl) _ hσnew
      refine ⟨T', ?_, hcharF⟩
      rw [hstep, exceptBind_ok]
      exact hfold
    · have hstep : adjacencyStep conn T q = Except.ok T := by
        rw [adjacencyStep, if_neg hadj]
        rfl
      have hfdnone : firstDoor conn q.1 q.2 = none := by
        cases hfd : firstDoor conn q.1 q.2 with
        | none => rfl
        | some d =>
          exact absurd ((adjAny_iff_firstDoor hF3 hq12.1 hq12.2).mpr ⟨d, hfd⟩) hadj
      have hσeq : countChar n (sgnProc conn (P ++ [q])) T := by
        apply countChar_congr hchar
        intro x y _ _
        rw [sgnProc, sgnProc, procPlus_append]
        have hone : procPlus conn [q] x y = false := by
          rw [procPlus, List.any_cons, List.any_nil, Bool.or_false, hfdnone]
        rw [hone, Bool.or_false]
      obtain ⟨T', hfold, hcharF⟩ := ih (P ++ [q])
        (by rw [hsplit, List.append_assoc]; rfl) _ hσeq
      refine ⟨T', ?_, hcharF⟩
      rw [hstep, exceptBind_ok]
      exact hfold

/-- Final sign function: `+1` exactly on the pairs flipped by the
adjacency loop and on the front-door pairs. -/
def sgnWithFront (conn : List (Nat × Nat × Nat)) (R : Nat) (fr : List (Nat × Nat)) :
    Nat → Nat → Int :=
  fun x y => if procPlus conn (pairsLt R) x y || decide ((x, y) ∈ fr) then 1 else -1

theorem procPlus_y_bound {conn : List (Nat × Nat × Nat)} {R D : Nat}
    (hF : ∀ e ∈ conn, e.1 < R ∧ e.2.2 < R ∧ R ≤ e.2.1 ∧ e.2.1 < D)
    {x y : Nat} (h : procPlus conn (pairsLt R) x y = true) : y < D := by
  obtain ⟨p, hpP, dp, hfd, hshape⟩ := procPlus_cases h
  have hp12 := (mem_pairsLt R p).mp hpP
  obtain ⟨ep, hep, hepd, _⟩ := firstDoor_mem hfd
  have := hF ep hep
  omega

/-- The front-door loop succeeds and flips exactly its `(room, door)`
pairs, on top of the adjacency sign function. -/
theorem fold_front_strong {n R D : Nat} {conn : List (Nat × Nat × Nat)}
    (rl : List String)
    (hF : ∀ e ∈ conn, e.1 < R ∧ e.2.2 < R ∧ R ≤ e.2.1 ∧ e.2.1 < D) (hRD : R ≤ D)
    (FR : Nat → Nat) :
    ∀ (E2 E1 : List (Nat × String)),
      (∀ q ∈ E1 ++ E2, getIdx rl q.2 = Except.ok (FR q.1) ∧ FR q.1 < R ∧
        getIdx rl (frontName (q.1 + 1)) = Except.ok (D + q.1) ∧ D + q.1 < n) →
      (((E1 ++ E2).map Prod.fst).Nodup) →
      ∀ T, countChar n
          (sgnWithFront conn R (E1.map (fun q => (FR q.1, D + q.1)))) T →
      ∃ T', List.foldlM (frontStep rl) T E2 = Except.ok T' ∧
        countChar n
          (sgnWithFront conn R ((E1 ++ E2).map (fun q => (FR q.1, D + q.1)))) T' := by
  intro E2
  induction E2 with
  | nil =>
    intro E1 _ _ T hchar
    refine ⟨T, by rw [List.foldlM_nil]; rfl, ?_⟩
    rw [List.append_nil]
    exact hchar
  | cons q E2 ih =>
    intro E1 hlook hnd T hchar
    have hqmem : q ∈ E1 ++ q :: E2 :=
      List.mem_append_right _ (List.mem_cons_self q E2)
    obtain ⟨hr, hFRlt, hf, hfn⟩ := hlook q hqmem
    -- the pair to flip is still -1
    have hnotproc : procPlus conn (pairsLt R) (FR q.1) (D + q.1) = false := by
      by_contra hx
      have := procPlus_y_bound hF (bool_eq_true_of_ne_false hx)
      omega
    have hnotfront : ((FR q.1, D + q.1) ∉
        E1.map (fun q' => (FR q'.1, D + q'.1))) := by
      intro hc
      rw [List.mem_map] at hc
      obtain ⟨q', hq', hq'eq⟩ := hc
      have hfst : q'.1 = q.1 := by
        have := congrArg Prod.snd hq'eq
        simp only at this
        omega
      have hmapsplit : ((E1 ++ q :: E2).map Prod.fst) =
          E1.map Prod.fst ++ q.1 :: E2.map Prod.fst := by
        rw [List.map_append]
        rfl
      rw [hmapsplit] at hnd
      have hdisj := (List.nodup_append.mp hnd).2.2
      have hq1fst : q.1 ∈ E1.map Prod.fst := by
        rw [← hfst]
        exact List.mem_map_of_mem Prod.fst hq'
      exact hdisj hq1fst (List.mem_cons_self _ _)
    have hσ : sgnWithFront conn R (E1.map (fun q' => (FR q'.1, D + q'.1)))
        (FR q.1) (D + q.1) = -1 := by
      rw [sgnWithFront, hnotproc]
      simp only [Bool.false_or, decide_eq_true_eq]
      rw [if_neg hnotfront]
    have hlt : FR q.1 < D + q.1 := by omega
    obtain ⟨hm1, hchar1⟩ := countChar_flip1 hchar hlt hfn hσ
    have hstep : frontStep rl T q = Except.ok
        (T.erase (FR q.1, (-1 : Int), D + q.1) ++ [(FR q.1, (1 : Int), D + q.1)]) := by
      rw [frontStep, hr, exceptBind_ok, hf, exceptBind_ok,
        pyRemove_ok_of_mem hm1, exceptBind_ok]
      rfl
    have hσnew : countChar n
        (sgnWithFront conn R ((E1 ++ [q]).map (fun q' => (FR q'.1, D + q'.1))))
        (T.erase (FR q.1, (-1 : Int), D + q.1) ++ [(FR q.1, (1 : Int), D + q.1)]) := by
      apply countChar_congr hchar1
      intro x y _ _
      rw [sgnWithFront]
      rw [List.map_append]
      by_cases hxy : (x, y) = ((FR q.1, D + q.1) : Nat × Nat)
      · rw [setPlus, if_pos (by rw [Prod.ext_iff] at hxy; exact ⟨hxy.1, hxy.2⟩)]
        have hmem3 : ((x, y) ∈ E1.map (fun q' => (FR q'.1, D + q'.1)) ++
            [((FR q.1, D + q.1) : Nat × Nat)]) :=
          List.mem_append_right _ (by rw [List.mem_singleton]; exact hxy)
        simp [hmem3]
      · rw [setPlus, if_neg (fun hc => hxy (Prod.ext hc.1 hc.2))]
        rw [sgnWithFront]
        have hmemiff : ((x, y) ∈ E1.map (fun q' => (FR q'.1, D + q'.1)) ++
            [((FR q.1, D + q.1) : Nat × Nat)]) ↔
            ((x, y) ∈ E1.map (fun q' => (FR q'.1, D + q'.1))) := by
          rw [List.mem_append]
          constructor
          · rintro (hc | hc)
            · exact hc
            · rw [List.mem_singleton] at hc
              exact absurd hc hxy
          · exact Or.inl
        by_cases hmem : (x, y) ∈ E1.map (fun q' => (FR q'.1, D + q'.1))
        · simp [hmem, hmemiff.mpr hmem]
        · have hmem2 : ¬((x, y) ∈ E1.map (fun q' => (FR q'.1, D + q'.1)) ++
              [((FR q.1, D + q.1) : Nat × Nat)]) := fun hc => hmem (hmemiff.mp hc)
          simp [hmem, hmem2]
    have hlookup' : ∀ q' ∈ (E1 ++ [q]) ++ E2,
        getIdx rl q'.2 = Except.ok (FR q'.1) ∧ FR q'.1 < R ∧
        getIdx rl (frontName (q'.1 + 1)) = Except.ok (D + q'.1) ∧ D + q'.1 < n := by
      intro q' hq'
      apply hlook
      rw [List.append_assoc] at hq'
      exact hq'
    have hnd' : (((E1 ++ [q]) ++ E2).map Prod.fst).Nodup := by
      rw [List.append_assoc]
      exact hnd
    obtain ⟨T', hfold, hcharF⟩ := ih (E1 ++ [q]) hlookup' hnd' _ hσnew
    rw [List.append_assoc] at hcharF
    refine ⟨T', ?_, hcharF⟩
    rw [List.foldlM_cons, hstep, exceptBind_ok]
    exact hfold

/-- The final sign function of the compiler on a given input. -/
def sgnFinal (inp : FPInput) : Nat → Nat → Int :=
  sgnWithFront (connIdxList inp) (Rof inp) (frontPairs inp)

theorem connIdxList_bounds (inp : FPInput) (h : WFbase inp) :
    ∀ e ∈ connIdxList inp, e.1 < Rof inp ∧ e.2.2 < Rof inp ∧
      Rof inp ≤ e.2.1 ∧ e.2.1 < Rof inp + inp.connection.length := by
  intro e he
  rw [connIdxList, List.mem_map] at he
  obtain ⟨p, hp, hpe⟩ := he
  have hc := List.mem_enum hp
  have hpmem : p.2 ∈ inp.connection := by
    rw [hc.2]
    exact List.getElem_mem hc.1
  rw [← hpe]
  refine ⟨(roomIdx_spec inp h (h.2.1 p.2 hpmem).1 inp.connection.length
      inp.front_door.length).2, (roomIdx_spec inp h (h.2.1 p.2 hpmem).2
      inp.connection.length inp.front_door.length).2, by simp, by simp; omega⟩

theorem connIdxList_door_inj (inp : FPInput) :
    ∀ e ∈ connIdxList inp, ∀ e' ∈ connIdxList inp, e.2.1 = e'.2.1 → e = e' := by
  intro e he e' he' hdd
  rw [connIdxList, List.mem_map] at he he'
  obtain ⟨p, hp, hpe⟩ := he
  obtain ⟨p', hp', hpe'⟩ := he'
  have hc := List.mem_enum hp
  have hc' := List.mem_enum hp'
  have h1 : p.1 = p'.1 := by
    rw [← hpe, ← hpe'] at hdd
    simp only at hdd
    omega
  have h2 : p = p' := by
    apply Prod.ext h1
    rw [hc.2, hc'.2]
    simp [h1]
  rw [← hpe, ← hpe', h2]

theorem f1_enum_map (inp : FPInput) :
    (inp.front_door.map (stdOf inp)).enum =
      inp.front_door.enum.map (fun p => (p.1, stdOf inp p.2)) := by
  rw [List.enum_map]
  rfl

/-- Main characterization: on a well-formed input the compiler succeeds,
produces the extended room list and the declarative connection triples,
and its edge list realizes the sign function `sgnFinal`. -/
theorem generate_spec (inp : FPInput) (h : WFbase inp) :
    ∃ out, generate_bubble_diagram inp = Except.ok out ∧
      out.room_list = rlExt inp inp.connection.length inp.front_door.length ∧
      out.real_nodes_len = Rof inp ∧
      out.room_list_indices =
        (rlExt inp inp.connection.length inp.front_door.length).map typeIdx ∧
      out.connection = connIdxList inp ∧
      countChar (Rof inp + inp.connection.length + inp.front_door.length)
        (sgnFinal inp) out.triples := by
  have hn : (rlExt inp inp.connection.length inp.front_door.length).length =
      Rof inp + inp.connection.length + inp.front_door.length := by
    rw [length_rlExt]
    rfl
  set n := Rof inp + inp.connection.length + inp.front_door.length with hndef
  -- adjacency stage
  have hF := connIdxList_bounds inp h
  have hFd := connIdxList_door_inj inp
  have hchar0 : countChar n (sgnProc (connIdxList inp) []) (initTriples n) := by
    apply countChar_congr (countChar_initTriples n)
    intro x y _ _
    rw [sgnProc, procPlus_nil]
    rfl
  obtain ⟨T1, hfold1, hchar1⟩ := fold_adj_strong hF hFd
    (show Rof inp + inp.connection.length ≤ n by rw [hndef]; omega)
    (pairsLt (Rof inp)) [] (by rw [List.nil_append]) (initTriples n) hchar0
  -- front stage
  have hchar1' : countChar n (sgnWithFront (connIdxList inp) (Rof inp)
      (([] : List (Nat × String)).map (fun q =>
        (roomIdx inp (stdOf inp (inp.front_door.getD q.1 "")),
          (Rof inp + inp.connection.length) + q.1)))) T1 := by
    apply countChar_congr hchar1
    intro x y _ _
    rw [sgnProc, sgnWithFront]
    simp
  obtain ⟨T2, hfold2, hchar2⟩ := fold_front_strong
    (rlExt inp inp.connection.length inp.front_door.length) hF
    (show Rof inp ≤ Rof inp + inp.connection.length by omega)
    (fun k => roomIdx inp (stdOf inp (inp.front_door.getD k "")))
    ((inp.front_door.map (stdOf inp)).enum) []
    (by
      intro q hq
      rw [List.nil_append, f1_enum_map, List.mem_map] at hq
      obtain ⟨p, hp, hpq⟩ := hq
      subst hpq
      have hc := List.mem_enum hp
      have hpmem : p.2 ∈ inp.front_door := by
        rw [hc.2]
        exact List.getElem_mem hc.1
      have hgetD : inp.front_door.getD p.1 "" = p.2 := by
        rw [List.getD_eq_getElem _ _ hc.1]
        exact hc.2.symm
      refine ⟨?_, ?_, ?_, ?_⟩
      · show getIdx (rlExt inp inp.connection.length inp.front_door.length)
          (stdOf inp p.2) =
          Except.ok (roomIdx inp (stdOf inp (inp.front_door.getD p.1 "")))
        rw [hgetD]
        exact getIdx_of_lastIndexOf
          (roomIdx_spec inp h (h.2.2.1 p.2 hpmem) inp.connection.length
            inp.front_door.length).1
      · show roomIdx inp (stdOf inp (inp.front_door.getD p.1 "")) < Rof inp
        rw [hgetD]
        exact (roomIdx_spec inp h (h.2.2.1 p.2 hpmem) inp.connection.length
          inp.front_door.length).2
      · show getIdx (rlExt inp inp.connection.length inp.front_door.length)
          (frontName (p.1 + 1)) =
          Except.ok (Rof inp + inp.connection.length + p.1)
        exact getIdx_of_lastIndexOf (lastIndexOf_rlExt_front inp hc.1)
      · show Rof inp + inp.connection.length + p.1 < n
        have := hc.1
        omega)
    (by
      rw [List.nil_append, f1_enum_map]
      have : ((inp.front_door.enum.map (fun p => (p.1, stdOf inp p.2))).map Prod.fst) =
          inp.front_door.enum.map Prod.fst := by
        rw [List.map_map]
        rfl
      rw [this, List.enum_map_fst]
      exact List.nodup_range _)
    T1 hchar1'
  -- unfold the compiler and plug in the stages
  have hc1 := conn_translation inp h
  have hf1 := front_translation inp h
  have hc3 := conn_index_resolution inp h
  refine ⟨{ room_list := rlExt inp inp.connection.length inp.front_door.length
            real_nodes_len := Rof inp
            room_list_indices :=
              (rlExt inp inp.connection.length inp.front_door.length).map typeIdx
            connection := connIdxList inp
            triples := organize T2
            graph_nodes := graphNodesOf
              ((rlExt inp inp.connection.length inp.front_door.length).map typeIdx) },
    ?_, rfl, rfl, rfl, rfl, ?_⟩
  · rw [generate_bubble_diagram]
    rw [hc1, exceptBind_ok, hf1, exceptBind_ok]
    simp only [List.length_map]
    rw [hc3, exceptBind_ok]
    rw [show initTriples (rlExt inp inp.connection.length inp.front_door.length).length
        = initTriples n from by rw [hn]]
    rw [show (pairsLt inp.modified_room_list.length) = pairsLt (Rof inp) from rfl]
    rw [hfold1, exceptBind_ok, frontFold, hfold2, exceptBind_ok]
    rfl
  · show countChar n (sgnFinal inp) (organize T2)
    apply countChar_perm _ (List.perm_insertionSort tripleLe T2).symm
    apply countChar_congr hchar2
    intro x y _ _
    rw [sgnFinal, sgnWithFront, sgnWithFront]
    have hfr : (([] : List (Nat × String)) ++
          (inp.front_door.map (stdOf inp)).enum).map (fun q =>
        (roomIdx inp (stdOf inp (inp.front_door.getD q.1 "")),
          (Rof inp + inp.connection.length) + q.1)) = frontPairs inp := by
      rw [List.nil_append, f1_enum_map, List.map_map, frontPairs]
      apply List.map_congr_left
      intro p hp
      have hc := List.mem_enum hp
      have hgetD : inp.front_door.getD p.1 "" = p.2 := by
        rw [List.getD_eq_getElem _ _ hc.1]
        exact hc.2.symm
      simp only [Function.comp_apply]
      rw [hgetD]
    rw [hfr]

/-! Helpers for reading edges off the characterization. -/

/-- An unordered `+1` edge in the output triple list. -/
def plusEdge (T : List Triple) (x y : Nat) : Prop :=
  (x, (1 : Int), y) ∈ T ∨ (y, (1 : Int), x) ∈ T

theorem plusEdge_comm {T : List Triple} {x y : Nat} :
    plusEdge T x y ↔ plusEdge T y x := Or.comm

theorem countChar_plusEdge {n : Nat} {sgn : Nat → Nat → Int} {T : List Triple}
    (h : countChar n sgn T) {x y : Nat} (hxy : x < y) :
    plusEdge T x y ↔ (y < n ∧ sgn x y = 1) := by
  constructor
  · rintro (hm | hm)
    · have := countChar_mem_cond h hm
      exact ⟨this.2.1, this.2.2.symm⟩
    · have := countChar_mem_cond h hm
      omega
  · rintro ⟨hyn, hs⟩
    left
    apply List.count_pos_iff.mp
    rw [h x y 1, if_pos ⟨hxy, hyn, hs.symm⟩]
    omega

theorem countChar_plusEdge_ne {n : Nat} {sgn : Nat → Nat → Int} {T : List Triple}
    (h : countChar n sgn T) {x y : Nat} (hp : plusEdge T x y) : x ≠ y ∧ x < n ∧ y < n := by
  rcases hp with hm | hm
  · have := countChar_mem_cond h hm
    omega
  · have := countChar_mem_cond h hm
    omega

/-- The head of a filtered list, given an element that is the unique
satisfier. -/
theorem head?_filter_unique {α : Type} [DecidableEq α] :
    ∀ {l : List α} {pr : α → Bool} {x : α}, x ∈ l → pr x = true →
      (∀ y ∈ l, pr y = true → y = x) → (l.filter pr).head? = some x := by
  intro l
  induction l with
  | nil => intro pr x hx; cases hx
  | cons a l ih =>
    intro pr x hx hpx huniq
    by_cases hpa : pr a = true
    · have hax : a = x := huniq a (List.mem_cons_self a l) hpa
      rw [List.filter_cons_of_pos hpa]
      rw [hax]
      rfl
    · rw [List.filter_cons_of_neg hpa]
      have hxl : x ∈ l := by
        rcases List.mem_cons.mp hx with hc | hc
        · rw [hc] at hpx
          exact absurd hpx hpa
        · exact hc
      exact ih hxl hpx (fun y hy hpy => huniq y (List.mem_cons_of_mem a hy) hpy)

/-- The head of a filtered list is the satisfier of smallest index. -/
theorem head?_filter_le {α : Type} :
    ∀ (l : List α) (pr : α → Bool) (j : Nat) (hj : j < l.length),
      pr (l[j]) = true →
      ∃ i, i ≤ j ∧ ∃ hi : i < l.length, (l.filter pr).head? = some (l[i]) ∧
        pr (l[i]) = true := by
  intro l
  induction l with
  | nil => intro pr j hj hpj; simp at hj
  | cons a l ih =>
    intro pr j hj hpj
    by_cases hpa : pr a = true
    · exact ⟨0, by omega, by simp, by rw [List.filter_cons_of_pos hpa]; rfl, by simpa⟩
    · cases j with
      | zero => exact absurd hpj hpa
      | succ j' =>
        have hj' : j' < l.length := by simpa using hj
        have hpj' : pr (l[j']) = true := by simpa using hpj
        obtain ⟨i, hij, hi, hhead, hpi⟩ := ih pr j' hj' hpj'
        refine ⟨i + 1, by omega, by simpa, ?_, by simpa⟩
        rw [List.filter_cons_of_neg hpa]
        simpa using hhead

/-- Characterization of `lastIndexOf` as the last occurrence. -/
theorem lastIndexOf_eq_some_iff {l : List String} {k : String} {j : Nat} :
    lastIndexOf l k = some j ↔
      (l[j]? = some k ∧ ∀ r, j < r → l[r]? ≠ some k) := by
  induction l generalizing j with
  | nil =>
    simp only [lastIndexOf]
    constructor
    · intro h; cases h
    · rintro ⟨h, _⟩; simp at h
  | cons a l ih =>
    rw [lastIndexOf_cons]
    cases hl : lastIndexOf l k with
    | some j' =>
      have hih := ih.mp hl
      constructor
      · intro h
        have hj : j = j' + 1 := by
          have := Option.some.inj h
          omega
        subst hj
        refine ⟨by rw [List.getElem?_cons_succ]; exact hih.1, ?_⟩
        intro r hr
        cases r with
        | zero => omega
        | succ r' =>
          rw [List.getElem?_cons_succ]
          exact hih.2 r' (by omega)
      · rintro ⟨h1, h2⟩
        cases j with
        | zero =>
          exfalso
          have hjk : l[j']? = some k := hih.1
          exact h2 (j' + 1) (by omega) (by rw [List.getElem?_cons_succ]; exact hjk)
        | succ j2 =>
          rw [List.getElem?_cons_succ] at h1
          have h2' : ∀ r, j2 < r → l[r]? ≠ some k := by
            intro r hr
            have := h2 (r + 1) (by omega)
            rw [List.getElem?_cons_succ] at this
            exact this
          have := ih.mpr ⟨h1, h2'⟩
          rw [hl] at this
          have hj : j2 = j' := (Option.some.inj this).symm
          rw [hj]
    | none =>
      have hknl : k ∉ l := by
        intro hm
        obtain ⟨j0, hj0, _⟩ := lastIndexOf_mem hm
        rw [hl] at hj0
        cases hj0
      by_cases hak : a = k
      · rw [if_pos hak]
        constructor
        · intro h
          have hj : j = 0 := (Option.some.inj h).symm
          subst hj
          refine ⟨by rw [List.getElem?_cons_zero, hak], ?_⟩
          intro r hr
          cases r with
          | zero => omega
          | succ r' =>
            rw [List.getElem?_cons_succ]
            intro hc
            exact hknl (List.getElem?_mem hc)
        · rintro ⟨h1, h2⟩
          cases j with
          | zero => rfl
          | succ j2 =>
            rw [List.getElem?_cons_succ] at h1
            exact absurd (List.getElem?_mem h1) hknl
      · rw [if_neg hak]
        constructor
        · intro h; cases h
        · rintro ⟨h1, _⟩
          exfalso
          cases j with
          | zero =>
            rw [List.getElem?_cons_zero] at h1
            exact hak (Option.some.inj h1)
          | succ j2 =>
            rw [List.getElem?_cons_succ] at h1
            exact hknl (List.getElem?_mem h1)

theorem lastAssoc_zip_getElem {ks vs : List String} :
    ∀ {k v : String}, lastAssoc (ks.zip vs) k = some v →
      ∃ i, ∃ hi : i < ks.length, ks[i] = k ∧ ∃ hv : i < vs.length, vs[i] = v := by
  induction ks generalizing vs with
  | nil => intro k v h; cases h
  | cons a ks ih =>
    intro k v h
    cases vs with
    | nil => cases h
    | cons b vs =>
      rw [List.zip_cons_cons, lastAssoc_cons] at h
      cases hl : lastAssoc (ks.zip vs) k with
      | some v' =>
        rw [hl] at h
        have hv : v' = v := Option.some.inj h
        subst hv
        obtain ⟨i, hi, hki, hvi, hvv⟩ := ih hl
        exact ⟨i + 1, by simpa, by simpa using hki, by simpa, by simpa using hvv⟩
      | none =>
        rw [hl] at h
        by_cases hak : a = k
        · rw [if_pos hak] at h
          have hb : b = v := Option.some.inj h
          exact ⟨0, by simp, by simpa using hak, by simp, by simpa using hb⟩
        · rw [if_neg hak] at h
          cases h

/-- Distinct raw room names resolve to distinct standardized names when
the standardized names are pairwise distinct. -/
theorem stdOf_inj (inp : FPInput)
    (hlen : inp.complete_room_list.length = inp.modified_room_list.length)
    (hnd : inp.modified_room_list.Nodup) {r1 r2 : String}
    (h1 : r1 ∈ inp.complete_room_list) (h2 : r2 ∈ inp.complete_room_list)
    (hne : r1 ≠ r2) : stdOf inp r1 ≠ stdOf inp r2 := by
  obtain ⟨hv1, _⟩ := stdOf_spec inp hlen h1
  obtain ⟨hv2, _⟩ := stdOf_spec inp hlen h2
  obtain ⟨i1, hi1, hk1, hw1, hv1'⟩ := lastAssoc_zip_getElem hv1
  obtain ⟨i2, hi2, hk2, hw2, hv2'⟩ := lastAssoc_zip_getElem hv2
  have hne12 : i1 ≠ i2 := by
    intro hc
    subst hc
    exact hne (hk1 ▸ hk2 ▸ rfl)
  intro hc
  rw [← hv1', ← hv2'] at hc
  exact hne12 (List.Nodup.getElem_inj_iff hnd |>.mp hc)

/-- Distinct standardized room names resolve to distinct node indices. -/
theorem roomIdx_inj (inp : FPInput) {s1 s2 : String}
    (h1 : s1 ∈ inp.modified_room_list) (h2 : s2 ∈ inp.modified_room_list)
    (hne : s1 ≠ s2) : roomIdx inp s1 ≠ roomIdx inp s2 := by
  obtain ⟨j1, hj1, _⟩ := lastIndexOf_mem h1
  obtain ⟨j2, hj2, _⟩ := lastIndexOf_mem h2
  rw [roomIdx, roomIdx, hj1, hj2]
  have hg1 := (lastIndexOf_eq_some_iff.mp hj1).1
  have hg2 := (lastIndexOf_eq_some_iff.mp hj2).1
  intro hc
  simp only [Option.getD_some] at hc
  rw [hc] at hg1
  rw [hg1] at hg2
  exact hne (Option.some.inj hg2)

/-! Declarative per-entry resolvers and the `+1`-edge characterization
used by the individual claims. -/

/-- Resolved node index of the first room of the `k`-th connection. -/
def connAi (inp : FPInput) (k : Nat) : Nat :=
  roomIdx inp (stdOf inp ((inp.connection.getD k ("", "")).1))

/-- Resolved node index of the second room of the `k`-th connection. -/
def connBi (inp : FPInput) (k : Nat) : Nat :=
  roomIdx inp (stdOf inp ((inp.connection.getD k ("", "")).2))

/-- Resolved node index of the room of the `k`-th front-door entry. -/
def frontRi (inp : FPInput) (k : Nat) : Nat :=
  roomIdx inp (stdOf inp (inp.front_door.getD k ""))

/-- Unordered equality of the pair `(x, y)` with the pair `(a, b)`. -/
def unordEq (x y a b : Nat) : Prop := (x = a ∧ y = b) ∨ (x = b ∧ y = a)

/-- The pairs the input declares `+1`: for each connection its two rooms,
and each room with that connection's interior door; for each front-door
entry the room with its front-door node. -/
def DeclaredPlus (inp : FPInput) (x y : Nat) : Prop :=
  (∃ k, k < inp.connection.length ∧
    (unordEq x y (connAi inp k) (connBi inp k) ∨
     unordEq x y (connAi inp k) (Rof inp + k) ∨
     unordEq x y (connBi inp k) (Rof inp + k))) ∨
  (∃ k, k < inp.front_door.length ∧
    unordEq x y (frontRi inp k) (Rof inp + inp.connection.length + k))

theorem connIdxList_mem_elem (inp : FPInput) {k : Nat}
    (hk : k < inp.connection.length) :
    ((connAi inp k, Rof inp + k, connBi inp k) : Nat × Nat × Nat) ∈ connIdxList inp := by
  rw [connIdxList]
  have hke : ((k, inp.connection[k]) : Nat × String × String) ∈ inp.connection.enum := by
    have := List.getElem_enum inp.connection k (by rwa [List.enum_length])
    rw [← this]
    exact List.getElem_mem _
  have := List.mem_map_of_mem (fun p =>
    ((roomIdx inp (stdOf inp p.2.1), Rof inp + p.1, roomIdx inp (stdOf inp p.2.2)) :
      Nat × Nat × Nat)) hke
  simp only at this
  rwa [connAi, connBi, List.getD_eq_getElem _ _ hk]

theorem connIdxList_elem_shape (inp : FPInput) {e : Nat × Nat × Nat}
    (he : e ∈ connIdxList inp) :
    ∃ k, k < inp.connection.length ∧
      e = (connAi inp k, Rof inp + k, connBi inp k) := by
  rw [connIdxList, List.mem_map] at he
  obtain ⟨p, hp, hpe⟩ := he
  have hc := List.mem_enum hp
  refine ⟨p.1, hc.1, ?_⟩
  rw [← hpe, connAi, connBi, List.getD_eq_getElem _ _ hc.1, ← hc.2]

theorem frontPairs_mem_elem (inp : FPInput) {k : Nat}
    (hk : k < inp.front_door.length) :
    ((frontRi inp k, Rof inp + inp.connection.length + k) : Nat × Nat) ∈
      frontPairs inp := by
  rw [frontPairs]
  have hke : ((k, inp.front_door[k]) : Nat × String) ∈ inp.front_door.enum := by
    have := List.getElem_enum inp.front_door k (by rwa [List.enum_length])
    rw [← this]
    exact List.getElem_mem _
  have := List.mem_map_of_mem (fun q =>
    ((roomIdx inp (stdOf inp q.2), Rof inp + inp.connection.length + q.1) : Nat × Nat)) hke
  simp only at this
  rwa [frontRi, List.getD_eq_getElem _ _ hk]

theorem frontPairs_elem_shape (inp : FPInput) {e : Nat × Nat}
    (he : e ∈ frontPairs inp) :
    ∃ k, k < inp.front_door.length ∧
      e = (frontRi inp k, Rof inp + inp.connection.length + k) := by
  rw [frontPairs, List.mem_map] at he
  obtain ⟨q, hq, hqe⟩ := he
  have hc := List.mem_enum hq
  refine ⟨q.1, hc.1, ?_⟩
  rw [← hqe, frontRi, List.getD_eq_getElem _ _ hc.1, ← hc.2]

theorem sgnFinal_eq_one_iff (inp : FPInput) {x y : Nat} :
    sgnFinal inp x y = 1 ↔
      (procPlus (connIdxList inp) (pairsLt (Rof inp)) x y = true ∨
        ((x, y) : Nat × Nat) ∈ frontPairs inp) := by
  rw [sgnFinal, sgnWithFront]
  by_cases hb : (procPlus (connIdxList inp) (pairsLt (Rof inp)) x y ||
      decide ((x, y) ∈ frontPairs inp)) = true
  · rw [if_pos hb]
    simp only [Bool.or_eq_true, decide_eq_true_eq] at hb
    simp [hb]
  · rw [if_neg hb]
    simp only [Bool.or_eq_true, decide_eq_true_eq] at hb
    push_neg at hb
    constructor
    · intro hc
      exact absurd hc (by decide)
    · rintro (hc | hc)
      · exact absurd hc hb.1
      · exact absurd hc hb.2

theorem procPlus_intro {conn : List (Nat × Nat × Nat)} {R : Nat} {p : Nat × Nat}
    (hp : p ∈ pairsLt R) {d : Nat} (hd : firstDoor conn p.1 p.2 = some d) {x y : Nat}
    (hxy : (x, y) = p ∨ ((x, y) : Nat × Nat) = (p.1, d) ∨
      ((x, y) : Nat × Nat) = (p.2, d)) :
    procPlus conn (pairsLt R) x y = true := by
  rw [procPlus, List.any_eq_true]
  refine ⟨p, hp, ?_⟩
  rw [hd]
  simp only [Bool.or_eq_true, decide_eq_true_eq]
  tauto

/-- Under `WF1` the first (and only) door matched for the `k`-th
connection's room pair is the `k`-th interior door. -/
theorem firstDoor_of_conn (inp : FPInput) (hWF : WF1 inp) {k : Nat}
    (hk : k < inp.connection.length) :
    firstDoor (connIdxList inp)
      (min (connAi inp k) (connBi inp k)) (max (connAi inp k) (connBi inp k)) =
      some (Rof inp + k) := by
  obtain ⟨hbase, hnd, hns, hpairs⟩ := hWF
  set i := min (connAi inp k) (connBi inp k) with hi
  set j := max (connAi inp k) (connBi inp k) with hj
  have hab : connAi inp k ≠ connBi inp k := by
    have := hns inp.connection[k] (List.getElem_mem hk)
    rwa [connAi, connBi, List.getD_eq_getElem _ _ hk]
  rw [firstDoor]
  have hhead : ((connIdxList inp).filter (fun e =>
      (decide (e.1 = i) && decide (e.2.2 = j)) ||
      (decide (e.1 = j) && decide (e.2.2 = i)))).head? =
      some ((connAi inp k, Rof inp + k, connBi inp k) : Nat × Nat × Nat) := by
    apply head?_filter_unique (connIdxList_mem_elem inp hk)
    · simp only [Bool.or_eq_true, Bool.and_eq_true, decide_eq_true_eq]
      omega
    · intro e hee hpre
      obtain ⟨k', hk', hke⟩ := connIdxList_elem_shape inp hee
      subst hke
      simp only [Bool.or_eq_true, Bool.and_eq_true, decide_eq_true_eq] at hpre
      have hmin : min (connAi inp k') (connBi inp k') = i ∧
          max (connAi inp k') (connBi inp k') = j := by
        omega
      have hkk : k' = k := by
        have hmap := hpairs
        have hget : ∀ (t : Nat) (ht : t < inp.connection.length),
            (inp.connection.map (fun p =>
              (min (roomIdx inp (stdOf inp p.1)) (roomIdx inp (stdOf inp p.2)),
               max (roomIdx inp (stdOf inp p.1)) (roomIdx inp (stdOf inp p.2))))).get
              ⟨t, by simpa⟩ =
            (min (connAi inp t) (connBi inp t), max (connAi inp t) (connBi inp t)) := by
          intro t ht
          rw [List.get_eq_getElem, List.getElem_map, connAi, connBi,
            List.getD_eq_getElem _ _ ht]
        have h1 := hget k' hk'
        have h2 := hget k hk
        have heq : (inp.connection.map (fun p =>
            (min (roomIdx inp (stdOf inp p.1)) (roomIdx inp (stdOf inp p.2)),
             max (roomIdx inp (stdOf inp p.1)) (roomIdx inp (stdOf inp p.2))))).get
            ⟨k', by simpa⟩ =
            (inp.connection.map (fun p =>
            (min (roomIdx inp (stdOf inp p.1)) (roomIdx inp (stdOf inp p.2)),
             max (roomIdx inp (stdOf inp p.1)) (roomIdx inp (stdOf inp p.2))))).get
            ⟨k, by simpa⟩ := by
          rw [h1, h2, hmin.1, hmin.2, hi, hj]
        have := List.Nodup.get_inj_iff hpairs |>.mp heq
        simpa using this
      rw [hkk]
  rw [List.head?_map, hhead]
  rfl

/-- The spec's section-8 scenario input. -/
def exInp : FPInput :=
  ⟨["kitchen1", "bedroom1"], ["kitchen1", "bedroom1"],
   [("kitchen1", "bedroom1")], ["kitchen1"]⟩

/-- The compiled output of `exInp`. -/
def exOut : BD :=
  ⟨["kitchen1", "bedroom1", "interior_door1", "front_door1"], 2, [2, 3, 17, 15],
   [(0, 2, 1)],
   [(0, 1, 1), (0, 1, 2), (0, 1, 3), (1, 1, 2), (1, -1, 3), (2, -1, 3)],
   graphNodesOf [2, 3, 17, 15]⟩

theorem exInp_ok : generate_bubble_diagram exInp = Except.ok exOut := by rfl

/-- Witness for C2 at the concrete scenario input. -/
theorem C2_witness :
    generate_bubble_diagram exInp = Except.ok exOut ∧
    ((exOut.triples.length =
      (exInp.modified_room_list.length + exInp.connection.length +
        exInp.front_door.length) *
      ((exInp.modified_room_list.length + exInp.connection.length +
        exInp.front_door.length) - 1) / 2) ∧
    (∀ x s y, (x, s, y) ∈ exOut.triples →
      x < y ∧
      y < exInp.modified_room_list.length + exInp.connection.length +
        exInp.front_door.length ∧
      (s = -1 ∨ s = 1)) ∧
    (∀ i j, i < j →
      j < exInp.modified_room_list.length + exInp.connection.length +
        exInp.front_door.length →
      ∃ s : Int, (s = -1 ∨ s = 1) ∧ exOut.triples.count (i, s, j) = 1 ∧
        ∀ s' : Int, (i, s', j) ∈ exOut.triples → s' = s)) :=
  ⟨exInp_ok, C2_complete_signed_graph exInp exOut exInp_ok⟩

/-- Arithmetic helper: an unordered pair contained in an ordered pair is
its min/max normalization. -/
theorem minmax_resolve {a b p1 p2 : Nat} (hab : a ≠ b) (h12 : p1 < p2)
    (ha : a = p1 ∨ a = p2) (hb : b = p1 ∨ b = p2) :
    p1 = min a b ∧ p2 = max a b := by omega

/-- Symmetry of `DeclaredPlus` in its node pair. -/
theorem declaredPlus_symm {inp : FPInput} {u v : Nat}
    (h : DeclaredPlus inp u v) : DeclaredPlus inp v u := by
  rcases h with ⟨j, hj, hc⟩ | ⟨j, hj, hc⟩
  · refine Or.inl ⟨j, hj, ?_⟩
    rw [unordEq, unordEq, unordEq] at hc ⊢
    tauto
  · refine Or.inr ⟨j, hj, ?_⟩
    rw [unordEq] at hc ⊢
    tauto

set_option maxHeartbeats 1600000 in
/-- C1: on a well-formed input (`WF1`), every declared connection `k`
between resolved rooms `a = connAi inp k` and `b = connBi inp k` yields
`+1` edges on `(a, b)`, `(a, d)`, `(d, b)` for the dedicated interior-door
node `d = Rof inp + k`; that door is the unique door node `+1`-linked to
both `a` and `b`; and every `+1` edge of the output is declared by some
connection or front-door entry of the input. -/
theorem C1_connection_door (inp : FPInput) (hWF : WF1 inp) (k : Nat)
    (hk : k < inp.connection.length) :
    ∃ out, generate_bubble_diagram inp = Except.ok out ∧
      plusEdge out.triples (connAi inp k) (connBi inp k) ∧
      plusEdge out.triples (connAi inp k) (Rof inp + k) ∧
      plusEdge out.triples (Rof inp + k) (connBi inp k) ∧
      (∃! d, (Rof inp ≤ d ∧ d < Rof inp + inp.connection.length) ∧
        plusEdge out.triples (connAi inp k) d ∧
        plusEdge out.triples d (connBi inp k)) ∧
      (∀ x y, plusEdge out.triples x y → DeclaredPlus inp x y) := by
  obtain ⟨out, hok, _, _, _, _, hchar⟩ := generate_spec inp hWF.1
  set a := connAi inp k with ha_def
  set b := connBi inp k with hb_def
  set R := Rof inp with hR_def
  have hab : a ≠ b := by
    have := hWF.2.2.1 inp.connection[k] (List.getElem_mem hk)
    rw [ha_def, hb_def, connAi, connBi, List.getD_eq_getElem _ _ hk]
    exact this
  have he0 := connIdxList_mem_elem inp hk
  have hb0 := connIdxList_bounds inp hWF.1 _ he0
  have haR : a < R := hb0.1
  have hbR : b < R := hb0.2.1
  have hfd := firstDoor_of_conn inp hWF hk
  have hp0 : ((min a b, max a b) : Nat × Nat) ∈ pairsLt R :=
    (mem_pairsLt _ _).mpr ⟨by omega, by omega⟩
  have hplus : ∀ x y : Nat, x < y →
      (((x, y) : Nat × Nat) = (min a b, max a b) ∨
       ((x, y) : Nat × Nat) = (min a b, R + k) ∨
       ((x, y) : Nat × Nat) = (max a b, R + k)) →
      plusEdge out.triples x y := by
    intro x y hxy hcase
    rw [countChar_plusEdge hchar hxy]
    refine ⟨?_, ?_⟩
    · rcases hcase with h | h | h <;> (rw [Prod.ext_iff] at h; omega)
    · rw [sgnFinal_eq_one_iff]
      left
      exact procPlus_intro hp0 hfd hcase
  have hmm : (min a b = a ∧ max a b = b) ∨ (min a b = b ∧ max a b = a) := by omega
  have edge1 : plusEdge out.triples a b := by
    rcases hmm with ⟨h1, h2⟩ | ⟨h1, h2⟩
    · exact hplus a b (by omega) (Or.inl (by rw [h1, h2]))
    · exact plusEdge_comm.mp (hplus b a (by omega) (Or.inl (by rw [h1, h2])))
  have edge2 : plusEdge out.triples a (R + k) := by
    rcases hmm with ⟨h1, _⟩ | ⟨_, h2⟩
    · exact hplus a (R + k) (by omega) (Or.inr (Or.inl (by rw [h1])))
    · exact hplus a (R + k) (by omega) (Or.inr (Or.inr (by rw [h2])))
  have edge3 : plusEdge out.triples (R + k) b := by
    apply plusEdge_comm.mp
    rcases hmm with ⟨_, h2⟩ | ⟨h1, _⟩
    · exact hplus b (R + k) (by omega) (Or.inr (Or.inr (by rw [h2])))
    · exact hplus b (R + k) (by omega) (Or.inr (Or.inl (by rw [h1])))
  have hdoor_eq : ∀ d', (R ≤ d' ∧ d' < R + inp.connection.length) →
      plusEdge out.triples a d' → plusEdge out.triples d' b → d' = R + k := by
    rintro d' ⟨hd1, hd2⟩ hpa hpb
    have h1 := (countChar_plusEdge hchar (show a < d' by omega)).mp hpa
    have h2 := (countChar_plusEdge hchar (show b < d' by omega)).mp
      (plusEdge_comm.mp hpb)
    rw [sgnFinal_eq_one_iff] at h1 h2
    have hn1 : ¬ (((a, d') : Nat × Nat) ∈ frontPairs inp) := by
      intro hmem
      obtain ⟨i, hi, hie⟩ := frontPairs_elem_shape inp hmem
      rw [Prod.ext_iff] at hie
      omega
    have hn2 : ¬ (((b, d') : Nat × Nat) ∈ frontPairs inp) := by
      intro hmem
      obtain ⟨i, hi, hie⟩ := frontPairs_elem_shape inp hmem
      rw [Prod.ext_iff] at hie
      omega
    obtain ⟨p, hpP, dp, hdp, hcases1⟩ := procPlus_cases (h1.2.resolve_right hn1)
    obtain ⟨q, hqP, dq, hdq, hcases2⟩ := procPlus_cases (h2.2.resolve_right hn2)
    have hp12 := (mem_pairsLt _ _).mp hpP
    have hq12 := (mem_pairsLt _ _).mp hqP
    have hstep1 : (a = p.1 ∨ a = p.2) ∧ d' = dp := by
      rcases hcases1 with ⟨_, h⟩ | ⟨h1', h2'⟩ | ⟨h1', h2'⟩
      · omega
      · exact ⟨Or.inl h1', h2'⟩
      · exact ⟨Or.inr h1', h2'⟩
    have hstep2 : (b = q.1 ∨ b = q.2) ∧ d' = dq := by
      rcases hcases2 with ⟨_, h⟩ | ⟨h1', h2'⟩ | ⟨h1', h2'⟩
      · omega
      · exact ⟨Or.inl h1', h2'⟩
      · exact ⟨Or.inr h1', h2'⟩
    have hdp' : firstDoor (connIdxList inp) p.1 p.2 = some d' := by
      rw [hdp, hstep1.2]
    have hdq' : firstDoor (connIdxList inp) q.1 q.2 = some d' := by
      rw [hdq, hstep2.2]
    obtain ⟨e1, e2⟩ := firstDoor_unique_pair (connIdxList_door_inj inp)
      hp12.1 hq12.1 hdp' hdq'
    have hm2' : b = p.1 ∨ b = p.2 := by
      rcases hstep2.1 with h | h
      · exact Or.inl (h.trans e1.symm)
      · exact Or.inr (h.trans e2.symm)
    have hpmin : p.1 = min a b ∧ p.2 = max a b :=
      minmax_resolve hab hp12.1 hstep1.1 hm2'
    have hfin : firstDoor (connIdxList inp) (min a b) (max a b) = some d' := by
      rw [← hpmin.1, ← hpmin.2]
      exact hdp'
    rw [hfd] at hfin
    exact (Option.some.inj hfin).symm
  have hkey : ∀ u v : Nat, u < v → plusEdge out.triples u v →
      DeclaredPlus inp u v := by
    intro u v huv hpuv
    have h1 := (countChar_plusEdge hchar huv).mp hpuv
    rw [sgnFinal_eq_one_iff] at h1
    rcases h1.2 with hproc | hfr
    · obtain ⟨p, hpP, dp, hdp, hcases⟩ := procPlus_cases hproc
      obtain ⟨e, he, hed, hepred⟩ := firstDoor_mem hdp
      obtain ⟨k', hk', hek⟩ := connIdxList_elem_shape inp he
      rw [hek] at hed hepred
      have hed' : R + k' = dp := hed
      have hepred' : (connAi inp k' = p.1 ∧ connBi inp k' = p.2) ∨
          (connAi inp k' = p.2 ∧ connBi inp k' = p.1) := hepred
      refine Or.inl ⟨k', hk', ?_⟩
      rw [unordEq, unordEq, unordEq]
      rcases hcases with ⟨hx, hy⟩ | ⟨hx, hy⟩ | ⟨hx, hy⟩ <;>
        rcases hepred' with ⟨hA, hB⟩ | ⟨hA, hB⟩
      · exact Or.inl (Or.inl ⟨hx.trans hA.symm, hy.trans hB.symm⟩)
      · exact Or.inl (Or.inr ⟨hx.trans hB.symm, hy.trans hA.symm⟩)
      · exact Or.inr (Or.inl (Or.inl ⟨hx.trans hA.symm, hy.trans hed'.symm⟩))
      · exact Or.inr (Or.inr (Or.inl ⟨hx.trans hB.symm, hy.trans hed'.symm⟩))
      · exact Or.inr (Or.inr (Or.inl ⟨hx.trans hB.symm, hy.trans hed'.symm⟩))
      · exact Or.inr (Or.inl (Or.inl ⟨hx.trans hA.symm, hy.trans hed'.symm⟩))
    · obtain ⟨i, hi, hie⟩ := frontPairs_elem_shape inp hfr
      rw [Prod.ext_iff] at hie
      refine Or.inr ⟨i, hi, ?_⟩
      rw [unordEq]
      exact Or.inl ⟨hie.1, hie.2⟩
  refine ⟨out, hok, edge1, edge2, edge3,
    ⟨R + k, ⟨⟨by omega, by omega⟩, edge2, edge3⟩,
      fun d' hd' => hdoor_eq d' hd'.1 hd'.2.1 hd'.2.2⟩, ?_⟩
  intro x y hpxy
  have hne := countChar_plusEdge_ne hchar hpxy
  rcases Nat.lt_trichotomy x y with hlt | heq | hgt
  · exact hkey x y hlt hpxy
  · exact absurd heq hne.1
  · exact declaredPlus_symm (hkey y x hgt (plusEdge_comm.mp hpxy))

/-- Witness for C1 at the concrete scenario input. -/
theorem C1_witness :
    WF1 exInp ∧ 0 < exInp.connection.length ∧
    (∃ out, generate_bubble_diagram exInp = Except.ok out ∧
      plusEdge out.triples (connAi exInp 0) (connBi exInp 0) ∧
      plusEdge out.triples (connAi exInp 0) (Rof exInp + 0) ∧
      plusEdge out.triples (Rof exInp + 0) (connBi exInp 0) ∧
      (∃! d, (Rof exInp ≤ d ∧ d < Rof exInp + exInp.connection.length) ∧
        plusEdge out.triples (connAi exInp 0) d ∧
        plusEdge out.triples d (connBi exInp 0)) ∧
      (∀ x y, plusEdge out.triples x y → DeclaredPlus exInp x y)) :=
  ⟨by unfold WF1 WFbase; decide, by decide,
    C1_connection_door exInp (by unfold WF1 WFbase; decide) 0 (by decide)⟩

/-! Error propagation: a failed dict lookup aborts the compiler with the
`KeyError` of the offending name (claim C6). -/

theorem exceptBind_err {β γ : Type} (e : String) (g : β → Except String γ) :
    (Except.error e >>= g) = (Except.error e : Except String γ) := rfl

theorem mapM_split {α β : Type} (f : α → Except String β) :
    ∀ l : List α, (∃ l', l.mapM f = Except.ok l') ∨
      (∃ a ∈ l, ∃ e, f a = Except.error e ∧ l.mapM f = Except.error e) := by
  intro l
  induction l with
  | nil => exact Or.inl ⟨[], rfl⟩
  | cons a l ih =>
    cases hfa : f a with
    | error e =>
      refine Or.inr ⟨a, List.mem_cons_self a l, e, hfa, ?_⟩
      rw [List.mapM_cons, hfa, exceptBind_err]
    | ok b =>
      rcases ih with ⟨l', hl'⟩ | ⟨x, hx, e, hex, herr⟩
      · refine Or.inl ⟨b :: l', ?_⟩
        rw [List.mapM_cons, hfa, exceptBind_ok, hl', exceptBind_ok]
        rfl
      · refine Or.inr ⟨x, List.mem_cons_of_mem a hx, e, hex, ?_⟩
        rw [List.mapM_cons, hfa, exceptBind_ok, herr, exceptBind_err]

theorem mapM_ok_forall {α β : Type} {f : α → Except String β} :
    ∀ {l : List α} {l' : List β}, l.mapM f = Except.ok l' →
      ∀ a ∈ l, ∃ b, f a = Except.ok b := by
  intro l
  induction l with
  | nil => intro l' _ a ha; cases ha
  | cons x l ih =>
    intro l' h a ha
    rw [List.mapM_cons] at h
    cases hfx : f x with
    | error e => rw [hfx, exceptBind_err] at h; cases h
    | ok b =>
      rw [hfx, exceptBind_ok] at h
      cases hml : l.mapM f with
      | error e => rw [hml, exceptBind_err] at h; cases h
      | ok bs =>
        rcases List.mem_cons.mp ha with hc | hc
        · exact ⟨b, hc ▸ hfx⟩
        · exact ih hml a hc

theorem transPair_err {d : List (String × String)} {p : String × String} {e : String}
    (h : transPair d p = Except.error e) :
    (e = keyErr p.1 ∧ lastAssoc d p.1 = none) ∨
    (e = keyErr p.2 ∧ lastAssoc d p.2 = none) := by
  rw [transPair] at h
  cases h1 : lastAssoc d p.1 with
  | none =>
    rw [show getKey d p.1 = Except.error (keyErr p.1) from by rw [getKey, h1],
      exceptBind_err] at h
    exact Or.inl ⟨(Except.error.inj h).symm, rfl⟩
  | some v =>
    rw [show getKey d p.1 = Except.ok v from by rw [getKey, h1], exceptBind_ok] at h
    cases h2 : lastAssoc d p.2 with
    | none =>
      rw [show getKey d p.2 = Except.error (keyErr p.2) from by rw [getKey, h2],
        exceptBind_err] at h
      exact Or.inr ⟨(Except.error.inj h).symm, rfl⟩
    | some w =>
      rw [show getKey d p.2 = Except.ok w from by rw [getKey, h2], exceptBind_ok] at h
      have h' : Except.ok (v, w) = (Except.error e : Except String (String × String)) := h
      cases h'

theorem generate_err_conn {inp : FPInput} {e : String}
    (h : inp.connection.mapM
        (transPair (inp.complete_room_list.zip inp.modified_room_list)) =
      Except.error e) :
    generate_bubble_diagram inp = Except.error e := by
  rw [generate_bubble_diagram, h, exceptBind_err]

theorem generate_err_front {inp : FPInput} {c1 : List (String × String)} {e : String}
    (hc : inp.connection.mapM
        (transPair (inp.complete_room_list.zip inp.modified_room_list)) =
      Except.ok c1)
    (h : inp.front_door.mapM
        (getKey (inp.complete_room_list.zip inp.modified_room_list)) =
      Except.error e) :
    generate_bubble_diagram inp = Except.error e := by
  rw [generate_bubble_diagram, hc, exceptBind_ok, h, exceptBind_err]

set_option maxHeartbeats 800000 in
/-- C6: when a connection or front-door entry names a room absent from
`complete_room_list` (lists in positional correspondence), compilation
aborts with the `KeyError` naming an offending referenced room, and no
graph is returned. -/
theorem C6_dangling_reference (inp : FPInput)
    (hlen : inp.complete_room_list.length = inp.modified_room_list.length)
    (hbad : (∃ p ∈ inp.connection,
        p.1 ∉ inp.complete_room_list ∨ p.2 ∉ inp.complete_room_list) ∨
      (∃ r ∈ inp.front_door, r ∉ inp.complete_room_list)) :
    ∃ nm, nm ∉ inp.complete_room_list ∧
      ((∃ p ∈ inp.connection, nm = p.1 ∨ nm = p.2) ∨ nm ∈ inp.front_door) ∧
      generate_bubble_diagram inp = Except.error (keyErr nm) := by
  have hkeys : ∀ k v : String,
      lastAssoc (inp.complete_room_list.zip inp.modified_room_list) k = some v →
      k ∈ inp.complete_room_list := by
    intro k v hkv
    obtain ⟨i, hi, hk, _, _⟩ := lastAssoc_zip_getElem hkv
    rw [← hk]
    exact List.getElem_mem hi
  rcases mapM_split (transPair (inp.complete_room_list.zip inp.modified_room_list))
      inp.connection with ⟨c1, hc1⟩ | ⟨p, hp, e, hpe, herr⟩
  · rcases mapM_split (getKey (inp.complete_room_list.zip inp.modified_room_list))
        inp.front_door with ⟨f1, hf1⟩ | ⟨r, hr, e, hre, herr2⟩
    · exfalso
      have hconn_ok : ∀ p ∈ inp.connection,
          p.1 ∈ inp.complete_room_list ∧ p.2 ∈ inp.complete_room_list := by
        intro p hp
        obtain ⟨b, hb⟩ := mapM_ok_forall hc1 p hp
        rw [transPair] at hb
        cases h1 : lastAssoc (inp.complete_room_list.zip inp.modified_room_list)
            p.1 with
        | none =>
          rw [show getKey (inp.complete_room_list.zip inp.modified_room_list) p.1 =
              Except.error (keyErr p.1) from by rw [getKey, h1], exceptBind_err] at hb
          cases hb
        | some v =>
          refine ⟨hkeys _ _ h1, ?_⟩
          rw [show getKey (inp.complete_room_list.zip inp.modified_room_list) p.1 =
              Except.ok v from by rw [getKey, h1], exceptBind_ok] at hb
          cases h2 : lastAssoc (inp.complete_room_list.zip inp.modified_room_list)
              p.2 with
          | none =>
            rw [show getKey (inp.complete_room_list.zip inp.modified_room_list) p.2 =
                Except.error (keyErr p.2) from by rw [getKey, h2],
              exceptBind_err] at hb
            cases hb
          | some w => exact hkeys _ _ h2
      have hfront_ok : ∀ r ∈ inp.front_door, r ∈ inp.complete_room_list := by
        intro r hr
        obtain ⟨b, hb⟩ := mapM_ok_forall hf1 r hr
        rw [getKey] at hb
        cases h1 : lastAssoc (inp.complete_room_list.zip inp.modified_room_list)
            r with
        | none => rw [h1] at hb; cases hb
        | some v => exact hkeys _ _ h1
      rcases hbad with ⟨p, hp, hbadp⟩ | ⟨r, hr, hbadr⟩
      · rcases hbadp with h | h
        · exact h (hconn_ok p hp).1
        · exact h (hconn_ok p hp).2
      · exact hbadr (hfront_ok r hr)
    · rw [getKey] at hre
      cases h1 : lastAssoc (inp.complete_room_list.zip inp.modified_room_list)
          r with
      | some v => rw [h1] at hre; cases hre
      | none =>
        rw [h1] at hre
        have he : e = keyErr r := (Except.error.inj hre).symm
        refine ⟨r, ?_, Or.inr hr, ?_⟩
        · intro hmem
          obtain ⟨v, hv, _⟩ := lastAssoc_zip_some hlen hmem
          rw [hv] at h1
          cases h1
        · rw [he] at herr2
          exact generate_err_front hc1 herr2
  · rcases transPair_err hpe with ⟨he, hnone⟩ | ⟨he, hnone⟩
    · refine ⟨p.1, ?_, Or.inl ⟨p, hp, Or.inl rfl⟩, ?_⟩
      · intro hmem
        obtain ⟨v, hv, _⟩ := lastAssoc_zip_some hlen hmem
        rw [hv] at hnone
        cases hnone
      · rw [he] at herr
        exact generate_err_conn herr
    · refine ⟨p.2, ?_, Or.inl ⟨p, hp, Or.inr rfl⟩, ?_⟩
      · intro hmem
        obtain ⟨v, hv, _⟩ := lastAssoc_zip_some hlen hmem
        rw [hv] at hnone
        cases hnone
      · rw [he] at herr
        exact generate_err_conn herr

/-- Input with a connection naming a room absent from the complete list. -/
def cx6 : FPInput :=
  ⟨["kitchen1"], ["kitchen1"], [("kitchen1", "bedroom5")], []⟩

/-- Witness for C6 at a concrete dangling-reference input. -/
theorem C6_witness :
    cx6.complete_room_list.length = cx6.modified_room_list.length ∧
    ((∃ p ∈ cx6.connection,
        p.1 ∉ cx6.complete_room_list ∨ p.2 ∉ cx6.complete_room_list) ∨
      (∃ r ∈ cx6.front_door, r ∉ cx6.complete_room_list)) ∧
    (∃ nm, nm ∉ cx6.complete_room_list ∧
      ((∃ p ∈ cx6.connection, nm = p.1 ∨ nm = p.2) ∨ nm ∈ cx6.front_door) ∧
      generate_bubble_diagram cx6 = Except.error (keyErr nm)) :=
  ⟨by decide, by decide, C6_dangling_reference cx6 (by decide) (by decide)⟩

/-! Duplicate standardized room names: `room_dict` keeps only the last
occurrence (claim C10). -/

/-- The two possible values of the final sign function. -/
theorem sgnFinal_vals (inp : FPInput) (x y : Nat) :
    sgnFinal inp x y = 1 ∨ sgnFinal inp x y = -1 := by
  rw [sgnFinal, sgnWithFront]
  by_cases hb : (procPlus (connIdxList inp) (pairsLt (Rof inp)) x y ||
      decide ((x, y) ∈ frontPairs inp)) = true
  · left
    rw [if_pos hb]
  · right
    rw [if_neg hb]

/-- A position that is not the last occurrence of its name is hit by no
`roomIdx` resolution of a referenced room. -/
theorem roomIdx_ne_dup (inp : FPInput) (h : WFbase inp) {p q : Nat} {nm : String}
    (hp : inp.modified_room_list[p]? = some nm)
    (hq : inp.modified_room_list[q]? = some nm) (hpq : p < q) :
    ∀ s ∈ inp.complete_room_list, roomIdx inp (stdOf inp s) ≠ p := by
  intro s hs hc
  have hmem := (stdOf_spec inp h.1 hs).2
  obtain ⟨j, hj, hjl⟩ := lastIndexOf_mem hmem
  rw [roomIdx, hj, Option.getD_some] at hc
  subst hc
  have hch := lastIndexOf_eq_some_iff.mp hj
  have hsnm : stdOf inp s = nm := Option.some.inj (hch.1.symm.trans hp)
  exact hch.2 q hpq (by rw [hq, hsnm])

set_option maxHeartbeats 800000 in
/-- C10: when `modified_room_list` repeats a standardized name, `room_dict`
binds it to its last occurrence `q`: `roomIdx` resolves the name (and every
referencing entry) to `q`, and the earlier duplicate's node `p` keeps only
`-1` edges in the compiled graph. -/
theorem C10_duplicate_names (inp : FPInput) (hWF : WFbase inp)
    (p q : Nat) (nm : String)
    (hp : inp.modified_room_list[p]? = some nm)
    (hq : inp.modified_room_list[q]? = some nm)
    (hpq : p < q)
    (hlast : ∀ r, r < inp.modified_room_list.length → q < r →
      inp.modified_room_list[r]? ≠ some nm) :
    roomIdx inp nm = q ∧
    (∀ s, stdOf inp s = nm → roomIdx inp (stdOf inp s) = q) ∧
    ∃ out, generate_bubble_diagram inp = Except.ok out ∧
      ∀ t ∈ out.triples, (t.1 = p ∨ t.2.2 = p) → t.2.1 = -1 := by
  have hlast' : ∀ r, q < r → inp.modified_room_list[r]? ≠ some nm := by
    intro r hr
    by_cases hrl : r < inp.modified_room_list.length
    · exact hlast r hrl hr
    · rw [List.getElem?_eq_none (by omega)]
      intro hcon
      cases hcon
  have hri : roomIdx inp nm = q := by
    rw [roomIdx, lastIndexOf_eq_some_iff.mpr ⟨hq, hlast'⟩, Option.getD_some]
  have hpR : p < Rof inp := by
    have hqR : q < inp.modified_room_list.length := by
      by_contra hcon
      rw [List.getElem?_eq_none (by omega)] at hq
      cases hq
    rw [Rof]
    omega
  have hne := roomIdx_ne_dup inp hWF hp hq hpq
  obtain ⟨out, hok, _, _, _, _, hchar⟩ := generate_spec inp hWF
  have hnotp : ∀ x y : Nat, sgnFinal inp x y = 1 → x ≠ p ∧ y ≠ p := by
    intro x y hsgn
    rw [sgnFinal_eq_one_iff] at hsgn
    rcases hsgn with hproc | hfr
    · obtain ⟨pr, hprP, dp, hdp, hcases⟩ := procPlus_cases hproc
      obtain ⟨e, he, hed, hepred⟩ := firstDoor_mem hdp
      rw [connIdxList, List.mem_map] at he
      obtain ⟨pe, hpe, hpee⟩ := he
      have hc := List.mem_enum hpe
      have hpmem : pe.2 ∈ inp.connection := by
        rw [hc.2]
        exact List.getElem_mem hc.1
      have h1 : e.1 = roomIdx inp (stdOf inp pe.2.1) := by rw [← hpee]
      have h2 : e.2.2 = roomIdx inp (stdOf inp pe.2.2) := by rw [← hpee]
      have h3 : Rof inp ≤ e.2.1 := by
        rw [← hpee]
        simp
      have hne1 : e.1 ≠ p := h1 ▸ hne _ (hWF.2.1 pe.2 hpmem).1
      have hne2 : e.2.2 ≠ p := h2 ▸ hne _ (hWF.2.1 pe.2 hpmem).2
      have hdpp : dp ≠ p := by
        rw [← hed]
        omega
      rcases hepred with ⟨ha, hb⟩ | ⟨ha, hb⟩ <;>
        rcases hcases with ⟨hx, hy⟩ | ⟨hx, hy⟩ | ⟨hx, hy⟩ <;>
        exact ⟨by omega, by omega⟩
    · obtain ⟨i, hi, hie⟩ := frontPairs_elem_shape inp hfr
      rw [Prod.ext_iff] at hie
      have hfri : frontRi inp i ≠ p := by
        rw [frontRi, List.getD_eq_getElem _ _ hi]
        exact hne _ (hWF.2.2.1 _ (List.getElem_mem hi))
      exact ⟨by omega, by omega⟩
  refine ⟨hri, fun s hs => by rw [hs, hri], out, hok, ?_⟩
  rintro ⟨x, s, y⟩ hmem hxy
  have hc := countChar_mem_cond hchar hmem
  show s = -1
  rcases sgnFinal_vals inp x y with h1 | h1
  · exfalso
    have hxp := hnotp x y h1
    rcases hxy with hx | hx
    · exact hxp.1 hx
    · exact hxp.2 hx
  · rw [hc.2.2, h1]

/-- Input whose modified room list repeats a standardized name. -/
def cx10 : FPInput :=
  ⟨["kitchen1", "kitchen1"], ["kitchen1", "kitchen1"], [], ["kitchen1"]⟩

/-- Witness for C10 at a concrete duplicated-name input. -/
theorem C10_witness :
    WFbase cx10 ∧
    cx10.modified_room_list[0]? = some "kitchen1" ∧
    cx10.modified_room_list[1]? = some "kitchen1" ∧ (0 : Nat) < 1 ∧
    (∀ r, r < cx10.modified_room_list.length → 1 < r →
      cx10.modified_room_list[r]? ≠ some "kitchen1") ∧
    (roomIdx cx10 "kitchen1" = 1 ∧
    (∀ s, stdOf cx10 s = "kitchen1" → roomIdx cx10 (stdOf cx10 s) = 1) ∧
    ∃ out, generate_bubble_diagram cx10 = Except.ok out ∧
      ∀ t ∈ out.triples, (t.1 = 0 ∨ t.2.2 = 0) → t.2.1 = -1) :=
  ⟨by unfold WFbase; decide, by decide, by decide, by decide, by decide,
    C10_duplicate_names cx10 (by unfold WFbase; decide) 0 1 "kitchen1"
      (by decide) (by decide) (by decide) (by decide)⟩

/-! Front-door nodes (claim C3). -/

/-- The resolved room of a front-door entry is a real-room node. -/
theorem frontRi_lt (inp : FPInput) (hWF : WFbase inp) {j : Nat}
    (hj : j < inp.front_door.length) : frontRi inp j < Rof inp := by
  rw [frontRi, List.getD_eq_getElem _ _ hj]
  exact (roomIdx_spec inp hWF (hWF.2.2.1 _ (List.getElem_mem hj)) 0 0).2

/-- Input listing the same room twice in `front_door`. -/
def cx3 : FPInput :=
  ⟨["kitchen1"], ["kitchen1"], [], ["kitchen1", "kitchen1"]⟩

/-- The compiled output of `cx3`. -/
def cx3out : BD :=
  ⟨["kitchen1", "front_door1", "front_door2"], 1, [2, 15, 15], [],
   [(0, 1, 1), (0, 1, 2), (1, -1, 2)], graphNodesOf [2, 15, 15]⟩

/-- Counterexample to C3: with the same room listed twice in `front_door`,
TWO distinct front-door nodes (1 and 2, both beyond the real-room range)
carry a `+1` edge to that room's node 0, so no front-door entry has
exactly one `+1`-linked front-door node. -/
theorem C3_counterexample :
    generate_bubble_diagram cx3 = Except.ok cx3out ∧
    cx3out.real_nodes_len = 1 ∧
    Rof cx3 + cx3.connection.length ≤ 1 ∧ Rof cx3 + cx3.connection.length ≤ 2 ∧
    plusEdge cx3out.triples 0 1 ∧ plusEdge cx3out.triples 0 2 ∧ (1 : Nat) ≠ 2 :=
  ⟨by rfl, rfl, by decide, by decide, Or.inl (by decide), Or.inl (by decide),
    by decide⟩

set_option maxHeartbeats 800000 in
/-- C3 (amended): for the `i`-th front-door entry the dedicated node
`f = R + m1 + i` carries a `+1` edge to the entry's resolved room and `-1`
edges to every other node; and when the resolved front-door rooms are
pairwise distinct, `f` is the only front-door node `+1`-linked to that
room. -/
theorem C3_front_door_amended (inp : FPInput) (hWF : WFbase inp) (i : Nat)
    (hi : i < inp.front_door.length) :
    ∃ out, generate_bubble_diagram inp = Except.ok out ∧
      frontRi inp i < Rof inp ∧
      plusEdge out.triples (frontRi inp i)
        (Rof inp + inp.connection.length + i) ∧
      (∀ y, y < Rof inp + inp.connection.length + inp.front_door.length →
        y ≠ frontRi inp i →
        ¬ plusEdge out.triples (Rof inp + inp.connection.length + i) y) ∧
      ((inp.front_door.map (fun s => roomIdx inp (stdOf inp s))).Nodup →
        ∀ j, j < inp.front_door.length →
          plusEdge out.triples (frontRi inp j)
            (Rof inp + inp.connection.length + i) → j = i) := by
  obtain ⟨out, hok, _, _, _, _, hchar⟩ := generate_spec inp hWF
  set R := Rof inp with hR_def
  set m1 := inp.connection.length with hm1_def
  set f := R + m1 + i with hf_def
  have hfR : frontRi inp i < R := frontRi_lt inp hWF hi
  have hdoor_bound : ∀ {u v : Nat},
      procPlus (connIdxList inp) (pairsLt R) u v = true →
      (u < R ∧ (v < R ∨ ∃ e ∈ connIdxList inp, e.2.1 = v)) := by
    intro u v hproc
    obtain ⟨pr, hprP, dp, hdp, hcases⟩ := procPlus_cases hproc
    have hpr12 := (mem_pairsLt _ _).mp hprP
    obtain ⟨e, he, hed, _⟩ := firstDoor_mem hdp
    rcases hcases with ⟨hx, hy⟩ | ⟨hx, hy⟩ | ⟨hx, hy⟩
    · exact ⟨by omega, Or.inl (by omega)⟩
    · exact ⟨by omega, Or.inr ⟨e, he, by omega⟩⟩
    · exact ⟨by omega, Or.inr ⟨e, he, by omega⟩⟩
  have hplusfront : plusEdge out.triples (frontRi inp i) f := by
    rw [countChar_plusEdge hchar (show frontRi inp i < f by omega)]
    refine ⟨by omega, ?_⟩
    rw [sgnFinal_eq_one_iff]
    right
    exact frontPairs_mem_elem inp hi
  refine ⟨out, hok, hfR, hplusfront, ?_, ?_⟩
  · intro y hy hyne hplus
    have hne := countChar_plusEdge_ne hchar hplus
    rcases Nat.lt_trichotomy y f with hlt | heq | hgt
    · have h1 := (countChar_plusEdge hchar hlt).mp (plusEdge_comm.mp hplus)
      rw [sgnFinal_eq_one_iff] at h1
      rcases h1.2 with hproc | hfr
      · obtain ⟨hu, hv⟩ := hdoor_bound hproc
        rcases hv with hv | ⟨e, he, hev⟩
        · omega
        · have := (connIdxList_bounds inp hWF e he).2.2.2
          omega
      · obtain ⟨j, hj, hje⟩ := frontPairs_elem_shape inp hfr
        rw [Prod.ext_iff] at hje
        have hji : j = i := by omega
        rw [hji] at hje
        exact hyne hje.1
    · exact hne.1 heq.symm
    · have h1 := (countChar_plusEdge hchar hgt).mp hplus
      rw [sgnFinal_eq_one_iff] at h1
      rcases h1.2 with hproc | hfr
      · have := (hdoor_bound hproc).1
        omega
      · obtain ⟨j, hj, hje⟩ := frontPairs_elem_shape inp hfr
        rw [Prod.ext_iff] at hje
        have := frontRi_lt inp hWF hj
        omega
  · intro hnd j hj hplus
    have hfRj : frontRi inp j < R := frontRi_lt inp hWF hj
    have h1 := (countChar_plusEdge hchar (show frontRi inp j < f by omega)).mp hplus
    rw [sgnFinal_eq_one_iff] at h1
    rcases h1.2 with hproc | hfr
    · obtain ⟨hu, hv⟩ := hdoor_bound hproc
      rcases hv with hv | ⟨e, he, hev⟩
      · omega
      · have := (connIdxList_bounds inp hWF e he).2.2.2
        omega
    · obtain ⟨j', hj', hje⟩ := frontPairs_elem_shape inp hfr
      rw [Prod.ext_iff] at hje
      have hji : j' = i := by omega
      rw [hji] at hje
      have hje1 : frontRi inp j = frontRi inp i := hje.1
      have hmap : (inp.front_door.map (fun s => roomIdx inp (stdOf inp s))).get
          ⟨j, by simpa⟩ =
          (inp.front_door.map (fun s => roomIdx inp (stdOf inp s))).get
          ⟨i, by simpa⟩ := by
        rw [List.get_eq_getElem, List.get_eq_getElem, List.getElem_map,
          List.getElem_map]
        have hgj : frontRi inp j = roomIdx inp (stdOf inp inp.front_door[j]) := by
          rw [frontRi, List.getD_eq_getElem _ _ hj]
        have hgi : frontRi inp i = roomIdx inp (stdOf inp inp.front_door[i]) := by
          rw [frontRi, List.getD_eq_getElem _ _ hi]
        rw [← hgj, ← hgi, hje1]
      have := List.Nodup.get_inj_iff hnd |>.mp hmap
      simpa using this

/-- Witness for C3's amended theorem at the concrete scenario input. -/
theorem C3_witness :
    WFbase exInp ∧ 0 < exInp.front_door.length ∧
    (∃ out, generate_bubble_diagram exInp = Except.ok out ∧
      frontRi exInp 0 < Rof exInp ∧
      plusEdge out.triples (frontRi exInp 0)
        (Rof exInp + exInp.connection.length + 0) ∧
      (∀ y, y < Rof exInp + exInp.connection.length + exInp.front_door.length →
        y ≠ frontRi exInp 0 →
        ¬ plusEdge out.triples (Rof exInp + exInp.connection.length + 0) y) ∧
      ((exInp.front_door.map (fun s => roomIdx exInp (stdOf exInp s))).Nodup →
        ∀ j, j < exInp.front_door.length →
          plusEdge out.triples (frontRi exInp j)
            (Rof exInp + exInp.connection.length + 0) → j = 0)) :=
  ⟨by unfold WFbase; decide, by decide,
    C3_front_door_amended exInp (by unfold WFbase; decide) 0 (by decide)⟩

/-! Door type codes (claim C8). -/

/-- Input with ten connections, so that the tenth interior door is named
`interior_door10`. -/
def cx8 : FPInput :=
  ⟨["kitchen1", "bedroom1"], ["kitchen1", "bedroom1"],
   [("kitchen1", "bedroom1"), ("kitchen1", "bedroom1"), ("kitchen1", "bedroom1"),
    ("kitchen1", "bedroom1"), ("kitchen1", "bedroom1"), ("kitchen1", "bedroom1"),
    ("kitchen1", "bedroom1"), ("kitchen1", "bedroom1"), ("kitchen1", "bedroom1"),
    ("kitchen1", "bedroom1")], []⟩

/-- Counterexample to C8: the tenth synthesized interior door,
`interior_door10`, is typed by `room[:-1] = "interior_door1"` which is not
in the registry, so it receives the `unknown` code 16 instead of the
dedicated `interior_door` code 17. -/
theorem C8_counterexample :
    ∃ out, generate_bubble_diagram cx8 = Except.ok out ∧
      out.room_list[11]? = some "interior_door10" ∧
      out.room_list_indices[11]? = some 16 := by
  refine ⟨_, rfl, by decide, by decide⟩

theorem typeIdx_interior {k : Nat} (hk : k < 9) :
    typeIdx (interiorName (k + 1)) = 17 := by
  interval_cases k <;> rfl

theorem typeIdx_front {k : Nat} (hk : k < 9) :
    typeIdx (frontName (k + 1)) = 15 := by
  interval_cases k <;> rfl

theorem typeIdx_unmatched {nm : String}
    (h : ∀ tc ∈ type_list, tc.1 ≠ pyDropLast nm) : typeIdx nm = 16 := by
  rw [typeIdx, List.find?_eq_none.mpr]
  intro tc htc
  simpa using h tc htc

/-- C8 (amended): with at most nine connections and nine front doors,
every interior-door node is coded 17 and every front-door node 15;
and any real-room name whose `room[:-1]` stem is not in the registry is
coded `unknown` 16. -/
theorem C8_door_type_codes_amended (inp : FPInput) (hWF : WFbase inp)
    (hm1 : inp.connection.length ≤ 9) (hm2 : inp.front_door.length ≤ 9) :
    ∃ out, generate_bubble_diagram inp = Except.ok out ∧
      (∀ k, k < inp.connection.length →
        out.room_list_indices[Rof inp + k]? = some 17) ∧
      (∀ i, i < inp.front_door.length →
        out.room_list_indices[Rof inp + inp.connection.length + i]? = some 15) ∧
      (∀ (j : Nat) (nm : String), inp.modified_room_list[j]? = some nm →
        (∀ tc ∈ type_list, tc.1 ≠ pyDropLast nm) →
        out.room_list_indices[j]? = some 16) := by
  obtain ⟨out, hok, _, _, hri, _, _⟩ := generate_spec inp hWF
  have hlen1 : (interior_door_list inp.connection.length).length =
      inp.connection.length := length_interior_door_list _
  refine ⟨out, hok, ?_, ?_, ?_⟩
  · intro k hk
    rw [hri, List.getElem?_map, rlExt, List.getElem?_append_left
      (by rw [List.length_append, hlen1]; show Rof inp + k < Rof inp + _; omega),
      List.getElem?_append_right (by rw [Rof]; omega)]
    rw [show Rof inp + k - inp.modified_room_list.length = k from by rw [Rof]; omega]
    rw [interior_door_list, List.getElem?_map,
      List.getElem?_eq_getElem (by rwa [List.length_range]), List.getElem_range]
    show some (typeIdx (interiorName (k + 1))) = some 17
    rw [typeIdx_interior (by omega)]
  · intro i hi
    rw [hri, List.getElem?_map, rlExt, List.getElem?_append_right
      (by rw [List.length_append, hlen1, Rof]; omega)]
    rw [show Rof inp + inp.connection.length + i -
        (inp.modified_room_list ++ interior_door_list inp.connection.length).length =
        i from by rw [List.length_append, hlen1, Rof]; omega]
    rw [front_door_list, List.getElem?_map,
      List.getElem?_eq_getElem (by rwa [List.length_range]), List.getElem_range]
    show some (typeIdx (frontName (i + 1))) = some 15
    rw [typeIdx_front (by omega)]
  · intro j nm hj hnm
    have hjR : j < inp.modified_room_list.length := by
      by_contra hcon
      rw [List.getElem?_eq_none (by omega)] at hj
      cases hj
    rw [hri, List.getElem?_map, rlExt, List.getElem?_append_left
      (by rw [List.length_append, hlen1]; omega),
      List.getElem?_append_left (by omega), hj]
    show some (typeIdx nm) = some 16
    rw [typeIdx_unmatched hnm]

/-- Witness for C8's amended theorem at the concrete scenario input. -/
theorem C8_witness :
    WFbase exInp ∧ exInp.connection.length ≤ 9 ∧ exInp.front_door.length ≤ 9 ∧
    (∃ out, generate_bubble_diagram exInp = Except.ok out ∧
      (∀ k, k < exInp.connection.length →
        out.room_list_indices[Rof exInp + k]? = some 17) ∧
      (∀ i, i < exInp.front_door.length →
        out.room_list_indices[Rof exInp + exInp.connection.length + i]? = some 15) ∧
      (∀ (j : Nat) (nm : String), exInp.modified_room_list[j]? = some nm →
        (∀ tc ∈ type_list, tc.1 ≠ pyDropLast nm) →
        out.room_list_indices[j]? = some 16)) :=
  ⟨by unfold WFbase; decide, by decide, by decide,
    C8_door_type_codes_amended exInp (by unfold WFbase; decide)
      (by decide) (by decide)⟩

/-! Connection multiplicity (claim C9). -/

/-- For real-room pairs, the final sign is `+1` exactly when some
index-level connection triple joins the pair. -/
theorem sgnFinal_real_iff (inp : FPInput) (hWF : WFbase inp) {i j : Nat}
    (hij : i < j) (hjR : j < Rof inp) :
    sgnFinal inp i j = 1 ↔
      ∃ e ∈ connIdxList inp, (e.1 = i ∧ e.2.2 = j) ∨ (e.1 = j ∧ e.2.2 = i) := by
  rw [sgnFinal_eq_one_iff]
  constructor
  · rintro (hproc | hfr)
    · obtain ⟨pr, hprP, dp, hdp, hcases⟩ := procPlus_cases hproc
      have hpr := (mem_pairsLt _ _).mp hprP
      obtain ⟨e, he, hed, hpred⟩ := firstDoor_mem hdp
      have hbnd := connIdxList_bounds inp hWF e he
      rcases hcases with ⟨hx, hy⟩ | ⟨hx, hy⟩ | ⟨hx, hy⟩
      · refine ⟨e, he, ?_⟩
        rcases hpred with ⟨h1, h2⟩ | ⟨h1, h2⟩
        · exact Or.inl ⟨by omega, by omega⟩
        · exact Or.inr ⟨by omega, by omega⟩
      · exfalso
        omega
      · exfalso
        omega
    · exfalso
      obtain ⟨i', hi', hie⟩ := frontPairs_elem_shape inp hfr
      rw [Prod.ext_iff] at hie
      omega
  · rintro ⟨e, he, hpred⟩
    left
    have hF3 : ∀ e' ∈ connIdxList inp,
        e'.1 < Rof inp ∧ e'.2.2 < Rof inp ∧ Rof inp ≤ e'.2.1 := fun e' he' =>
      ⟨(connIdxList_bounds inp hWF e' he').1,
       (connIdxList_bounds inp hWF e' he').2.1,
       (connIdxList_bounds inp hWF e' he').2.2.1⟩
    have hany : (connIdxList inp).any (fun e' => memT i e' && memT j e') = true := by
      rw [List.any_eq_true]
      refine ⟨e, he, ?_⟩
      simp only [memT, Bool.and_eq_true, Bool.or_eq_true, decide_eq_true_eq]
      rcases hpred with ⟨h1, h2⟩ | ⟨h1, h2⟩ <;> exact ⟨by omega, by omega⟩
    obtain ⟨d, hd⟩ := (adjAny_iff_firstDoor hF3 hij hjR).mp hany
    exact procPlus_intro ((mem_pairsLt _ _).mpr ⟨hij, hjR⟩) hd (Or.inl rfl)

theorem connIdxList_snoc (inp : FPInput) (c : String × String) :
    connIdxList { inp with connection := inp.connection ++ [c] } =
      connIdxList inp ++
        [(roomIdx inp (stdOf inp c.1), Rof inp + inp.connection.length,
          roomIdx inp (stdOf inp c.2))] := by
  show ((inp.connection ++ [c]).enum.map (fun p =>
      (roomIdx inp (stdOf inp p.2.1), Rof inp + p.1,
        roomIdx inp (stdOf inp p.2.2)))) = _
  rw [List.enum_append, List.map_append]
  rfl

theorem frontPairs_snoc (inp : FPInput) (c : String × String) :
    frontPairs { inp with connection := inp.connection ++ [c] } =
      inp.front_door.enum.map (fun q =>
        (roomIdx inp (stdOf inp q.2),
          Rof inp + inp.connection.length + 1 + q.1)) := by
  show inp.front_door.enum.map (fun q =>
      (roomIdx inp (stdOf inp q.2),
        Rof inp + (inp.connection ++ [c]).length + q.1)) = _
  apply List.map_congr_left
  intro q hq
  rw [Prod.mk.injEq]
  refine ⟨rfl, ?_⟩
  rw [List.length_append, List.length_singleton]
  omega

theorem connIdxList_getElem? (inp : FPInput) {k : Nat}
    (hk : k < inp.connection.length) :
    (connIdxList inp)[k]? = some (connAi inp k, Rof inp + k, connBi inp k) := by
  rw [connIdxList, List.getElem?_map,
    List.getElem?_eq_getElem (by rwa [List.enum_length]), List.getElem_enum]
  show some _ = _
  rw [connAi, connBi, List.getD_eq_getElem _ _ hk]

/-- `WFbase` is preserved by appending a connection over known rooms. -/
theorem WFbase_snoc (inp : FPInput) (hWF : WFbase inp) {c : String × String}
    (hc1 : c.1 ∈ inp.complete_room_list) (hc2 : c.2 ∈ inp.complete_room_list) :
    WFbase { inp with connection := inp.connection ++ [c] } := by
  refine ⟨hWF.1, ?_, hWF.2.2.1, hWF.2.2.2⟩
  intro p hp
  rcases List.mem_append.mp hp with hm | hm
  · exact hWF.2.1 p hm
  · rw [List.mem_singleton] at hm
    rw [hm]
    exact ⟨hc1, hc2⟩

/-- Input declaring the same connection twice. -/
def cx9a : FPInput :=
  ⟨["kitchen1", "bedroom1"], ["kitchen1", "bedroom1"],
   [("kitchen1", "bedroom1"), ("kitchen1", "bedroom1")], []⟩

/-- `cx9a` with the duplicate connection removed. -/
def cx9b : FPInput :=
  ⟨["kitchen1", "bedroom1"], ["kitchen1", "bedroom1"],
   [("kitchen1", "bedroom1")], []⟩

/-- Counterexample to C9: repeating a declared connection changes the
graph: a second interior-door node is synthesized, so the node sets (and
hence the compiled graphs) differ. -/
theorem C9_counterexample :
    ∃ outA outB, generate_bubble_diagram cx9a = Except.ok outA ∧
      generate_bubble_diagram cx9b = Except.ok outB ∧
      outA.room_list.length = 4 ∧ outB.room_list.length = 3 ∧
      outA.room_list ≠ outB.room_list := by
  refine ⟨_, _, rfl, rfl, by decide, by decide, by decide⟩

set_option maxHeartbeats 1600000 in
/-- C9 (amended): appending a connection `c` that resolves to an
already-declared unordered room pair leaves the `+1` structure between
real rooms unchanged, but synthesizes one extra interior-door node that
ends with no `+1` edge at all (the node sets differ). -/
theorem C9_duplicate_connection_amended (inp : FPInput) (hWF : WFbase inp)
    (c : String × String) (hc1 : c.1 ∈ inp.complete_room_list)
    (hc2 : c.2 ∈ inp.complete_room_list) (k0 : Nat)
    (hk0 : k0 < inp.connection.length)
    (hdupmin : min (roomIdx inp (stdOf inp c.1)) (roomIdx inp (stdOf inp c.2)) =
      min (connAi inp k0) (connBi inp k0))
    (hdupmax : max (roomIdx inp (stdOf inp c.1)) (roomIdx inp (stdOf inp c.2)) =
      max (connAi inp k0) (connBi inp k0)) :
    ∃ out out', generate_bubble_diagram inp = Except.ok out ∧
      generate_bubble_diagram { inp with connection := inp.connection ++ [c] } =
        Except.ok out' ∧
      out'.room_list.length = out.room_list.length + 1 ∧
      (∀ i j, i < Rof inp → j < Rof inp →
        (plusEdge out'.triples i j ↔ plusEdge out.triples i j)) ∧
      (∀ y, ¬ plusEdge out'.triples (Rof inp + inp.connection.length) y) := by
  have hWF' := WFbase_snoc inp hWF hc1 hc2
  obtain ⟨out, hok, hrl, _, _, _, hchar⟩ := generate_spec inp hWF
  obtain ⟨out', hok', hrl', _, _, _, hchar'⟩ := generate_spec _ hWF'
  have hmodeq : ({ inp with connection := inp.connection ++ [c] } :
      FPInput).modified_room_list = inp.modified_room_list := rfl
  have hm' : ({ inp with connection := inp.connection ++ [c] } :
      FPInput).connection.length = inp.connection.length + 1 := by
    show (inp.connection ++ [c]).length = _
    rw [List.length_append, List.length_singleton]
  have hf' : ({ inp with connection := inp.connection ++ [c] } :
      FPInput).front_door.length = inp.front_door.length := rfl
  have hclen : (connIdxList inp).length = inp.connection.length := by
    rw [connIdxList, List.length_map, List.enum_length]
  have hfd_lt : ∀ (pr : Nat × Nat) (dp : Nat), pr.1 < pr.2 → pr.2 < Rof inp →
      firstDoor (connIdxList { inp with connection := inp.connection ++ [c] })
        pr.1 pr.2 = some dp → dp < Rof inp + inp.connection.length := by
    intro pr dp hpr12 hpr2 hfd
    obtain ⟨e, he, hed, hpred⟩ := firstDoor_mem hfd
    rw [connIdxList_snoc] at he
    rcases List.mem_append.mp he with hm | hm
    · have := (connIdxList_bounds inp hWF e hm).2.2.2
      omega
    · rw [List.mem_singleton] at hm
      rw [hm] at hpred
      have hpred' : (roomIdx inp (stdOf inp c.1) = pr.1 ∧
          roomIdx inp (stdOf inp c.2) = pr.2) ∨
          (roomIdx inp (stdOf inp c.1) = pr.2 ∧
          roomIdx inp (stdOf inp c.2) = pr.1) := hpred
      have hk0len : k0 < (connIdxList
          { inp with connection := inp.connection ++ [c] }).length := by
        rw [connIdxList_snoc, List.length_append, List.length_singleton, hclen]
        omega
      have hk0get : (connIdxList
          { inp with connection := inp.connection ++ [c] })[k0] =
          (connAi inp k0, Rof inp + k0, connBi inp k0) := by
        apply Option.some.inj
        rw [← List.getElem?_eq_getElem hk0len, connIdxList_snoc,
          List.getElem?_append_left (by rw [hclen]; exact hk0),
          connIdxList_getElem? inp hk0]
      have hpredk0 : ((fun e' =>
          (decide (e'.1 = pr.1) && decide (e'.2.2 = pr.2)) ||
          (decide (e'.1 = pr.2) && decide (e'.2.2 = pr.1)))
          ((connIdxList { inp with connection := inp.connection ++ [c] })[k0])) =
          true := by
        rw [hk0get]
        simp only [Bool.or_eq_true, Bool.and_eq_true, decide_eq_true_eq]
        omega
      obtain ⟨i0, hi0le, hi0lt, hhead, _⟩ := head?_filter_le
        (connIdxList { inp with connection := inp.connection ++ [c] })
        (fun e' => (decide (e'.1 = pr.1) && decide (e'.2.2 = pr.2)) ||
          (decide (e'.1 = pr.2) && decide (e'.2.2 = pr.1))) k0 hk0len hpredk0
      have hfd2 : firstDoor (connIdxList
          { inp with connection := inp.connection ++ [c] }) pr.1 pr.2 =
          some ((connIdxList
            { inp with connection := inp.connection ++ [c] })[i0].2.1) := by
        rw [firstDoor, List.head?_map, hhead]
        rfl
      rw [hfd] at hfd2
      have hi0get : (connIdxList
          { inp with connection := inp.connection ++ [c] })[i0] =
          (connAi inp i0, Rof inp + i0, connBi inp i0) := by
        apply Option.some.inj
        rw [← List.getElem?_eq_getElem hi0lt, connIdxList_snoc,
          List.getElem?_append_left (by rw [hclen]; omega),
          connIdxList_getElem? inp (by omega)]
      rw [hi0get] at hfd2
      have : dp = Rof inp + i0 := Option.some.inj hfd2
      omega
  refine ⟨out, out', hok, hok', ?_, ?_, ?_⟩
  · rw [hrl, hrl', length_rlExt, length_rlExt, hmodeq, hm', hf']
    omega
  · intro i j hi hj
    have hreal : ∀ i j : Nat, i < Rof inp → j < Rof inp → i < j →
        (plusEdge out'.triples i j ↔ plusEdge out.triples i j) := by
      intro i j hi hj hij
      rw [countChar_plusEdge hchar' hij, countChar_plusEdge hchar hij]
      have hb2 : j < Rof { inp with connection := inp.connection ++ [c] } +
          ({ inp with connection := inp.connection ++ [c] } :
            FPInput).connection.length +
          ({ inp with connection := inp.connection ++ [c] } :
            FPInput).front_door.length := by
        rw [hm', hf']
        show j < Rof inp + _ + _
        omega
      constructor
      · rintro ⟨_, hs⟩
        refine ⟨by omega, ?_⟩
        rw [sgnFinal_real_iff inp hWF hij hj]
        rw [sgnFinal_real_iff _ hWF' hij hj] at hs
        obtain ⟨e, he, hpe⟩ := hs
        rw [connIdxList_snoc] at he
        rcases List.mem_append.mp he with hm | hm
        · exact ⟨e, hm, hpe⟩
        · rw [List.mem_singleton] at hm
          rw [hm] at hpe
          have hpe' : (roomIdx inp (stdOf inp c.1) = i ∧
              roomIdx inp (stdOf inp c.2) = j) ∨
              (roomIdx inp (stdOf inp c.1) = j ∧
              roomIdx inp (stdOf inp c.2) = i) := hpe
          refine ⟨(connAi inp k0, Rof inp + k0, connBi inp k0),
            connIdxList_mem_elem inp hk0, ?_⟩
          show (connAi inp k0 = i ∧ connBi inp k0 = j) ∨
            (connAi inp k0 = j ∧ connBi inp k0 = i)
          omega
      · rintro ⟨_, hs⟩
        refine ⟨hb2, ?_⟩
        rw [sgnFinal_real_iff _ hWF' hij hj]
        rw [sgnFinal_real_iff inp hWF hij hj] at hs
        obtain ⟨e, he, hpe⟩ := hs
        rw [connIdxList_snoc]
        exact ⟨e, List.mem_append_left _ he, hpe⟩
    rcases Nat.lt_trichotomy i j with hij | hij | hij
    · exact hreal i j hi hj hij
    · subst hij
      constructor
      · intro hp
        exact absurd rfl (countChar_plusEdge_ne hchar' hp).1
      · intro hp
        exact absurd rfl (countChar_plusEdge_ne hchar hp).1
    · exact plusEdge_comm.trans ((hreal j i hj hi hij).trans plusEdge_comm)
  · intro y hplus
    have hne := countChar_plusEdge_ne hchar' hplus
    rcases Nat.lt_trichotomy y (Rof inp + inp.connection.length) with
      hlt | heq | hgt
    · have h1 := (countChar_plusEdge hchar' hlt).mp (plusEdge_comm.mp hplus)
      rw [sgnFinal_eq_one_iff] at h1
      rcases h1.2 with hproc | hfr
      · obtain ⟨pr, hprP, dp, hdp, hcases⟩ := procPlus_cases hproc
        have hpr := (mem_pairsLt _ _).mp hprP
        have hpr2 : pr.2 < Rof inp := hpr.2
        rcases hcases with ⟨hx, hy⟩ | ⟨hx, hy⟩ | ⟨hx, hy⟩
        · omega
        · have := hfd_lt pr dp hpr.1 hpr2 hdp
          omega
        · have := hfd_lt pr dp hpr.1 hpr2 hdp
          omega
      · rw [frontPairs_snoc, List.mem_map] at hfr
        obtain ⟨q, hq, hqe⟩ := hfr
        rw [Prod.mk.injEq] at hqe
        omega
    · exact hne.1 heq.symm
    · have h1 := (countChar_plusEdge hchar' hgt).mp hplus
      rw [sgnFinal_eq_one_iff] at h1
      rcases h1.2 with hproc | hfr
      · obtain ⟨pr, hprP, dp, hdp, hcases⟩ := procPlus_cases hproc
        have hpr := (mem_pairsLt _ _).mp hprP
        have hpr1 : pr.1 < Rof inp := by
          have h2 : pr.2 < Rof inp := hpr.2
          have h1' := hpr.1
          omega
        have hpr2 : pr.2 < Rof inp := hpr.2
        rcases hcases with ⟨hx, hy⟩ | ⟨hx, hy⟩ | ⟨hx, hy⟩ <;> omega
      · rw [frontPairs_snoc, List.mem_map] at hfr
        obtain ⟨q, hq, hqe⟩ := hfr
        rw [Prod.mk.injEq] at hqe
        have hbq : roomIdx inp (stdOf inp q.2) < Rof inp := by
          have hc := List.mem_enum hq
          have hmemq : q.2 ∈ inp.front_door := by
            rw [hc.2]
            exact List.getElem_mem hc.1
          exact (roomIdx_spec inp hWF (hWF.2.2.1 _ hmemq) 0 0).2
        omega

/-- Witness for C9's amended theorem: duplicating the sole connection of
`cx9b`. -/
theorem C9_witness :
    WFbase cx9b ∧ "kitchen1" ∈ cx9b.complete_room_list ∧
    "bedroom1" ∈ cx9b.complete_room_list ∧ 0 < cx9b.connection.length ∧
    (∃ out out', generate_bubble_diagram cx9b = Except.ok out ∧
      generate_bubble_diagram
        { cx9b with connection := cx9b.connection ++ [("kitchen1", "bedroom1")] } =
        Except.ok out' ∧
      out'.room_list.length = out.room_list.length + 1 ∧
      (∀ i j, i < Rof cx9b → j < Rof cx9b →
        (plusEdge out'.triples i j ↔ plusEdge out.triples i j)) ∧
      (∀ y, ¬ plusEdge out'.triples (Rof cx9b + cx9b.connection.length) y)) :=
  ⟨by unfold WFbase; decide, by decide, by decide, by decide,
    C9_duplicate_connection_amended cx9b (by unfold WFbase; decide)
      ("kitchen1", "bedroom1") (by decide) (by decide) 0 (by decide)
      (by decide) (by decide)⟩

/-! ### The layout stage: `generate_layout_masks` (lines 326-371) -/

/-- `np.where(m == 1)[-1]`: the column indices of the `1` entries of a
row-major 0/1 matrix, in scan order (one entry per node row for the
one-hot `graph_nodes`). -/
def whereCols (m : List (List Nat)) : List Nat :=
  m.flatMap (fun row => (row.enum.filter (fun p => decide (p.2 = 1))).map Prod.fst)

/-- `sorted(list(set(l)))`: the distinct values of `l` in ascending
order. -/
def sortedTypes (l : List Nat) : List Nat :=
  l.dedup.insertionSort (· ≤ ·)

/-- `[_types[:k+1] for k in range(10)]` (line 348). -/
def selected_types (rn : List Nat) : List (List Nat) :=
  (List.range 10).map (fun k => (sortedTypes rn).take (k + 1))

/-- `np.concatenate([np.where(real_nodes == _t)[0] for _t in _types])`
(lines 361-362). -/
def fixedNodes (rn : List Nat) (ts : List Nat) : List Nat :=
  ts.flatMap (fun t => (rn.enum.filter (fun p => decide (p.2 = t))).map Prod.fst)

/-- The mask-refinement loop of `generate_layout_masks`, abstracted over
the black-box generator `g` (`self._infer` with the loaded model): `g`
consumes the previous masks (`none` for the initial full-graph pass,
`fixed_nodes: []`) and the fixed-node index list of the round. -/
def generate_layout_masks {μ : Type} (g : Option μ → List Nat → μ)
    (nodes : List (List Nat)) : μ :=
  let real_nodes := whereCols nodes
  (selected_types real_nodes).foldl
    (fun m ts => g (some m) (fixedNodes real_nodes ts)) (g none [])

theorem mem_fixedNodes {rn ts : List Nat} {i : Nat} :
    i ∈ fixedNodes rn ts ↔ ∃ t ∈ ts, rn[i]? = some t := by
  rw [fixedNodes, List.mem_flatMap]
  constructor
  · rintro ⟨t, ht, hi⟩
    rw [List.mem_map] at hi
    obtain ⟨p, hp, hpe⟩ := hi
    rw [List.mem_filter] at hp
    have hc := List.mem_enum hp.1
    have hp2 : p.2 = t := of_decide_eq_true hp.2
    refine ⟨t, ht, ?_⟩
    rw [← hpe]
    rw [List.getElem?_eq_getElem hc.1, ← hc.2, hp2]
  · rintro ⟨t, ht, hi⟩
    have hlt : i < rn.length := by
      by_contra hcon
      rw [List.getElem?_eq_none (by omega)] at hi
      cases hi
    have hval : rn[i] = t := by
      rw [List.getElem?_eq_getElem hlt] at hi
      exact Option.some.inj hi
    refine ⟨t, ht, ?_⟩
    rw [List.mem_map]
    refine ⟨(i, rn[i]), ?_, rfl⟩
    rw [List.mem_filter]
    refine ⟨?_, by simpa using hval⟩
    have := List.getElem_enum rn i (by rwa [List.enum_length])
    rw [← this]
    exact List.getElem_mem _

theorem sortedTypes_sorted (l : List Nat) :
    List.Sorted (· ≤ ·) (sortedTypes l) :=
  List.sorted_insertionSort _ _

theorem sortedTypes_nodup (l : List Nat) : (sortedTypes l).Nodup :=
  (List.perm_insertionSort _ _).nodup_iff.mpr (List.nodup_dedup l)

theorem mem_sortedTypes {l : List Nat} {t : Nat} :
    t ∈ sortedTypes l ↔ t ∈ l :=
  ((List.perm_insertionSort _ _).mem_iff).trans (List.mem_dedup)

theorem take_mono_subset {α : Type} (l : List α) {m n : Nat} (h : m ≤ n) :
    l.take m ⊆ l.take n := by
  intro x hx
  rw [show l.take m = (l.take n).take m from by
    rw [List.take_take, Nat.min_eq_left h]] at hx
  exact List.take_subset _ _ hx

/-- Input whose compiled graph carries a door node typed among the two
smallest codes. -/
def cx4 : FPInput :=
  ⟨["bedroom1", "bedroom2"], ["bedroom1", "bedroom2"],
   [("bedroom1", "bedroom2")], []⟩

/-- Counterexample to C4: `real_nodes = np.where(nodes == 1)[-1]` covers
ALL nodes, doors included. For `cx4` the codes are `[2, 2, 16]` (two
bedrooms and the interior door), and already in round `k = 1` the fixed
set contains node 2 — the interior door — although only nodes 0 and 1 are
real-room nodes. -/
theorem C4_counterexample :
    ∃ out, generate_bubble_diagram cx4 = Except.ok out ∧
      out.real_nodes_len = 2 ∧
      whereCols out.graph_nodes = [2, 2, 16] ∧
      (2 : Nat) ∈ fixedNodes (whereCols out.graph_nodes)
        ((sortedTypes (whereCols out.graph_nodes)).take 2) := by
  refine ⟨_, rfl, by decide, by decide, by decide⟩

/-- C4 (amended): `generate_layout_masks` always runs one initial pass
plus exactly ten refinement rounds; round `k` fixes exactly the node
indices — over ALL nodes, doors included — whose code lies among the
`k + 1` smallest distinct codes of `whereCols nodes`, the prefix
saturating once `k + 1` reaches the number of distinct codes. -/
theorem C4_layout_rounds_amended {μ : Type} (g : Option μ → List Nat → μ)
    (nodes : List (List Nat)) :
    (selected_types (whereCols nodes)).length = 10 ∧
    generate_layout_masks g nodes =
      (selected_types (whereCols nodes)).foldl
        (fun m ts => g (some m) (fixedNodes (whereCols nodes) ts))
        (g none []) ∧
    (∀ k, k < 10 → (selected_types (whereCols nodes))[k]? =
      some ((sortedTypes (whereCols nodes)).take (k + 1))) ∧
    List.Sorted (· ≤ ·) (sortedTypes (whereCols nodes)) ∧
    (sortedTypes (whereCols nodes)).Nodup ∧
    (∀ t, t ∈ sortedTypes (whereCols nodes) ↔ t ∈ whereCols nodes) ∧
    (∀ k i, i ∈ fixedNodes (whereCols nodes)
        ((sortedTypes (whereCols nodes)).take (k + 1)) ↔
      ∃ t ∈ (sortedTypes (whereCols nodes)).take (k + 1),
        (whereCols nodes)[i]? = some t) ∧
    (∀ k, (sortedTypes (whereCols nodes)).length ≤ k + 1 →
      (sortedTypes (whereCols nodes)).take (k + 1) =
        sortedTypes (whereCols nodes)) := by
  refine ⟨?_, rfl, ?_, sortedTypes_sorted _, sortedTypes_nodup _,
    fun t => mem_sortedTypes, fun k i => mem_fixedNodes, fun k hk =>
      List.take_of_length_le hk⟩
  · rw [selected_types, List.length_map, List.length_range]
  · intro k hk
    rw [selected_types, List.getElem?_map,
      List.getElem?_eq_getElem (by rwa [List.length_range]), List.getElem_range]
    rfl

/-- Single-room input: only one distinct type code, so the fixed set
saturates after the first round. -/
def cx5 : FPInput := ⟨["bedroom1"], ["bedroom1"], [], []⟩

/-- Counterexample to C5: for `cx5` the fixed sets of round 0 and round 1
coincide (both fix the single node), so the freeze schedule is not
strictly growing. -/
theorem C5_counterexample :
    ∃ out, generate_bubble_diagram cx5 = Except.ok out ∧
      whereCols out.graph_nodes = [2] ∧
      fixedNodes (whereCols out.graph_nodes)
          ((sortedTypes (whereCols out.graph_nodes)).take (0 + 1)) =
        fixedNodes (whereCols out.graph_nodes)
          ((sortedTypes (whereCols out.graph_nodes)).take (1 + 1)) := by
  refine ⟨_, rfl, by decide, by decide⟩

/-- C5 (amended): across refinement rounds the fixed set never shrinks;
it strictly grows exactly while fresh distinct codes remain (`k + 2 ≤`
number of distinct codes), and is unchanged once the type prefix has
saturated. -/
theorem C5_freeze_monotonicity_amended (rn : List Nat) (k : Nat) :
    (fixedNodes rn ((sortedTypes rn).take (k + 1)) ⊆
      fixedNodes rn ((sortedTypes rn).take (k + 2))) ∧
    (k + 2 ≤ (sortedTypes rn).length →
      ∃ i, i ∈ fixedNodes rn ((sortedTypes rn).take (k + 2)) ∧
        i ∉ fixedNodes rn ((sortedTypes rn).take (k + 1))) ∧
    ((sortedTypes rn).length ≤ k + 1 →
      fixedNodes rn ((sortedTypes rn).take (k + 1)) =
        fixedNodes rn ((sortedTypes rn).take (k + 2))) := by
  refine ⟨?_, ?_, ?_⟩
  · intro x hx
    rw [mem_fixedNodes] at hx ⊢
    obtain ⟨t, ht, hval⟩ := hx
    exact ⟨t, take_mono_subset _ (by omega) ht, hval⟩
  · intro hlen
    have hlt : k + 1 < (sortedTypes rn).length := by omega
    have hsplit : (sortedTypes rn).take (k + 2) =
        (sortedTypes rn).take (k + 1) ++ [(sortedTypes rn)[k + 1]] := by
      rw [List.take_succ, List.getElem?_eq_getElem hlt]
      rfl
    have htmem : (sortedTypes rn)[k + 1] ∈ (sortedTypes rn).take (k + 2) := by
      rw [hsplit]
      exact List.mem_append_right _ (List.mem_singleton.mpr rfl)
    have htnot : (sortedTypes rn)[k + 1] ∉ (sortedTypes rn).take (k + 1) := by
      intro hmem
      have hnd : ((sortedTypes rn).take (k + 2)).Nodup :=
        (List.take_sublist _ _).nodup (sortedTypes_nodup rn)
      rw [hsplit] at hnd
      have hdisj := (List.nodup_append.mp hnd).2.2
      exact hdisj hmem (List.mem_singleton.mpr rfl)
    have htl : (sortedTypes rn)[k + 1] ∈ rn := by
      rw [← mem_sortedTypes]
      exact List.getElem_mem _
    obtain ⟨i, hi, hival⟩ := List.getElem_of_mem htl
    refine ⟨i, ?_, ?_⟩
    · rw [mem_fixedNodes]
      exact ⟨(sortedTypes rn)[k + 1], htmem,
        by rw [List.getElem?_eq_getElem hi, hival]⟩
    · rw [mem_fixedNodes]
      rintro ⟨t, ht, hval⟩
      rw [List.getElem?_eq_getElem hi, hival] at hval
      rw [← Option.some.inj hval] at ht
      exact htnot ht
  · intro hlen
    rw [List.take_of_length_le hlen, List.take_of_length_le (by omega)]

/-! ### Response parsing (lines 246, 255-256): balanced-brace extraction -/

/-- The opening brace character. -/
def lbrace : Char := Char.ofNat 123

/-- The closing brace character. -/
def rbrace : Char := Char.ofNat 125

/-- The whitespace stripping of line 246:
`response_str.replace("\n", "").replace(" ", "")`. -/
def pyStrip (s : List Char) : List Char :=
  s.filter (fun c => !(decide (c = '\n') || decide (c = ' ')))

/-- Depth scan of the recursive balanced-brace pattern of line 255:
consume characters until the brace depth `d` (at least 1 on entry)
returns to zero, accumulating the match; `none` when the braces never
re-balance. Modelled from the spec: the external `regex` module's
recursive pattern matches exactly the balanced block. -/
def balScan : List Char → Nat → List Char → Option (List Char)
  | [], _, _ => none
  | ch :: rest, d, acc =>
    if ch = lbrace then balScan rest (d + 1) (acc ++ [ch])
    else if ch = rbrace then
      if d = 1 then some (acc ++ [ch]) else balScan rest (d - 1) (acc ++ [ch])
    else balScan rest d (acc ++ [ch])

/-- The balanced-brace block anchored at the head of `s`, if any. -/
def balMatch : List Char → Option (List Char)
  | [] => none
  | ch :: rest => if ch = lbrace then balScan rest 1 [ch] else none

/-- `regex.search`: the leftmost balanced-brace block of `s`, if any. -/
def regexSearch : List Char → Option (List Char)
  | [] => none
  | ch :: rest =>
    match balMatch (ch :: rest) with
    | some m => some m
    | none => regexSearch rest

theorem balScan_append :
    ∀ (s : List Char) (d : Nat) (acc m : List Char),
      balScan s d acc = some m → ∀ w, balScan (s ++ w) d acc = some m := by
  intro s
  induction s with
  | nil => intro d acc m h w; cases h
  | cons ch rest ih =>
    intro d acc m h w
    rw [List.cons_append]
    simp only [balScan] at h ⊢
    by_cases h1 : ch = lbrace
    · rw [if_pos h1] at h ⊢
      exact ih _ _ _ h w
    · rw [if_neg h1] at h ⊢
      by_cases h2 : ch = rbrace
      · rw [if_pos h2] at h ⊢
        by_cases h3 : d = 1
        · rw [if_pos h3] at h ⊢
          exact h
        · rw [if_neg h3] at h ⊢
          exact ih _ _ _ h w
      · rw [if_neg h2] at h ⊢
        exact ih _ _ _ h w

theorem balMatch_append {s m : List Char} (h : balMatch s = some m)
    (w : List Char) : balMatch (s ++ w) = some m := by
  cases s with
  | nil => cases h
  | cons ch rest =>
    rw [List.cons_append]
    simp only [balMatch] at h ⊢
    by_cases h1 : ch = lbrace
    · rw [if_pos h1] at h ⊢
      exact balScan_append _ _ _ _ h w
    · rw [if_neg h1] at h
      cases h

theorem balScan_sound :
    ∀ (s : List Char) (d : Nat) (acc m : List Char), balScan s d acc = some m →
      ∃ u v, s = u ++ v ∧ m = acc ++ u ∧
        ∀ w, balScan (u ++ w) d acc = some (acc ++ u) := by
  intro s
  induction s with
  | nil => intro d acc m h; cases h
  | cons ch rest ih =>
    intro d acc m h
    simp only [balScan] at h
    by_cases h1 : ch = lbrace
    · rw [if_pos h1] at h
      obtain ⟨u, v, hs, hm, hw⟩ := ih _ _ _ h
      refine ⟨ch :: u, v, by rw [hs, List.cons_append], ?_, ?_⟩
      · rw [hm, List.append_assoc]
        rfl
      · intro w
        rw [List.cons_append]
        simp only [balScan]
        rw [if_pos h1, hw w, List.append_assoc]
        rfl
    · rw [if_neg h1] at h
      by_cases h2 : ch = rbrace
      · rw [if_pos h2] at h
        by_cases h3 : d = 1
        · rw [if_pos h3] at h
          refine ⟨[ch], rest, rfl, (Option.some.inj h).symm, ?_⟩
          intro w
          show balScan (ch :: w) d acc = some (acc ++ [ch])
          simp only [balScan]
          rw [if_neg h1, if_pos h2, if_pos h3]
        · rw [if_neg h3] at h
          obtain ⟨u, v, hs, hm, hw⟩ := ih _ _ _ h
          refine ⟨ch :: u, v, by rw [hs, List.cons_append], ?_, ?_⟩
          · rw [hm, List.append_assoc]
            rfl
          · intro w
            rw [List.cons_append]
            simp only [balScan]
            rw [if_neg h1, if_pos h2, if_neg h3, hw w, List.append_assoc]
            rfl
      · rw [if_neg h2] at h
        obtain ⟨u, v, hs, hm, hw⟩ := ih _ _ _ h
        refine ⟨ch :: u, v, by rw [hs, List.cons_append], ?_, ?_⟩
        · rw [hm, List.append_assoc]
          rfl
        · intro w
          rw [List.cons_append]
          simp only [balScan]
          rw [if_neg h1, if_neg h2, hw w, List.append_assoc]
          rfl

theorem regexSearch_sound :
    ∀ (s m : List Char), regexSearch s = some m →
      ∃ pre post, s = pre ++ (m ++ post) ∧ balMatch m = some m := by
  intro s
  induction s with
  | nil => intro m h; cases h
  | cons ch rest ih =>
    intro m h
    simp only [regexSearch] at h
    cases hb : balMatch (ch :: rest) with
    | some m' =>
      rw [hb] at h
      have hm' : m' = m := Option.some.inj h
      subst hm'
      simp only [balMatch] at hb
      by_cases h1 : ch = lbrace
      · rw [if_pos h1] at hb
        obtain ⟨u, v, hs, hm, hw⟩ := balScan_sound rest 1 [ch] m' hb
        refine ⟨[], v, ?_, ?_⟩
        · rw [List.nil_append, hm, hs]
          rfl
        · rw [hm]
          show balMatch (ch :: u) = some ([ch] ++ u)
          simp only [balMatch]
          rw [if_pos h1]
          have h0 := hw []
          rw [List.append_nil] at h0
          exact h0
      · rw [if_neg h1] at hb
        cases hb
    | none =>
      rw [hb] at h
      obtain ⟨pre, post, hs, hbm⟩ := ih m h
      refine ⟨ch :: pre, post, ?_, hbm⟩
      rw [hs]
      rfl

theorem regexSearch_skip {pre : List Char} (h : ∀ c ∈ pre, c ≠ lbrace)
    (s : List Char) : regexSearch (pre ++ s) = regexSearch s := by
  induction pre with
  | nil => rw [List.nil_append]
  | cons ch pre ih =>
    rw [List.cons_append]
    simp only [regexSearch]
    have hb : balMatch (ch :: (pre ++ s)) = none := by
      simp only [balMatch]
      rw [if_neg (h ch (List.mem_cons_self _ _))]
    rw [hb]
    exact ih (fun c hc => h c (List.mem_cons_of_mem _ hc))

theorem firstObject_extracted {rsp pre obj post : List Char}
    (hsplit : pyStrip rsp = pre ++ (obj ++ post))
    (hpre : ∀ c ∈ pre, c ≠ lbrace) (hobj : balMatch obj = some obj) :
    regexSearch (pyStrip rsp) = some obj := by
  rw [hsplit, regexSearch_skip hpre]
  cases obj with
  | nil => cases hobj
  | cons ch rest =>
    rw [List.cons_append]
    simp only [regexSearch]
    have hb := balMatch_append hobj post
    rw [List.cons_append] at hb
    rw [hb]

theorem noObject_none {rsp : List Char}
    (h : ∀ pre m post, pyStrip rsp = pre ++ (m ++ post) → balMatch m ≠ some m) :
    regexSearch (pyStrip rsp) = none := by
  cases hr : regexSearch (pyStrip rsp) with
  | none => rfl
  | some m =>
    obtain ⟨pre, post, hs, hbm⟩ := regexSearch_sound _ m hr
    exact absurd hbm (h pre m post hs)

/-- Two adjacent top-level objects. -/
def twoObjs : List Char := [lbrace, 'a', rbrace, lbrace, 'b', rbrace]

/-- Counterexample to C7: on a response holding two top-level
balanced-brace objects the parser does not fail — `regex.search` returns
the FIRST object. -/
theorem C7_counterexample :
    regexSearch (pyStrip twoObjs) = some [lbrace, 'a', rbrace] ∧
    regexSearch (pyStrip twoObjs) ≠ none := by
  constructor
  · decide
  · decide

/-- C7 (amended): after whitespace stripping, the parser extracts the
FIRST balanced-brace block: if the response splits as brace-free prose,
then a balanced object, then anything (including a second object), that
object is returned; and when no balanced block occurs at all the search
fails with no match (the `response-parse` failure). -/
theorem C7_response_parse (rsp : List Char) :
    (∀ pre obj post, pyStrip rsp = pre ++ (obj ++ post) →
      (∀ c ∈ pre, c ≠ lbrace) → balMatch obj = some obj →
      regexSearch (pyStrip rsp) = some obj) ∧
    ((∀ pre m post, pyStrip rsp = pre ++ (m ++ post) → balMatch m ≠ some m) →
      regexSearch (pyStrip rsp) = none) :=
  ⟨fun _ _ _ hsplit hpre hobj => firstObject_extracted hsplit hpre hobj,
   fun h => noObject_none h⟩

end AnyHome
